import Mathlib

/-!
# The in-memory iptables engine of `internal/hostport/fake_iptables.go`

A shallow embedding of the fake iptables engine (tables, chains, ordered rule
lists, the rule normalizer, the save format and the restore state machine) and
theorems about it.

Go strings are modelled as lists of characters (`Str`); this covers every
string that is valid UTF-8.  All delimiters the code looks for (space, newline,
double quote, `=`, `#`, `*`, `:`, `-`) are ASCII, so byte indices found by
`strings.Index` and friends correspond to character positions.

A Go run-time panic (index or slice bound out of range) is the result
`Res.crash`.  Loops that Go writes as `for { ... }` are given a fuel argument;
running out of fuel is the separate result `Res.outOfFuel`, which the top-level
functions are proved never to return.
-/

namespace FakeIPTables

/-! ## Strings -/

/-- A Go string, as its sequence of characters. -/
abbrev Str := List Char

/-- The double quote character. -/
def dquote : Char := Char.ofNat 34

/-- The backslash character. -/
def backslash : Char := Char.ofNat 92

/-- The newline character. -/
def newline : Char := Char.ofNat 10

/-- The predicate `unicode.IsSpace`: the characters `strings.TrimSpace` removes. -/
def isSpace (c : Char) : Bool :=
  let n := c.toNat
  (9 ≤ n && n ≤ 13) || n = 32 || n = 0x85 || n = 0xA0 || n = 0x1680 ||
  (0x2000 ≤ n && n ≤ 0x200A) || n = 0x2028 || n = 0x2029 || n = 0x202F ||
  n = 0x205F || n = 0x3000

/-- The function `strings.TrimSpace`: drop leading and trailing white space. -/
def trimSpace (s : Str) : Str :=
  ((s.dropWhile isSpace).reverse.dropWhile isSpace).reverse

/-- The function `strings.HasPrefix`. -/
def startsWith : Str → Str → Bool
  | _, [] => true
  | [], _ :: _ => false
  | c :: s, d :: p => c = d && startsWith s p

/-- The function `strings.TrimPrefix`: remove one leading copy of `p`, if present. -/
def cutPrefix (s p : Str) : Str :=
  if startsWith s p then s.drop p.length else s

/-- The function `strings.TrimSuffix` for a one-character suffix. -/
def cutSuffixChar : Str → Char → Str
  | [], _ => []
  | [c], d => if c = d then [] else [c]
  | c :: c2 :: s, d => c :: cutSuffixChar (c2 :: s) d

/-- The function `strings.Index` for a one-character needle: position of the
first occurrence, `none` for Go's `-1`. -/
def indexChar : Str → Char → Option Nat
  | [], _ => none
  | c :: s, d => if c = d then some 0 else (indexChar s d).map (· + 1)

/-- The call `strings.Replace(s, old, new, 1)` for one-character `old` and `new`:
replace the first occurrence only. -/
def replaceFirst : Str → Char → Char → Str
  | [], _, _ => []
  | c :: s, old, new => if c = old then new :: s else c :: replaceFirst s old new

/-- The function `strings.Contains`. -/
def strContains : Str → Str → Bool
  | [], sub => startsWith [] sub
  | c :: s, sub => startsWith (c :: s) sub || strContains s sub

/-- The call `strings.Split(s, " ")` generalised to any one-character
separator: the pieces between separators, always at least one piece. -/
def splitOn : Str → Char → List Str
  | [], _ => [[]]
  | c :: s, sep =>
    if c = sep then [] :: splitOn s sep
    else match splitOn s sep with
      | [] => [[c]]
      | p :: ps => (c :: p) :: ps

/-- The function `strings.Join(parts, " ")`. -/
def joinSp : List Str → Str
  | [] => []
  | [a] => a
  | a :: b :: rest => a ++ ' ' :: joinSp (b :: rest)

/-! ## Results -/

/-- The error values the engine creates (one constructor per message format). -/
inductive Err where
  /-- The error `table %s does not exist`. -/
  | tableNotFound (table : Str)
  /-- The error `chain %s/%s does not exist`. -/
  | chainNotFound (table chain : Str)
  /-- The error `invalid rule syntax: mismatched quotes`. -/
  | mismatchedQuotes
  /-- The error `unknown position argument %q`. -/
  | unknownPosition (position : Str)
  /-- The error `invalid iptables rule '%s'`. -/
  | invalidRule (line : Str)
  deriving DecidableEq, Repr

/-- What a call produces: a value with a nil error, a non-nil error, a run-time
panic (`crash`), or exhausted loop fuel in the model (`outOfFuel`). -/
inductive Res (α : Type) where
  | ok (a : α)
  | err (e : Err)
  | crash
  | outOfFuel
  deriving DecidableEq, Repr

/-! ## The address classifier -/

/-- The result type `utilnet.IPFamily` of the address classifier. -/
inductive IPFamily where
  | IPv4
  | IPv6
  | IPFamilyUnknown
  deriving DecidableEq, Repr

/-- The external function `utilnet.IPFamilyOfString`, a parameter of the model. -/
abbrev Classifier := Str → IPFamily

/-! ## The normalizer -/

/-- The literal `--to-destination=`. -/
def toDestination : Str := "--to-destination=".toList

/-- The error-free part of finding the end of the next token in
`normalizeRule`: `none` is the mismatched-quotes error. -/
def tokenEnd (remaining : Str) : Option Nat :=
  match remaining with
  | [] => some 0
  | c :: rest =>
    if c = dquote then
      match indexChar rest dquote with
      | none => none
      | some i => some (i + 2)
    else
      match indexChar (c :: rest) ' ' with
      | none => some (c :: rest).length
      | some i => some i

/-- The suffix added to un-prefixed addresses in `normalizeRule`. -/
def addrSuffix (ipFamilyOfString : Classifier) (arg : Str) : Str :=
  match ipFamilyOfString arg with
  | .IPv4 => arg ++ "/32".toList
  | .IPv6 => arg ++ "/128".toList
  | .IPFamilyUnknown => arg

/-- The `for` loop of `normalizeRule`, one iteration per unit of fuel.  The
step `remaining[end+1:]` skips one byte in Go and one character here: after an
unquoted token that is the space found, after a quoted token it is whatever
follows the closing quote, and the two agree when that character is a
one-byte (ASCII) character. -/
def normalizeLoop (ipFamilyOfString : Classifier) : Nat → Str → Str → Res Str
  | 0, _, _ => .outOfFuel
  | fuel + 1, normalized, remaining =>
    let remaining :=
      if startsWith remaining toDestination then replaceFirst remaining '=' ' '
      else remaining
    match remaining with
    | [] => .crash
    | c :: rest =>
      match tokenEnd (c :: rest) with
      | none => .err .mismatchedQuotes
      | some tokEnd =>
        if (c :: rest).length < tokEnd then .crash
        else
          let arg := addrSuffix ipFamilyOfString ((c :: rest).take tokEnd)
          let normalized := if normalized ≠ [] then normalized ++ [' '] else normalized
          let normalized := normalized ++ trimSpace arg
          if (c :: rest).length = tokEnd then .ok normalized
          else if (c :: rest).length < tokEnd + 1 then .crash
          else normalizeLoop ipFamilyOfString fuel normalized ((c :: rest).drop (tokEnd + 1))

/-- The function `normalizeRule`. -/
def normalizeRule (ipFamilyOfString : Classifier) (rule : Str) : Res Str :=
  normalizeLoop ipFamilyOfString ((trimSpace rule).length + 1) [] (trimSpace rule)

/-- The characters of address literals: hexadecimal digits, dot and colon. -/
def isAddrChar (c : Char) : Bool :=
  let n := c.toNat
  (48 ≤ n && n ≤ 57) || (97 ≤ n && n ≤ 102) || (65 ≤ n && n ≤ 70) || n = 46 || n = 58

/-- A sample address classifier, used for concrete evaluations only: among the
strings of address characters, dotted quads of one to three characters are
IPv4 and strings with at least two colons are IPv6. -/
def sampleClassifier : Classifier := fun s =>
  if s.all isAddrChar then
    if (splitOn s '.').length = 4 ∧ (splitOn s '.').all (fun p => 1 ≤ p.length ∧ p.length ≤ 3) then
      .IPv4
    else if 2 ≤ (s.filter (· = ':')).length then .IPv6
    else .IPFamilyUnknown
  else .IPFamilyUnknown

/-- A sample for the external `fmt.Sprintf("%q", arg)`, used for concrete
evaluations only: the argument between double quotes, with a backslash before
each double quote and backslash (what `strconv.Quote` gives for printable
text). -/
def sampleQuote (arg : Str) : Str :=
  dquote :: (arg.flatMap fun c => if c = dquote ∨ c = backslash then [backslash, c] else [c])
    ++ [dquote]

/-! ## Maps -/

/-- A Go `map[string]V`, as an association list read at the first match. -/
abbrev Map (β : Type) := List (Str × β)

/-- The map read `m[k]` with its `ok` flag. -/
def mget {β : Type} (k : Str) : Map β → Option β
  | [] => none
  | (k', v) :: m => if k' = k then some v else mget k m

/-- The map write `m[k] = v`: replace the entry of `k`, or add one. -/
def mset {β : Type} (k : Str) (v : β) : Map β → Map β
  | [] => [(k, v)]
  | (k', v') :: m => if k' = k then (k, v) :: m else (k', v') :: mset k v m

/-- The call `delete(m, k)`. -/
def mdel {β : Type} (k : Str) (m : Map β) : Map β :=
  m.filter fun e => e.1 ≠ k

/-! ## The store -/

/-- The struct `fakeChain`. -/
structure fakeChain where
  name : Str
  rules : List Str
  deriving DecidableEq, Repr

/-- The struct `fakeTable`. -/
structure fakeTable where
  name : Str
  chains : Map fakeChain
  deriving DecidableEq, Repr

/-- The type `utiliptables.Protocol`. -/
inductive Protocol where
  | ProtocolIPv4
  | ProtocolIPv6
  deriving DecidableEq, Repr

/-- The struct `fakeIPTables`; `sets.Set[string]` is a list of members. -/
structure fakeIPTables where
  tables : Map fakeTable
  builtinChains : Map (List Str)
  protocol : Protocol
  deriving DecidableEq, Repr

/-- Modelled from the spec: the type `utiliptables.RulePosition` of package
`internal/iptables`, whose declaration is not among the sources.  The spec has
`position ∈ {Prepend, Append}` and calls any other value unrecognized. -/
inductive RulePosition where
  | Prepend
  | Append
  | unrecognized (position : Str)
  deriving DecidableEq, Repr

/-- Modelled from the spec: the type `utiliptables.FlushFlag` of package
`internal/iptables`: the flag either requests a full-table flush or not. -/
inductive FlushFlag where
  | FlushTables
  | NoFlushTables
  deriving DecidableEq, Repr

/-- The function `newFakeIPTables`. -/
def newFakeIPTables : fakeIPTables where
  tables := [("filter".toList, { name := "filter".toList, chains := [] }),
             ("nat".toList, { name := "nat".toList, chains := [] })]
  builtinChains :=
    [("filter".toList, ["INPUT".toList, "FORWARD".toList, "OUTPUT".toList]),
     ("nat".toList, ["PREROUTING".toList, "INPUT".toList, "OUTPUT".toList, "POSTROUTING".toList]),
     ("mangle".toList, ["PREROUTING".toList, "INPUT".toList, "FORWARD".toList, "OUTPUT".toList,
        "POSTROUTING".toList])]
  protocol := .ProtocolIPv4

/-- The method `getTable`. -/
def getTable (f : fakeIPTables) (tableName : Str) : Except Err fakeTable :=
  match mget tableName f.tables with
  | none => .error (.tableNotFound tableName)
  | some table => .ok table

/-- The three shapes of the triple `(table, chain, err)` that `getChain` returns. -/
inductive ChainLookup where
  /-- The triple `(nil, nil, err)`. -/
  | noTable (e : Err)
  /-- The triple `(table, nil, err)`. -/
  | noChain (table : fakeTable) (e : Err)
  /-- The triple `(table, chain, nil)`. -/
  | found (table : fakeTable) (chain : fakeChain)
  deriving DecidableEq, Repr

/-- The method `getChain`. -/
def getChain (f : fakeIPTables) (tableName chainName : Str) : ChainLookup :=
  match getTable f tableName with
  | .error e => .noTable e
  | .ok table =>
    match mget chainName table.chains with
    | none => .noChain table (.chainNotFound tableName chainName)
    | some chain => .found table chain

/-- The effect of writing through the pointer to table `tableName`: the
table's chain map becomes `chains`. -/
def putChains (f : fakeIPTables) (tableName : Str) (table : fakeTable) (chains : Map fakeChain) :
    fakeIPTables :=
  { f with tables := mset tableName { table with chains := chains } f.tables }

/-- The method `ensureChain`: the store afterwards, whether the chain existed,
and the chain. -/
def ensureChain (f : fakeIPTables) (tableName chainName : Str) : fakeIPTables × Bool × fakeChain :=
  match getChain f tableName chainName with
  | .noTable _ =>
    let chain : fakeChain := { name := chainName, rules := [] }
    (putChains f tableName { name := tableName, chains := [] } (mset chainName chain []),
      false, chain)
  | .noChain table _ =>
    let chain : fakeChain := { name := chainName, rules := [] }
    (putChains f tableName table (mset chainName chain table.chains), false, chain)
  | .found _ chain => (f, true, chain)

/-- The method `EnsureChain`. -/
def EnsureChain (f : fakeIPTables) (tableName chainName : Str) : fakeIPTables × Res Bool :=
  let r := ensureChain f tableName chainName
  (r.1, .ok r.2.1)

/-- The effect of the assignment `chain.rules = rules` through the pointer to
chain `chainName` of table `tableName`. -/
def setRules (f : fakeIPTables) (tableName chainName : Str) (chain : fakeChain)
    (rules : List Str) : fakeIPTables :=
  match mget tableName f.tables with
  | none => f
  | some table =>
    putChains f tableName table (mset chainName { chain with rules := rules } table.chains)

/-- The method `FlushChain`. -/
def FlushChain (f : fakeIPTables) (tableName chainName : Str) : fakeIPTables × Res Unit :=
  match getChain f tableName chainName with
  | .noTable e => (f, .err e)
  | .noChain _ e => (f, .err e)
  | .found _ chain => (setRules f tableName chainName chain [], .ok ())

/-- The method `DeleteChain`. -/
def DeleteChain (f : fakeIPTables) (tableName chainName : Str) : fakeIPTables × Res Unit :=
  match getChain f tableName chainName with
  | .noTable e => (f, .err e)
  | .noChain _ e => (f, .err e)
  | .found table _ => (putChains f tableName table (mdel chainName table.chains), .ok ())

/-- The method `ChainExists`: the boolean and the error it returns (`none` is
a nil error). -/
def ChainExists (f : fakeIPTables) (tableName chainName : Str) : Bool × Option Err :=
  match getChain f tableName chainName with
  | .noTable e => (false, some e)
  | .noChain _ e => (false, some e)
  | .found _ _ => (true, none)

/-- The search loop of `findRule` over the rules from position `i` on. -/
def findRuleFrom (rule : Str) : List Str → Nat → Int
  | [], _ => -1
  | candidate :: rest, i => if rule = candidate then (i : Int) else findRuleFrom rule rest (i + 1)

/-- The function `findRule`: index of the rule in the chain, negative if absent. -/
def findRule (chain : fakeChain) (rule : Str) : Int :=
  findRuleFrom rule chain.rules 0

/-- The method `ensureRule`. -/
def ensureRule (ipFamilyOfString : Classifier) (f : fakeIPTables) (position : RulePosition)
    (tableName chainName rule : Str) : fakeIPTables × Res Bool :=
  let fc : fakeIPTables × fakeChain :=
    match getChain f tableName chainName with
    | .found _ chain => (f, chain)
    | _ => let r := ensureChain f tableName chainName; (r.1, r.2.2)
  let f := fc.1
  let chain := fc.2
  match normalizeRule ipFamilyOfString rule with
  | .err e => (f, .err e)
  | .crash => (f, .crash)
  | .outOfFuel => (f, .outOfFuel)
  | .ok rule =>
    if findRule chain rule ≥ 0 then (f, .ok true)
    else
      match position with
      | .Prepend => (setRules f tableName chainName chain ([rule] ++ chain.rules), .ok false)
      | .Append => (setRules f tableName chainName chain (chain.rules ++ [rule]), .ok false)
      | .unrecognized p => (f, .err (.unknownPosition p))

/-- The string `EnsureRule` hands to `ensureRule`: arguments with an internal
space are quoted by the external `fmt.Sprintf("%q", arg)`, a parameter of the
model, and all are joined by single spaces. -/
def ruleArgs (quote : Str → Str) (args : List Str) : List Str :=
  args.map fun arg => if strContains arg [' '] then quote arg else arg

/-- The method `EnsureRule`. -/
def EnsureRule (ipFamilyOfString : Classifier) (quote : Str → Str) (f : fakeIPTables)
    (position : RulePosition) (tableName chainName : Str) (args : List Str) :
    fakeIPTables × Res Bool :=
  ensureRule ipFamilyOfString f position tableName chainName (joinSp (ruleArgs quote args))

/-- The method `DeleteRule`. -/
def DeleteRule (f : fakeIPTables) (tableName chainName : Str) (args : List Str) :
    fakeIPTables × Res Unit :=
  match getChain f tableName chainName with
  | .found _ chain =>
    let rule := joinSp args
    let ruleIdx := findRule chain rule
    if ruleIdx < 0 then (f, .ok ())
    else
      (setRules f tableName chainName chain
        (chain.rules.take ruleIdx.toNat ++ chain.rules.drop (ruleIdx.toNat + 1)), .ok ())
  | _ => (f, .ok ())

/-- The method `isBuiltinChain`. -/
def isBuiltinChain (f : fakeIPTables) (tableName chainName : Str) : Bool :=
  match mget tableName f.builtinChains with
  | some builtinChains => decide (chainName ∈ builtinChains)
  | none => false

/-! ## Save -/

/-- The function `saveChain`: one `-A` line per rule, appended to `data`. -/
def saveChain (chain : fakeChain) (data : Str) : Str :=
  chain.rules.foldl
    (fun data rule => data ++ "-A ".toList ++ chain.name ++ [' '] ++ rule ++ [newline]) data

/-- The method `SaveInto`.  Go ranges over the chain map in an unspecified
order; `rangeOrder` gives the order in which the chains of a map are visited. -/
def SaveInto (rangeOrder : Map fakeChain → List fakeChain) (f : fakeIPTables) (tableName : Str)
    (buffer : Str) : Str × Res Unit :=
  match getTable f tableName with
  | .error e => (buffer, .err e)
  | .ok table =>
    let buffer := buffer ++ ['*'] ++ table.name ++ [newline]
    let br : Str × Str :=
      (rangeOrder table.chains).foldl
        (fun br chain =>
          (br.1 ++ [':'] ++ chain.name ++ " - [0:0]".toList ++ [newline], saveChain chain br.2))
        (buffer, [])
    (br.1 ++ br.2 ++ "COMMIT".toList ++ [newline], .ok ())

/-! ## Restore -/

/-- The lines that the successive calls `buf.ReadString('\n')` of `restore`
return with a nil error: each ends with its newline.  Text after the last
newline comes with `io.EOF`, on which the loop stops without looking at it. -/
def readLines : Str → List Str
  | [] => []
  | c :: s =>
    if c = newline then [newline] :: readLines s
    else match readLines s with
      | [] => []
      | l :: ls => (c :: l) :: ls

/-- What one iteration of the loop of `restore` does: go on to the next line
with a store and current table name, or make `restore` return. -/
inductive Step where
  | next (f : fakeIPTables) (tableName : Str)
  | done (f : fakeIPTables) (r : Res Unit)
  deriving DecidableEq, Repr

/-- The pattern `if err := call; err != nil { return err }` inside the loop:
go on to the next line when the call succeeded, return its failure otherwise. -/
def Step.ofCall {α : Type} (tableName : Str) : fakeIPTables × Res α → Step
  | (f, .ok _) => .next f tableName
  | (f, .err e) => .done f (.err e)
  | (f, .crash) => .done f .crash
  | (f, .outOfFuel) => .done f .outOfFuel

/-- The store a loop iteration leaves. -/
def Step.store : Step → fakeIPTables
  | .next f _ => f
  | .done f _ => f

/-- The `-A` and `-I` branches of `restore`, which differ in the flag and the
position only. -/
def restoreRule (ipFamilyOfString : Classifier) (f : fakeIPTables) (tableName line flag : Str)
    (position : RulePosition) : Step :=
  let parts := splitOn line ' '
  if parts.length < 3 then .done f (.err (.invalidRule line))
  else
    match parts with
    | _ :: chainName :: _ =>
      let rule := cutPrefix line (flag ++ [' '] ++ chainName ++ [' '])
      Step.ofCall tableName (ensureRule ipFamilyOfString f position tableName chainName rule)
    | _ => .done f .crash

/-- The chain-header branch of `restore` once the chain name is known: delete
the chain first under the flush flag, ensure it, and flush it unless it is a
builtin chain or the stream mentions `-X chain`. -/
def restoreChain (f : fakeIPTables) (tableName chainName allLines : Str) (flush : FlushFlag) :
    Step :=
  let deleted : Except Err fakeIPTables :=
    if flush = .FlushTables then
      match getChain f tableName chainName with
      | .noTable e => .error e
      | .noChain _ e => .error e
      | .found table _ => .ok (putChains f tableName table (mdel chainName table.chains))
    else .ok f
  match deleted with
  | .error e => .done f (.err e)
  | .ok f =>
    let f := (ensureChain f tableName chainName).1
    if !isBuiltinChain f tableName chainName
        && !strContains allLines ("-X ".toList ++ chainName) then
      Step.ofCall tableName (FlushChain f tableName chainName)
    else .next f tableName

/-- The chain-header branch (`:chain ...`) of `restore`. -/
def restoreHeader (f : fakeIPTables) (tableName line allLines : Str) (flush : FlushFlag) : Step :=
  match splitOn (line.drop 1) ' ' with
  | [] => .done f .crash
  | chainName :: _ => restoreChain f tableName chainName allLines flush

/-- The `-X` branch of `restore`. -/
def restoreDelete (f : fakeIPTables) (tableName line : Str) : Step :=
  let parts := splitOn line ' '
  if parts.length < 2 then .done f (.err (.invalidRule line))
  else
    match parts with
    | _ :: chainName :: _ =>
      Step.ofCall tableName (DeleteChain f tableName chainName)
    | _ => .done f .crash

/-- The block `if tableName != "" { ... }` of the loop of `restore`, for a line
without its newline. -/
def restoreBlock (ipFamilyOfString : Classifier) (restoreTableName allLines : Str)
    (flush : FlushFlag) (f : fakeIPTables) (tableName line : Str) : Step :=
  if tableName ≠ [] then
    if restoreTableName ≠ [] ∧ restoreTableName ≠ tableName then .next f tableName
    else if startsWith line [':'] then restoreHeader f tableName line allLines flush
    else if startsWith line "-A".toList then
      restoreRule ipFamilyOfString f tableName line "-A".toList .Append
    else if startsWith line "-I".toList then
      restoreRule ipFamilyOfString f tableName line "-I".toList .Prepend
    else if startsWith line "-X".toList then restoreDelete f tableName line
    else if line = "COMMIT".toList then
      if restoreTableName = tableName then .done f (.ok ()) else .next f []
    else .next f tableName
  else .next f tableName

/-- The body of the loop of `restore` for one line read from the buffer. -/
def restoreLine (ipFamilyOfString : Classifier) (restoreTableName allLines : Str)
    (flush : FlushFlag) (f : fakeIPTables) (tableName line : Str) : Step :=
  match line with
  | [] => .done f .crash
  | c0 :: _ =>
    if c0 = '#' then .next f tableName
    else
      let line := cutSuffixChar line newline
      let tableName := if startsWith line ['*'] then line.drop 1 else tableName
      restoreBlock ipFamilyOfString restoreTableName allLines flush f tableName line

/-- The loop of `restore` over the lines read. -/
def restoreLines (ipFamilyOfString : Classifier) (restoreTableName allLines : Str)
    (flush : FlushFlag) : List Str → fakeIPTables → Str → fakeIPTables × Res Unit
  | [], f, _ => (f, .ok ())
  | line :: rest, f, tableName =>
    match restoreLine ipFamilyOfString restoreTableName allLines flush f tableName line with
    | .next f tableName =>
      restoreLines ipFamilyOfString restoreTableName allLines flush rest f tableName
    | .done f r => (f, r)

/-- The method `restore`. -/
def restore (ipFamilyOfString : Classifier) (f : fakeIPTables) (restoreTableName data : Str)
    (flush : FlushFlag) : fakeIPTables × Res Unit :=
  restoreLines ipFamilyOfString restoreTableName data flush (readLines data) f []

/-- The method `Restore` (the counters flag is ignored by the code). -/
def Restore (ipFamilyOfString : Classifier) (f : fakeIPTables) (tableName data : Str)
    (flush : FlushFlag) : fakeIPTables × Res Unit :=
  restore ipFamilyOfString f tableName data flush

/-- The method `RestoreAll` (the counters flag is ignored by the code). -/
def RestoreAll (ipFamilyOfString : Classifier) (f : fakeIPTables) (data : Str)
    (flush : FlushFlag) : fakeIPTables × Res Unit :=
  restore ipFamilyOfString f [] data flush

/-- The loop of `restore` over a run of lines none of which makes `restore`
return: the store and current table name afterwards, `none` if a line returns. -/
def restorePrefix (ipFamilyOfString : Classifier) (restoreTableName allLines : Str)
    (flush : FlushFlag) : List Str → fakeIPTables → Str → Option (fakeIPTables × Str)
  | [], f, tableName => some (f, tableName)
  | line :: rest, f, tableName =>
    match restoreLine ipFamilyOfString restoreTableName allLines flush f tableName line with
    | .next f tableName =>
      restorePrefix ipFamilyOfString restoreTableName allLines flush rest f tableName
    | .done _ _ => none

/-- The restore stream made of the lines `*t`, `:c - [0:0]` and `COMMIT`. -/
def headerStream (t c : Str) : Str :=
  ('*' :: t) ++ (newline :: (((':' :: c) ++ " - [0:0]".toList) ++
    (newline :: ("COMMIT".toList ++ [newline]))))

/-- A text as the list of its lines' characters, for concrete evaluations. -/
def text (lines : List String) : Str :=
  lines.flatMap fun l => l.toList ++ [newline]

/-! ## Views of the store used to state properties -/

/-- The chain `chainName` of table `tableName`, if both exist. -/
def chainAt (f : fakeIPTables) (tableName chainName : Str) : Option fakeChain :=
  match mget tableName f.tables with
  | none => none
  | some table => mget chainName table.chains

/-- The rule list of chain `chainName` of table `tableName`, if both exist. -/
def rulesAt (f : fakeIPTables) (tableName chainName : Str) : Option (List Str) :=
  (chainAt f tableName chainName).map fakeChain.rules

/-- How many times `rule` occurs in a rule list. -/
def occurrences (rule : Str) : List Str → Nat
  | [] => 0
  | x :: rest => (if x = rule then 1 else 0) + occurrences rule rest

/-- Every chain of the store holds pairwise distinct rules. -/
def NoDupRules (f : fakeIPTables) : Prop :=
  ∀ t c chain, chainAt f t c = some chain → chain.rules.Nodup

/-- The stores a fresh engine can be brought into by calls of the exposed
operations that change it, whatever those calls return. -/
inductive Reachable (ipFamilyOfString : Classifier) (quote : Str → Str) : fakeIPTables → Prop where
  | fresh : Reachable ipFamilyOfString quote newFakeIPTables
  | EnsureChain {f : fakeIPTables} (t c : Str) :
      Reachable ipFamilyOfString quote f →
      Reachable ipFamilyOfString quote (EnsureChain f t c).1
  | FlushChain {f : fakeIPTables} (t c : Str) :
      Reachable ipFamilyOfString quote f →
      Reachable ipFamilyOfString quote (FlushChain f t c).1
  | DeleteChain {f : fakeIPTables} (t c : Str) :
      Reachable ipFamilyOfString quote f →
      Reachable ipFamilyOfString quote (DeleteChain f t c).1
  | EnsureRule {f : fakeIPTables} (position : RulePosition) (t c : Str) (args : List Str) :
      Reachable ipFamilyOfString quote f →
      Reachable ipFamilyOfString quote (EnsureRule ipFamilyOfString quote f position t c args).1
  | DeleteRule {f : fakeIPTables} (t c : Str) (args : List Str) :
      Reachable ipFamilyOfString quote f →
      Reachable ipFamilyOfString quote (DeleteRule f t c args).1
  | Restore {f : fakeIPTables} (t data : Str) (flush : FlushFlag) :
      Reachable ipFamilyOfString quote f →
      Reachable ipFamilyOfString quote (Restore ipFamilyOfString f t data flush).1
  | RestoreAll {f : fakeIPTables} (data : Str) (flush : FlushFlag) :
      Reachable ipFamilyOfString quote f →
      Reachable ipFamilyOfString quote (RestoreAll ipFamilyOfString f data flush).1

/-! ## The normalizer loop without fuel -/

/-- The rewrite at the head of each iteration of `normalizeRule`: a leading
`--to-destination=` gets its `=` replaced by a space. -/
def rewriteDest (remaining : Str) : Str :=
  if startsWith remaining toDestination then replaceFirst remaining '=' ' ' else remaining

/-- The text `normalized` after the token `arg` has been processed. -/
def pushToken (ipFamilyOfString : Classifier) (normalized arg : Str) : Str :=
  (if normalized ≠ [] then normalized ++ [' '] else normalized)
    ++ trimSpace (addrSuffix ipFamilyOfString arg)

/-- The loop of `normalizeRule` started with fuel for every character left. -/
def normFrom (ipFamilyOfString : Classifier) (normalized remaining : Str) : Res Str :=
  normalizeLoop ipFamilyOfString (remaining.length + 1) normalized remaining

/-- A classifier that accepts only non-empty strings of address characters, as
`utilnet.IPFamilyOfString` does. -/
def AddrOnly (ipFamilyOfString : Classifier) : Prop :=
  ∀ x, ipFamilyOfString x ≠ .IPFamilyUnknown → x ≠ [] ∧ ∀ c ∈ x, isAddrChar c = true

/-- A text whose only white-space characters are plain spaces. -/
def PlainSpaces (s : Str) : Prop :=
  ∀ c ∈ s, isSpace c = true → c = ' '

/-- The text `normalized` followed by `text`, with a space between them unless
`normalized` is empty. -/
def glue (normalized text : Str) : Str :=
  if normalized = [] then text else normalized ++ ' ' :: text

/-- A text that the loop of `normalizeRule` reproduces as it is. -/
def Fixed (ipFamilyOfString : Classifier) (text : Str) : Prop :=
  ∀ N, (N ≠ [] ∨ text.head? ≠ some ' ') →
    normFrom ipFamilyOfString N text = .ok (glue N text)

/-- A canonical rule: a fixed point of `normalizeRule` without a newline. -/
def Canon (ipFamilyOfString : Classifier) (rule : Str) : Prop :=
  normalizeRule ipFamilyOfString rule = .ok rule ∧ newline ∉ rule

/-! ## Stores built by `EnsureChain` and `EnsureRule`, and the save format -/

/-- A table or chain name that the save format can carry: non-empty, without
spaces and newlines. -/
def NameOK (s : Str) : Prop :=
  s ≠ [] ∧ ' ' ∉ s ∧ newline ∉ s

/-- The stores a fresh engine gets into by `EnsureChain` and `EnsureRule` calls
with well-formed names, where the rule text `EnsureRule` builds from its
arguments has no white space other than plain spaces. -/
inductive Built (ipFamilyOfString : Classifier) (quote : Str → Str) : fakeIPTables → Prop where
  | fresh : Built ipFamilyOfString quote newFakeIPTables
  | EnsureChain {f : fakeIPTables} (t c : Str) :
      NameOK t → NameOK c → Built ipFamilyOfString quote f →
      Built ipFamilyOfString quote (EnsureChain f t c).1
  | EnsureRule {f : fakeIPTables} (position : RulePosition) (t c : Str) (args : List Str) :
      NameOK t → NameOK c → PlainSpaces (joinSp (ruleArgs quote args)) →
      Built ipFamilyOfString quote f →
      Built ipFamilyOfString quote (EnsureRule ipFamilyOfString quote f position t c args).1

/-- What holds of each chain of a built store. -/
def ChainInv (ipFamilyOfString : Classifier) (c : Str) (chain : fakeChain) : Prop :=
  chain.name = c ∧ ' ' ∉ c ∧ newline ∉ c ∧ chain.rules.Nodup ∧
    ∀ r ∈ chain.rules, Canon ipFamilyOfString r

/-- What holds of each table of a built store. -/
def TableInv (ipFamilyOfString : Classifier) (t : Str) (table : fakeTable) : Prop :=
  table.name = t ∧ t ≠ [] ∧ newline ∉ t ∧ (table.chains.map Prod.fst).Nodup ∧
    (∀ e ∈ table.chains, ChainInv ipFamilyOfString e.1 e.2) ∧
    (table.chains = [] → (mget t newFakeIPTables.tables).isSome)

/-- What holds of a built store. -/
def StoreInv (ipFamilyOfString : Classifier) (f : fakeIPTables) : Prop :=
  ∀ t table, mget t f.tables = some table → TableInv ipFamilyOfString t table

/-- Every table and every chain of the store is filed under its own name, and
no table holds two chains under one name. -/
def WellNamed (f : fakeIPTables) : Prop :=
  ∀ t table, mget t f.tables = some table →
    table.name = t ∧ (table.chains.map Prod.fst).Nodup ∧ ∀ e ∈ table.chains, e.2.name = e.1

/-- The header line of a chain in the save format, without its newline. -/
def headerBody (chain : fakeChain) : Str :=
  ':' :: chain.name ++ " - [0:0]".toList

/-- The line of a rule in the save format, without its newline. -/
def ruleBody (c rule : Str) : Str :=
  "-A".toList ++ ' ' :: (c ++ ' ' :: rule)

/-- The lines `SaveInto` writes for a table whose chains are visited in the
order `chains`, without their newlines. -/
def saveLines (table : fakeTable) (chains : List fakeChain) : List Str :=
  ['*' :: table.name] ++ chains.map headerBody
    ++ chains.flatMap (fun chain => chain.rules.map (ruleBody chain.name)) ++ ["COMMIT".toList]

/-! ## The normalizer as the specification words it -/

/-- Step (1) of the reference definition, in the words of the specification: a
token `--to-destination=X` becomes the two tokens `--to-destination` and `X`;
any other token stays as it is. -/
def splitDest (tok : Str) : List Str :=
  if startsWith tok toDestination then
    ["--to-destination".toList, tok.drop toDestination.length]
  else [tok]

/-- Step (2) of the reference definition, in the words of the specification:
`/32` is appended to a token the classifier reports as IPv4, `/128` to a token
it reports as IPv6; any other token passes through verbatim. -/
def refAddr (ipFamilyOfString : Classifier) (tok : Str) : Str :=
  match ipFamilyOfString tok with
  | .IPv4 => tok ++ "/32".toList
  | .IPv6 => tok ++ "/128".toList
  | .IPFamilyUnknown => tok

/-- The reference definition of the normalizer on a list of tokens, in the
words of the specification: split the `--to-destination=X` tokens, suffix the
address tokens, join with single spaces. -/
def normalizeRef (ipFamilyOfString : Classifier) (toks : List Str) : Str :=
  joinSp ((toks.flatMap splitDest).map (refAddr ipFamilyOfString))

/-- A double-quoted string with no inner double quote. -/
def QuotedToken (tok : Str) : Prop :=
  ∃ body, tok = dquote :: (body ++ [dquote]) ∧ dquote ∉ body

/-- A space-free token that does not start with a double quote. -/
def SpaceFreeToken (tok : Str) : Prop :=
  ' ' ∉ tok ∧ tok.head? ≠ some dquote

/-- A token without any white-space character that does not start with a
double quote; if it is `--to-destination=X`, then `X` starts neither with a
double quote nor with `--to-destination=`. -/
def BareToken (tok : Str) : Prop :=
  (∀ c ∈ tok, isSpace c = false) ∧ tok.head? ≠ some dquote ∧
    (startsWith tok toDestination = true →
      (tok.drop toDestination.length).head? ≠ some dquote ∧
      startsWith (tok.drop toDestination.length) toDestination = false)

/-! ## Stored rules as fixed points of the normalizer -/

/-- Every rule stored in a chain is a fixed point of `normalizeRule`. -/
def FixedRules (ipFamilyOfString : Classifier) (f : fakeIPTables) : Prop :=
  ∀ t c chain, chainAt f t c = some chain →
    ∀ r ∈ chain.rules, normalizeRule ipFamilyOfString r = .ok r

/-- A restore stream whose only white-space characters are plain spaces and
newlines. -/
def PlainLines (data : Str) : Prop :=
  ∀ c ∈ data, isSpace c = true → c = ' ' ∨ c = newline

/-- The stores a fresh engine can be brought into by calls of the exposed
operations, whatever they return, where the rule text `EnsureRule` builds from
its arguments has no white space other than plain spaces and the streams
restored have no white space other than plain spaces and newlines. -/
inductive PlainReachable (ipFamilyOfString : Classifier) (quote : Str → Str) :
    fakeIPTables → Prop where
  | fresh : PlainReachable ipFamilyOfString quote newFakeIPTables
  | EnsureChain {f : fakeIPTables} (t c : Str) :
      PlainReachable ipFamilyOfString quote f →
      PlainReachable ipFamilyOfString quote (EnsureChain f t c).1
  | FlushChain {f : fakeIPTables} (t c : Str) :
      PlainReachable ipFamilyOfString quote f →
      PlainReachable ipFamilyOfString quote (FlushChain f t c).1
  | DeleteChain {f : fakeIPTables} (t c : Str) :
      PlainReachable ipFamilyOfString quote f →
      PlainReachable ipFamilyOfString quote (DeleteChain f t c).1
  | EnsureRule {f : fakeIPTables} (position : RulePosition) (t c : Str) (args : List Str) :
      PlainSpaces (joinSp (ruleArgs quote args)) →
      PlainReachable ipFamilyOfString quote f →
      PlainReachable ipFamilyOfString quote
        (EnsureRule ipFamilyOfString quote f position t c args).1
  | DeleteRule {f : fakeIPTables} (t c : Str) (args : List Str) :
      PlainReachable ipFamilyOfString quote f →
      PlainReachable ipFamilyOfString quote (DeleteRule f t c args).1
  | Restore {f : fakeIPTables} (t data : Str) (flush : FlushFlag) :
      PlainLines data →
      PlainReachable ipFamilyOfString quote f →
      PlainReachable ipFamilyOfString quote (Restore ipFamilyOfString f t data flush).1
  | RestoreAll {f : fakeIPTables} (data : Str) (flush : FlushFlag) :
      PlainLines data →
      PlainReachable ipFamilyOfString quote f →
      PlainReachable ipFamilyOfString quote (RestoreAll ipFamilyOfString f data flush).1

end FakeIPTables

/-! ## The cgroup manager: `internal/config/cgmgr/cgmgr_linux.go` -/

namespace Cgmgr

/-- The error value of `VerifyMemoryIsEnough`, whose message is
"set memory limit %d too low; should be at least %d bytes" on these two
numbers. -/
structure LimitTooLow where
  memoryLimit : Int
  minMemory : Int
deriving DecidableEq, Repr

/-- The function `VerifyMemoryIsEnough`; `none` is the nil error.  The body
compares and does no arithmetic, so nothing can wrap around. -/
def VerifyMemoryIsEnough (memoryLimit minMemory : Int) : Option LimitTooLow :=
  if memoryLimit ≠ 0 ∧ memoryLimit < minMemory then
    some { memoryLimit := memoryLimit, minMemory := minMemory }
  else none

end Cgmgr

namespace FakeIPTables

/-! ## Theorems -/

/-! ### Maps -/

theorem mget_mset_self {β : Type} (k : Str) (v : β) (m : Map β) : mget k (mset k v m) = some v := by
  induction m with
  | nil => simp [mset, mget]
  | cons e m ih =>
    obtain ⟨k', v'⟩ := e
    by_cases h : k' = k
    · simp [mset, mget, h]
    · simp [mset, mget, h, ih]

theorem mget_mset_ne {β : Type} {k k' : Str} (v : β) (m : Map β) (h : k' ≠ k) :
    mget k' (mset k v m) = mget k' m := by
  induction m with
  | nil => simp [mset, mget, Ne.symm h]
  | cons e m ih =>
    obtain ⟨k2, v2⟩ := e
    by_cases h2 : k2 = k
    · subst h2
      simp [mset, mget, Ne.symm h]
    · by_cases h3 : k2 = k'
      · subst h3
        simp [mset, mget, h2]
      · simp [mset, mget, h2, h3, ih]

theorem mget_mdel_self {β : Type} (k : Str) (m : Map β) : mget k (mdel k m) = none := by
  induction m with
  | nil => simp [mdel, mget]
  | cons e m ih =>
    obtain ⟨k', v'⟩ := e
    by_cases h : k' = k
    · simpa [mdel, h] using ih
    · simpa [mdel, List.filter_cons, h, mget] using ih

theorem mget_mdel_ne {β : Type} {k k' : Str} (m : Map β) (h : k' ≠ k) :
    mget k' (mdel k m) = mget k' m := by
  induction m with
  | nil => simp [mdel, mget]
  | cons e m ih =>
    obtain ⟨k2, v2⟩ := e
    by_cases h2 : k2 = k
    · subst h2
      have : mget k' (mdel k2 m) = mget k' m := ih
      simpa [mdel, mget, h.symm] using this
    · have : mget k' (mdel k m) = mget k' m := ih
      by_cases h3 : k2 = k'
      · subst h3
        simp [mdel, List.filter_cons, h2, mget]
      · simpa [mdel, List.filter_cons, h2, mget, h3] using this

theorem mset_of_mget {β : Type} {k : Str} {v : β} {m : Map β} (h : mget k m = some v) :
    mset k v m = m := by
  induction m with
  | nil => simp [mget] at h
  | cons e m ih =>
    obtain ⟨k', v'⟩ := e
    by_cases h2 : k' = k
    · subst h2
      simp [mget] at h
      simp [mset, h]
    · simp [mget, h2] at h
      simp [mset, h2, ih h]

/-! ### Chain lookup and the chain operations -/

theorem getChain_eq (f : fakeIPTables) (t c : Str) :
    getChain f t c =
      match mget t f.tables with
      | none => .noTable (.tableNotFound t)
      | some table =>
        match mget c table.chains with
        | none => .noChain table (.chainNotFound t c)
        | some chain => .found table chain := by
  unfold getChain getTable
  cases mget t f.tables <;> rfl

theorem chainAt_putChains_same (f : fakeIPTables) (t c : Str) (table : fakeTable)
    (chains : Map fakeChain) : chainAt (putChains f t table chains) t c = mget c chains := by
  simp [chainAt, putChains, mget_mset_self]

theorem chainAt_putChains_ne (f : fakeIPTables) {t t' : Str} (c : Str) (table : fakeTable)
    (chains : Map fakeChain) (h : t' ≠ t) :
    chainAt (putChains f t table chains) t' c = chainAt f t' c := by
  simp [chainAt, putChains, mget_mset_ne _ _ h]

theorem chainAt_setRules_same (f : fakeIPTables) (t c : Str) (chain : fakeChain) (rules : List Str)
    (h : (mget t f.tables).isSome) :
    chainAt (setRules f t c chain rules) t c = some { chain with rules := rules } := by
  unfold setRules
  cases hm : mget t f.tables with
  | none => simp [hm] at h
  | some table => simp [chainAt_putChains_same, mget_mset_self]

theorem getChain_noTable {f : fakeIPTables} {t : Str} (c : Str) (h : mget t f.tables = none) :
    getChain f t c = .noTable (.tableNotFound t) := by
  rw [getChain_eq, h]

theorem getChain_noChain {f : fakeIPTables} {t c : Str} {table : fakeTable}
    (h : mget t f.tables = some table) (h2 : mget c table.chains = none) :
    getChain f t c = .noChain table (.chainNotFound t c) := by
  rw [getChain_eq, h]
  simp only [h2]

theorem getChain_found {f : fakeIPTables} {t c : Str} {table : fakeTable} {chain : fakeChain}
    (h : mget t f.tables = some table) (h2 : mget c table.chains = some chain) :
    getChain f t c = .found table chain := by
  rw [getChain_eq, h]
  simp only [h2]

theorem chainAt_none_of_table {f : fakeIPTables} {t : Str} (c : Str) (h : mget t f.tables = none) :
    chainAt f t c = none := by
  simp [chainAt, h]

theorem chainAt_of_table {f : fakeIPTables} {t : Str} {table : fakeTable} (c : Str)
    (h : mget t f.tables = some table) : chainAt f t c = mget c table.chains := by
  simp [chainAt, h]

theorem chainAt_setRules_ne (f : fakeIPTables) (t c t' c' : Str) (chain : fakeChain)
    (rules : List Str) (h : t' ≠ t ∨ c' ≠ c) :
    chainAt (setRules f t c chain rules) t' c' = chainAt f t' c' := by
  unfold setRules
  cases hm : mget t f.tables with
  | none => rfl
  | some table =>
    by_cases ht : t' = t
    · subst ht
      have hc : c' ≠ c := by
        rcases h with h | h
        · exact absurd rfl h
        · exact h
      simp only [chainAt_putChains_same, mget_mset_ne _ _ hc, chainAt_of_table c' hm]
    · simp [chainAt_putChains_ne _ _ _ _ ht]

/-- The chain `ensureChain` returns: the existing one, or a new empty one. -/
theorem ensureChain_chain (f : fakeIPTables) (t c : Str) :
    (ensureChain f t c).2.2 = (chainAt f t c).getD { name := c, rules := [] } := by
  unfold ensureChain
  cases h1 : mget t f.tables with
  | none => simp [getChain_noTable c h1, chainAt_none_of_table c h1]
  | some table =>
    cases h2 : mget c table.chains with
    | none => simp [getChain_noChain h1 h2, chainAt_of_table c h1, h2]
    | some chain => simp [getChain_found h1 h2, chainAt_of_table c h1, h2]

theorem ensureChain_chainAt_same (f : fakeIPTables) (t c : Str) :
    chainAt (ensureChain f t c).1 t c = some (ensureChain f t c).2.2 := by
  unfold ensureChain
  cases h1 : mget t f.tables with
  | none => simp [getChain_noTable c h1, chainAt_putChains_same, mget_mset_self]
  | some table =>
    cases h2 : mget c table.chains with
    | none => simp [getChain_noChain h1 h2, chainAt_putChains_same, mget_mset_self]
    | some chain => simp [getChain_found h1 h2, chainAt_of_table c h1, h2]

theorem ensureChain_chainAt_ne (f : fakeIPTables) (t c t' c' : Str) (h : t' ≠ t ∨ c' ≠ c) :
    chainAt (ensureChain f t c).1 t' c' = chainAt f t' c' := by
  unfold ensureChain
  cases h1 : mget t f.tables with
  | none =>
    by_cases ht : t' = t
    · subst ht
      have hc : c' ≠ c := by
        rcases h with h | h
        · exact absurd rfl h
        · exact h
      simp [getChain_noTable c h1, chainAt_putChains_same, chainAt_none_of_table c' h1, mset, mget,
        Ne.symm hc]
    · simp [getChain_noTable c h1, chainAt_putChains_ne _ _ _ _ ht]
  | some table =>
    cases h2 : mget c table.chains with
    | some chain => simp [getChain_found h1 h2]
    | none =>
      by_cases ht : t' = t
      · subst ht
        have hc : c' ≠ c := by
          rcases h with h | h
          · exact absurd rfl h
          · exact h
        simp [getChain_noChain h1 h2, chainAt_putChains_same, chainAt_of_table c' h1,
          mget_mset_ne _ _ hc]
      · simp [getChain_noChain h1 h2, chainAt_putChains_ne _ _ _ _ ht]

theorem ensureChain_of_chainAt {f : fakeIPTables} {t c : Str} {chain : fakeChain}
    (h : chainAt f t c = some chain) : ensureChain f t c = (f, true, chain) := by
  unfold ensureChain
  cases h1 : mget t f.tables with
  | none => simp [chainAt_none_of_table c h1] at h
  | some table =>
    rw [chainAt_of_table c h1] at h
    simp [getChain_found h1 h]

theorem getChain_of_chainAt {f : fakeIPTables} {t c : Str} {chain : fakeChain}
    (h : chainAt f t c = some chain) : ∃ table, getChain f t c = .found table chain := by
  cases h1 : mget t f.tables with
  | none => simp [chainAt_none_of_table c h1] at h
  | some table =>
    rw [chainAt_of_table c h1] at h
    exact ⟨table, getChain_found h1 h⟩

theorem getChain_of_chainAt_none {f : fakeIPTables} {t c : Str}
    (h : chainAt f t c = none) : ∀ table chain, getChain f t c ≠ .found table chain := by
  intro table chain hg
  cases h1 : mget t f.tables with
  | none => simp [getChain_noTable c h1] at hg
  | some table =>
    rw [chainAt_of_table c h1] at h
    simp [getChain_noChain h1 h] at hg

theorem ensureChain_table_isSome (f : fakeIPTables) (t c : Str) :
    (mget t (ensureChain f t c).1.tables).isSome := by
  have h := ensureChain_chainAt_same f t c
  cases hm : mget t (ensureChain f t c).1.tables with
  | none => simp [chainAt_none_of_table c hm] at h
  | some table => rfl

/-! ### Searching a chain -/

theorem findRuleFrom_nonneg_iff (rule : Str) (rules : List Str) (i : Nat) :
    0 ≤ findRuleFrom rule rules i ↔ rule ∈ rules := by
  induction rules generalizing i with
  | nil => simp [findRuleFrom]
  | cons candidate rest ih =>
    by_cases h : rule = candidate
    · simp [findRuleFrom, h]
    · simp [findRuleFrom, h, ih]

theorem findRule_nonneg_iff (chain : fakeChain) (rule : Str) :
    findRule chain rule ≥ 0 ↔ rule ∈ chain.rules :=
  findRuleFrom_nonneg_iff rule chain.rules 0

theorem findRule_neg_iff (chain : fakeChain) (rule : Str) :
    findRule chain rule < 0 ↔ rule ∉ chain.rules := by
  rw [← findRule_nonneg_iff]
  omega

/-- The index found splits the rule list at the first occurrence. -/
theorem findRuleFrom_split (rule : Str) (rules : List Str) (i : Nat) (h : rule ∈ rules) :
    ∃ l1 l2, rules = l1 ++ rule :: l2 ∧ rule ∉ l1 ∧
      findRuleFrom rule rules i = ((i + l1.length : Nat) : Int) := by
  induction rules generalizing i with
  | nil => simp at h
  | cons candidate rest ih =>
    by_cases hc : rule = candidate
    · subst hc
      exact ⟨[], rest, by simp, by simp, by simp [findRuleFrom]⟩
    · have hr : rule ∈ rest := by
        rcases List.mem_cons.mp h with h | h
        · exact absurd h hc
        · exact h
      obtain ⟨l1, l2, h1, h2, h3⟩ := ih (i + 1) hr
      refine ⟨candidate :: l1, l2, by simp [h1], ?_, ?_⟩
      · simp [hc, h2]
      · simp only [findRuleFrom, hc, if_false, h3, List.length_cons]
        congr 1
        omega

/-! ### Ensuring and deleting a rule -/

/-- The store and chain `ensureRule` works on are those `ensureChain` leaves. -/
theorem ensureRule_eq (fam : Classifier) (f : fakeIPTables) (position : RulePosition)
    (t c rule : Str) :
    ensureRule fam f position t c rule =
      match normalizeRule fam rule with
      | .err e => ((ensureChain f t c).1, .err e)
      | .crash => ((ensureChain f t c).1, .crash)
      | .outOfFuel => ((ensureChain f t c).1, .outOfFuel)
      | .ok r =>
        if r ∈ (ensureChain f t c).2.2.rules then ((ensureChain f t c).1, .ok true)
        else
          match position with
          | .Prepend =>
            (setRules (ensureChain f t c).1 t c (ensureChain f t c).2.2
              ([r] ++ (ensureChain f t c).2.2.rules), .ok false)
          | .Append =>
            (setRules (ensureChain f t c).1 t c (ensureChain f t c).2.2
              ((ensureChain f t c).2.2.rules ++ [r]), .ok false)
          | .unrecognized p => ((ensureChain f t c).1, .err (.unknownPosition p)) := by
  have hfc : (match getChain f t c with
      | .found _ chain => (f, chain)
      | _ => ((ensureChain f t c).1, (ensureChain f t c).2.2))
      = ((ensureChain f t c).1, (ensureChain f t c).2.2) := by
    cases hg : getChain f t c with
    | noTable e => rfl
    | noChain table e => rfl
    | found table chain => simp [ensureChain, hg]
  unfold ensureRule
  simp only [hfc]
  cases normalizeRule fam rule with
  | err e => rfl
  | crash => rfl
  | outOfFuel => rfl
  | ok r =>
    simp only [findRule_nonneg_iff]

/-- The rule list of a chain, the empty list if the chain does not exist. -/
theorem ensureChain_rules (f : fakeIPTables) (t c : Str) :
    (ensureChain f t c).2.2.rules = ((rulesAt f t c).getD []) := by
  rw [ensureChain_chain, rulesAt]
  cases chainAt f t c <;> rfl

theorem rulesAt_setRules_same (f : fakeIPTables) (t c : Str) (chain : fakeChain)
    (rules : List Str) (h : (mget t f.tables).isSome) :
    rulesAt (setRules f t c chain rules) t c = some rules := by
  simp [rulesAt, chainAt_setRules_same f t c chain rules h]

/-- Inserting a rule that is not in the chain: the chain afterwards. -/
theorem ensureRule_insert (fam : Classifier) (f : fakeIPTables) (t c rule r : Str)
    (hn : normalizeRule fam rule = .ok r) (hr : r ∉ (rulesAt f t c).getD []) :
    (ensureRule fam f .Append t c rule).2 = .ok false ∧
    rulesAt (ensureRule fam f .Append t c rule).1 t c = some ((rulesAt f t c).getD [] ++ [r]) ∧
    (ensureRule fam f .Prepend t c rule).2 = .ok false ∧
    rulesAt (ensureRule fam f .Prepend t c rule).1 t c = some ([r] ++ (rulesAt f t c).getD []) := by
  rw [← ensureChain_rules] at hr ⊢
  simp only [ensureRule_eq, hn, hr, if_false]
  exact ⟨trivial, rulesAt_setRules_same _ _ _ _ _ (ensureChain_table_isSome f t c), trivial,
    rulesAt_setRules_same _ _ _ _ _ (ensureChain_table_isSome f t c)⟩

/-- A rule already in the chain: nothing changes. -/
theorem ensureRule_present (fam : Classifier) (f : fakeIPTables) (position : RulePosition)
    (t c rule r : Str) (rules : List Str)
    (hn : normalizeRule fam rule = .ok r) (hc : rulesAt f t c = some rules) (hr : r ∈ rules) :
    ensureRule fam f position t c rule = (f, .ok true) := by
  have hch : ∃ chain, chainAt f t c = some chain ∧ chain.rules = rules := by
    unfold rulesAt at hc
    cases h : chainAt f t c with
    | none => simp [h] at hc
    | some chain => exact ⟨chain, rfl, by simpa [h] using hc⟩
  obtain ⟨chain, h1, h2⟩ := hch
  rw [ensureRule_eq, hn, ensureChain_of_chainAt h1]
  simp [h2, hr]

/-! ### Distinct rules in every reachable store -/

theorem NoDupRules_new : NoDupRules newFakeIPTables := by
  intro t c chain h
  have : chainAt newFakeIPTables t c = none := by
    unfold chainAt newFakeIPTables
    simp only [mget]
    split_ifs <;> rfl
  rw [this] at h
  cases h

theorem NoDupRules_ensureChain {f : fakeIPTables} (t c : Str) (h : NoDupRules f) :
    NoDupRules (ensureChain f t c).1 := by
  intro t' c' chain hc
  by_cases hne : t' ≠ t ∨ c' ≠ c
  · rw [ensureChain_chainAt_ne f t c t' c' hne] at hc
    exact h t' c' chain hc
  · have ht : t' = t := by
      by_contra hx
      exact hne (Or.inl hx)
    have hc' : c' = c := by
      by_contra hx
      exact hne (Or.inr hx)
    subst ht
    subst hc'
    rw [ensureChain_chainAt_same, ensureChain_chain] at hc
    cases hx : chainAt f t' c' with
    | none =>
      rw [hx] at hc
      cases hc
      exact List.nodup_nil
    | some chain0 =>
      rw [hx] at hc
      cases hc
      exact h t' c' chain0 hx

theorem NoDupRules_setRules {f : fakeIPTables} (t c : Str) (chain : fakeChain) (rules : List Str)
    (h : NoDupRules f) (hr : rules.Nodup) : NoDupRules (setRules f t c chain rules) := by
  intro t' c' chain' hc
  by_cases hne : t' ≠ t ∨ c' ≠ c
  · rw [chainAt_setRules_ne f t c t' c' chain rules hne] at hc
    exact h t' c' chain' hc
  · have ht : t' = t := by
      by_contra hx
      exact hne (Or.inl hx)
    have hc' : c' = c := by
      by_contra hx
      exact hne (Or.inr hx)
    subst ht
    subst hc'
    cases hm : mget t' f.tables with
    | none =>
      have : setRules f t' c' chain rules = f := by simp [setRules, hm]
      rw [this] at hc
      exact h t' c' chain' hc
    | some table =>
      rw [chainAt_setRules_same f t' c' chain rules (by simp [hm])] at hc
      cases hc
      exact hr

theorem NoDupRules_putChains_mdel {f : fakeIPTables} {t : Str} {table : fakeTable} (c : Str)
    (h : NoDupRules f) (ht : mget t f.tables = some table) :
    NoDupRules (putChains f t table (mdel c table.chains)) := by
  intro t' c' chain hc
  by_cases hne : t' = t
  · subst hne
    rw [chainAt_putChains_same] at hc
    by_cases hcc : c' = c
    · subst hcc
      rw [mget_mdel_self] at hc
      cases hc
    · rw [mget_mdel_ne _ hcc] at hc
      exact h t' c' chain (by rw [chainAt_of_table c' ht]; exact hc)
  · rw [chainAt_putChains_ne _ _ _ _ hne] at hc
    exact h t' c' chain hc

theorem NoDupRules_FlushChain {f : fakeIPTables} (t c : Str) (h : NoDupRules f) :
    NoDupRules (FlushChain f t c).1 := by
  unfold FlushChain
  cases getChain f t c with
  | noTable e => exact h
  | noChain table e => exact h
  | found table chain => exact NoDupRules_setRules t c chain [] h List.nodup_nil

theorem NoDupRules_DeleteChain {f : fakeIPTables} (t c : Str) (h : NoDupRules f) :
    NoDupRules (DeleteChain f t c).1 := by
  unfold DeleteChain
  cases h1 : mget t f.tables with
  | none =>
    rw [getChain_noTable c h1]
    exact h
  | some table =>
    cases h2 : mget c table.chains with
    | none =>
      rw [getChain_noChain h1 h2]
      exact h
    | some chain =>
      rw [getChain_found h1 h2]
      exact NoDupRules_putChains_mdel c h h1

theorem NoDupRules_ensureRule (fam : Classifier) {f : fakeIPTables} (position : RulePosition)
    (t c rule : Str) (h : NoDupRules f) : NoDupRules (ensureRule fam f position t c rule).1 := by
  have h1 : NoDupRules (ensureChain f t c).1 := NoDupRules_ensureChain t c h
  have h2 : (ensureChain f t c).2.2.rules.Nodup :=
    h1 t c _ (ensureChain_chainAt_same f t c)
  rw [ensureRule_eq]
  cases normalizeRule fam rule with
  | err e => exact h1
  | crash => exact h1
  | outOfFuel => exact h1
  | ok r =>
    by_cases hr : r ∈ (ensureChain f t c).2.2.rules
    · simpa [hr] using h1
    · simp only [hr, if_false]
      cases position with
      | Prepend =>
        exact NoDupRules_setRules t c _ _ h1 (List.nodup_cons.mpr ⟨hr, h2⟩)
      | Append =>
        refine NoDupRules_setRules t c _ _ h1 ?_
        rw [List.nodup_append]
        exact ⟨h2, List.nodup_singleton r, by
          intro a ha hb
          rw [List.mem_singleton] at hb
          subst hb
          exact hr ha⟩
      | unrecognized p => exact h1

theorem NoDupRules_DeleteRule {f : fakeIPTables} (t c : Str) (args : List Str) (h : NoDupRules f) :
    NoDupRules (DeleteRule f t c args).1 := by
  unfold DeleteRule
  cases h1 : mget t f.tables with
  | none =>
    rw [getChain_noTable c h1]
    exact h
  | some table =>
    cases h2 : mget c table.chains with
    | none =>
      rw [getChain_noChain h1 h2]
      exact h
    | some chain =>
      rw [getChain_found h1 h2]
      have hnd : chain.rules.Nodup := h t c chain (by rw [chainAt_of_table c h1]; exact h2)
      simp only
      split_ifs with hlt
      · exact h
      · refine NoDupRules_setRules t c _ _ h ?_
        have hsub : (chain.rules.take (findRule chain (joinSp args)).toNat ++
            chain.rules.drop ((findRule chain (joinSp args)).toNat + 1)).Sublist chain.rules := by
          conv_rhs => rw [← List.take_append_drop (findRule chain (joinSp args)).toNat chain.rules]
          exact List.Sublist.append (List.Sublist.refl _)
            (by
              rw [← List.drop_drop]
              exact List.drop_sublist _ _)
        exact hnd.sublist hsub

theorem Step.store_ofCall {α : Type} (tableName : Str) (r : fakeIPTables × Res α) :
    (Step.ofCall tableName r).store = r.1 := by
  obtain ⟨f, r⟩ := r
  cases r <;> rfl

theorem NoDupRules_restoreRule (fam : Classifier) {f : fakeIPTables} (tableName line flag : Str)
    (position : RulePosition) (h : NoDupRules f) :
    NoDupRules (restoreRule fam f tableName line flag position).store := by
  unfold restoreRule
  simp only
  split_ifs with hlen
  · exact h
  · split
    · rw [Step.store_ofCall]
      exact NoDupRules_ensureRule fam position tableName _ _ h
    · exact h

theorem NoDupRules_restoreChain {f : fakeIPTables} (tableName chainName allLines : Str)
    (flush : FlushFlag) (h : NoDupRules f) :
    NoDupRules (restoreChain f tableName chainName allLines flush).store := by
  unfold restoreChain
  have hdel : ∀ f', (if flush = .FlushTables then
      match getChain f tableName chainName with
      | .noTable e => Except.error e
      | .noChain _ e => Except.error e
      | .found table _ => Except.ok (putChains f tableName table (mdel chainName table.chains))
    else Except.ok f) = Except.ok f' → NoDupRules f' := by
    intro f' hf'
    split_ifs at hf' with hfl
    · cases h1 : mget tableName f.tables with
      | none => simp [getChain_noTable chainName h1] at hf'
      | some table =>
        cases h2 : mget chainName table.chains with
        | none => simp [getChain_noChain h1 h2] at hf'
        | some chain =>
          simp only [getChain_found h1 h2, Except.ok.injEq] at hf'
          rw [← hf']
          exact NoDupRules_putChains_mdel chainName h h1
    · cases hf'
      exact h
  simp only
  split
  · exact h
  · rename_i f' heq
    have h1 : NoDupRules (ensureChain f' tableName chainName).1 :=
      NoDupRules_ensureChain _ _ (hdel f' heq)
    split_ifs
    · rw [Step.store_ofCall]
      exact NoDupRules_FlushChain tableName chainName h1
    · exact h1

theorem NoDupRules_restoreHeader {f : fakeIPTables} (tableName line allLines : Str)
    (flush : FlushFlag) (h : NoDupRules f) :
    NoDupRules (restoreHeader f tableName line allLines flush).store := by
  unfold restoreHeader
  split
  · exact h
  · exact NoDupRules_restoreChain _ _ _ _ h

theorem NoDupRules_restoreDelete {f : fakeIPTables} (tableName line : Str) (h : NoDupRules f) :
    NoDupRules (restoreDelete f tableName line).store := by
  unfold restoreDelete
  simp only
  split_ifs with hlen
  · exact h
  · split
    · rw [Step.store_ofCall]
      exact NoDupRules_DeleteChain tableName _ h
    · exact h

theorem NoDupRules_restoreBlock (fam : Classifier) (rt allLines : Str) (flush : FlushFlag)
    {f : fakeIPTables} (tableName line : Str) (h : NoDupRules f) :
    NoDupRules (restoreBlock fam rt allLines flush f tableName line).store := by
  unfold restoreBlock
  split_ifs
  · exact h
  · exact NoDupRules_restoreHeader _ _ _ _ h
  · exact NoDupRules_restoreRule fam _ _ _ _ h
  · exact NoDupRules_restoreRule fam _ _ _ _ h
  · exact NoDupRules_restoreDelete _ _ h
  · exact h
  · exact h
  · exact h
  · exact h

theorem NoDupRules_restoreLine (fam : Classifier) (rt allLines : Str) (flush : FlushFlag)
    {f : fakeIPTables} (tableName line : Str) (h : NoDupRules f) :
    NoDupRules (restoreLine fam rt allLines flush f tableName line).store := by
  unfold restoreLine
  split
  · exact h
  · simp only
    split
    · exact h
    · exact NoDupRules_restoreBlock fam _ _ _ _ _ h

theorem NoDupRules_restoreLines (fam : Classifier) (rt allLines : Str) (flush : FlushFlag)
    (lines : List Str) {f : fakeIPTables} (tableName : Str) (h : NoDupRules f) :
    NoDupRules (restoreLines fam rt allLines flush lines f tableName).1 := by
  induction lines generalizing f tableName with
  | nil => exact h
  | cons line rest ih =>
    unfold restoreLines
    have hx := NoDupRules_restoreLine fam rt allLines flush tableName line h
    split <;> rename_i heq <;> rw [heq] at hx
    · exact ih _ hx
    · exact hx

/-- Every store the exposed operations can produce from a fresh engine holds
pairwise distinct rules in each chain. -/
theorem NoDupRules_of_Reachable (fam : Classifier) (quote : Str → Str) {f : fakeIPTables}
    (h : Reachable fam quote f) : NoDupRules f := by
  induction h with
  | fresh => exact NoDupRules_new
  | EnsureChain t c _ ih => exact NoDupRules_ensureChain t c ih
  | FlushChain t c _ ih => exact NoDupRules_FlushChain t c ih
  | DeleteChain t c _ ih => exact NoDupRules_DeleteChain t c ih
  | EnsureRule position t c args _ ih => exact NoDupRules_ensureRule fam position t c _ ih
  | DeleteRule t c args _ ih => exact NoDupRules_DeleteRule t c args ih
  | Restore t data flush _ ih => exact NoDupRules_restoreLines fam _ _ _ _ _ ih
  | RestoreAll data flush _ ih => exact NoDupRules_restoreLines fam _ _ _ _ _ ih

theorem occurrences_of_not_mem {rule : Str} {rules : List Str} (h : rule ∉ rules) :
    occurrences rule rules = 0 := by
  induction rules with
  | nil => rfl
  | cons x rest ih =>
    have hx : x ≠ rule := fun e => h (by simp [e])
    have hr : rule ∉ rest := fun e => h (by simp [e])
    simp [occurrences, hx, ih hr]

theorem occurrences_of_nodup {rule : Str} {rules : List Str} (hn : rules.Nodup) (h : rule ∈ rules) :
    occurrences rule rules = 1 := by
  induction rules with
  | nil => simp at h
  | cons x rest ih =>
    obtain ⟨hx, hrest⟩ := List.nodup_cons.mp hn
    by_cases he : x = rule
    · subst he
      simp [occurrences, occurrences_of_not_mem hx]
    · have hr : rule ∈ rest := by
        rcases List.mem_cons.mp h with h | h
        · exact absurd h.symm he
        · exact h
      simp [occurrences, he, ih hrest hr]

theorem occurrences_append (rule : Str) (l1 l2 : List Str) :
    occurrences rule (l1 ++ l2) = occurrences rule l1 + occurrences rule l2 := by
  induction l1 with
  | nil => simp [occurrences]
  | cons x rest ih => simp [occurrences, ih, Nat.add_assoc]

/-! ### Lines and fields -/

theorem readLines_line (l rest : Str) (h : newline ∉ l) :
    readLines (l ++ newline :: rest) = (l ++ [newline]) :: readLines rest := by
  induction l with
  | nil => simp [readLines]
  | cons a l ih =>
    have ha : a ≠ newline := fun e => h (by simp [e])
    have hl : newline ∉ l := fun e => h (by simp [e])
    simp [readLines, ha, ih hl]

theorem cutSuffixChar_append (l : Str) (d : Char) : cutSuffixChar (l ++ [d]) d = l := by
  induction l with
  | nil => simp [cutSuffixChar]
  | cons a l ih =>
    cases l with
    | nil => simp [cutSuffixChar]
    | cons b l => simpa [cutSuffixChar] using ih

theorem splitOn_field (c rest : Str) (sep : Char) (h : sep ∉ c) :
    splitOn (c ++ sep :: rest) sep = c :: splitOn rest sep := by
  induction c with
  | nil => simp [splitOn]
  | cons a c ih =>
    have ha : a ≠ sep := fun e => h (by simp [e])
    have hc : sep ∉ c := fun e => h (by simp [e])
    simp [splitOn, ha, ih hc]

theorem splitOn_last (c : Str) (sep : Char) (h : sep ∉ c) : splitOn c sep = [c] := by
  induction c with
  | nil => simp [splitOn]
  | cons a c ih =>
    have ha : a ≠ sep := fun e => h (by simp [e])
    have hc : sep ∉ c := fun e => h (by simp [e])
    simp [splitOn, ha, ih hc]

theorem startsWith_append (p s : Str) : startsWith (p ++ s) p = true := by
  induction p with
  | nil => cases s <;> rfl
  | cons a p ih => simpa [startsWith] using ih

theorem startsWith_cons_cons (a b : Char) (s p : Str) :
    startsWith (a :: s) (b :: p) = (decide (a = b) && startsWith s p) := rfl

theorem startsWith_nil (s : Str) : startsWith s [] = true := by
  cases s <;> rfl

theorem cutPrefix_append (p s : Str) : cutPrefix (p ++ s) p = s := by
  simp [cutPrefix, startsWith_append]

theorem restoreLines_after (fam : Classifier) (rt allLines : Str) (flush : FlushFlag)
    (pre rest : List Str) (f f' : fakeIPTables) (tn tn' : Str)
    (h : restorePrefix fam rt allLines flush pre f tn = some (f', tn')) :
    restoreLines fam rt allLines flush (pre ++ rest) f tn
      = restoreLines fam rt allLines flush rest f' tn' := by
  induction pre generalizing f tn with
  | nil =>
    simp only [restorePrefix, Option.some.injEq, Prod.mk.injEq] at h
    obtain ⟨h1, h2⟩ := h
    subst h1
    subst h2
    rfl
  | cons line pre ih =>
    simp only [restorePrefix] at h
    simp only [List.cons_append, restoreLines]
    cases hs : restoreLine fam rt allLines flush f tn line with
    | next f1 tn1 =>
      rw [hs] at h
      exact ih f1 tn1 h
    | done f1 r =>
      rw [hs] at h
      cases h

/-! ### The claims -/

/-- C1: `EnsureRule` is idempotent.  In every store reachable from a fresh
engine, for a position in {Prepend, Append} and arguments whose normalization
succeeds with canonical rule `r`, a second `EnsureRule` call with the same
arguments returns existed=true with no error and leaves the store exactly as the
first call left it, and the chain then holds `r` exactly once. -/
theorem EnsureRule_idempotent (fam : Classifier) (quote : Str → Str) (f : fakeIPTables)
    (position : RulePosition) (t c : Str) (args : List Str) (r : Str)
    (hreach : Reachable fam quote f)
    (hpos : position = .Prepend ∨ position = .Append)
    (hn : normalizeRule fam (joinSp (ruleArgs quote args)) = .ok r) :
    EnsureRule fam quote (EnsureRule fam quote f position t c args).1 position t c args
      = ((EnsureRule fam quote f position t c args).1, .ok true) ∧
    ∃ rules, rulesAt (EnsureRule fam quote f position t c args).1 t c = some rules ∧
      occurrences r rules = 1 := by
  have hnd : NoDupRules f := NoDupRules_of_Reachable fam quote hreach
  unfold EnsureRule
  by_cases hr : r ∈ (rulesAt f t c).getD []
  · cases hc : rulesAt f t c with
    | none => simp [hc] at hr
    | some rules =>
      rw [hc] at hr
      have h1 := ensureRule_present fam f position t c _ r rules hn hc hr
      rw [h1]
      refine ⟨h1, rules, hc, ?_⟩
      have hch : ∃ chain, chainAt f t c = some chain ∧ chain.rules = rules := by
        unfold rulesAt at hc
        cases h : chainAt f t c with
        | none => simp [h] at hc
        | some chain => exact ⟨chain, rfl, by simpa [h] using hc⟩
      obtain ⟨chain, h2, h3⟩ := hch
      have := hnd t c chain h2
      rw [h3] at this
      exact occurrences_of_nodup this hr
  · obtain ⟨_, ha, _, hp⟩ := ensureRule_insert fam f t c _ r hn hr
    have hcount : occurrences r ((rulesAt f t c).getD []) = 0 := occurrences_of_not_mem hr
    rcases hpos with hpos | hpos
    · subst hpos
      refine ⟨ensureRule_present fam _ _ t c _ r _ hn hp (by simp), _, hp, ?_⟩
      simp [occurrences_append, occurrences, hcount]
    · subst hpos
      refine ⟨ensureRule_present fam _ _ t c _ r _ hn ha (by simp), _, ha, ?_⟩
      simp [occurrences_append, occurrences, hcount]

/-- C1 at the spec's example: Append, `filter`, `FORWARD`, `-s 10.0.0.1 -j ACCEPT`
on a fresh engine. -/
theorem EnsureRule_idempotent_witness :
    EnsureRule sampleClassifier sampleQuote
        (EnsureRule sampleClassifier sampleQuote newFakeIPTables .Append "filter".toList
          "FORWARD".toList ["-s".toList, "10.0.0.1".toList, "-j".toList, "ACCEPT".toList]).1
        .Append "filter".toList "FORWARD".toList
        ["-s".toList, "10.0.0.1".toList, "-j".toList, "ACCEPT".toList]
      = ((EnsureRule sampleClassifier sampleQuote newFakeIPTables .Append "filter".toList
          "FORWARD".toList ["-s".toList, "10.0.0.1".toList, "-j".toList, "ACCEPT".toList]).1,
          .ok true) ∧
    ∃ rules, rulesAt (EnsureRule sampleClassifier sampleQuote newFakeIPTables .Append
        "filter".toList "FORWARD".toList
        ["-s".toList, "10.0.0.1".toList, "-j".toList, "ACCEPT".toList]).1
        "filter".toList "FORWARD".toList = some rules ∧
      occurrences "-s 10.0.0.1/32 -j ACCEPT".toList rules = 1 :=
  EnsureRule_idempotent sampleClassifier sampleQuote newFakeIPTables .Append "filter".toList
    "FORWARD".toList ["-s".toList, "10.0.0.1".toList, "-j".toList, "ACCEPT".toList]
    "-s 10.0.0.1/32 -j ACCEPT".toList Reachable.fresh (Or.inr rfl) (by decide)

/-- C3: insertion order.  For a chain with rule list `L` (the empty list if the
chain does not exist yet) and arguments whose canonical rule `r` is not in `L`,
`EnsureRule` with Append returns existed=false and leaves the chain as
`L ++ [r]`, with Prepend it returns existed=false and leaves `[r] ++ L`; and on
an empty chain Append(R1), Prepend(R2), Append(R3) with pairwise distinct
canonical rules leave exactly `[R2, R1, R3]`. -/
theorem EnsureRule_insertion_order (fam : Classifier) (quote : Str → Str) (f : fakeIPTables)
    (t c : Str) (args : List Str) (r : Str)
    (hn : normalizeRule fam (joinSp (ruleArgs quote args)) = .ok r)
    (hr : r ∉ (rulesAt f t c).getD []) :
    ((EnsureRule fam quote f .Append t c args).2 = .ok false ∧
      rulesAt (EnsureRule fam quote f .Append t c args).1 t c
        = some ((rulesAt f t c).getD [] ++ [r])) ∧
    ((EnsureRule fam quote f .Prepend t c args).2 = .ok false ∧
      rulesAt (EnsureRule fam quote f .Prepend t c args).1 t c
        = some ([r] ++ (rulesAt f t c).getD [])) ∧
    (∀ args2 args3 r2 r3,
      (rulesAt f t c).getD [] = [] →
      normalizeRule fam (joinSp (ruleArgs quote args2)) = .ok r2 →
      normalizeRule fam (joinSp (ruleArgs quote args3)) = .ok r3 →
      r ≠ r2 → r ≠ r3 → r2 ≠ r3 →
      rulesAt (EnsureRule fam quote (EnsureRule fam quote
        (EnsureRule fam quote f .Append t c args).1 .Prepend t c args2).1 .Append t c args3).1 t c
        = some [r2, r, r3]) := by
  obtain ⟨ha1, ha2, hp1, hp2⟩ := ensureRule_insert fam f t c _ r hn hr
  refine ⟨⟨ha1, ha2⟩, ⟨hp1, hp2⟩, ?_⟩
  intro args2 args3 r2 r3 hL hn2 hn3 h12 h13 h23
  unfold EnsureRule at *
  rw [hL] at ha2
  have h2 : r2 ∉ (rulesAt (ensureRule fam f .Append t c (joinSp (ruleArgs quote args))).1 t c).getD
      [] := by
    rw [ha2]
    simp [Ne.symm h12]
  obtain ⟨_, _, _, hq⟩ := ensureRule_insert fam _ t c _ r2 hn2 h2
  rw [ha2] at hq
  have h3 : r3 ∉ (rulesAt (ensureRule fam (ensureRule fam f .Append t c
      (joinSp (ruleArgs quote args))).1 .Prepend t c (joinSp (ruleArgs quote args2))).1 t c).getD
      [] := by
    rw [hq]
    simp [Ne.symm h13, Ne.symm h23]
  obtain ⟨_, hz, _, _⟩ := ensureRule_insert fam _ t c _ r3 hn3 h3
  rw [hz, hq]
  rfl

/-- C3 on a fresh engine: Append(`-j R1`), Prepend(`-j R2`), Append(`-j R3`) on
chain `filter`/`FORWARD`. -/
theorem EnsureRule_insertion_order_witness :
    rulesAt (EnsureRule sampleClassifier sampleQuote (EnsureRule sampleClassifier sampleQuote
        (EnsureRule sampleClassifier sampleQuote newFakeIPTables .Append "filter".toList
          "FORWARD".toList ["-j".toList, "R1".toList]).1
        .Prepend "filter".toList "FORWARD".toList ["-j".toList, "R2".toList]).1
        .Append "filter".toList "FORWARD".toList ["-j".toList, "R3".toList]).1
        "filter".toList "FORWARD".toList
      = some ["-j R2".toList, "-j R1".toList, "-j R3".toList] :=
  (EnsureRule_insertion_order sampleClassifier sampleQuote newFakeIPTables "filter".toList
    "FORWARD".toList ["-j".toList, "R1".toList] "-j R1".toList (by decide) (by decide)).2.2
    ["-j".toList, "R2".toList] ["-j".toList, "R3".toList] "-j R2".toList "-j R3".toList
    (by decide) (by decide) (by decide) (by decide) (by decide) (by decide)

/-- C9, as stated, fails: `EnsureRule` with an unrecognized position, or with an
unterminated quote, on a chain that does not exist yet returns an error and has
created the chain. -/
theorem EnsureRule_error_not_atomic :
    (EnsureRule sampleClassifier sampleQuote newFakeIPTables (.unrecognized "-Z".toList)
        "filter".toList "FOO".toList ["-j".toList, "ACCEPT".toList]).2
      = .err (.unknownPosition "-Z".toList) ∧
    (EnsureRule sampleClassifier sampleQuote newFakeIPTables (.unrecognized "-Z".toList)
        "filter".toList "FOO".toList ["-j".toList, "ACCEPT".toList]).1 ≠ newFakeIPTables ∧
    (EnsureRule sampleClassifier sampleQuote newFakeIPTables .Append
        "filter".toList "FOO".toList ["--comment".toList, dquote :: "abc".toList]).2
      = .err .mismatchedQuotes ∧
    chainAt newFakeIPTables "filter".toList "FOO".toList = none ∧
    chainAt (EnsureRule sampleClassifier sampleQuote newFakeIPTables .Append
        "filter".toList "FOO".toList ["--comment".toList, dquote :: "abc".toList]).1
        "filter".toList "FOO".toList = some { name := "FOO".toList, rules := [] } := by
  decide

/-- C9, amended: when `EnsureRule` returns an error, the store is the one
`EnsureChain` of the same table and chain leaves.  If the chain existed the store
is unchanged; otherwise the chain has been created with no rules (and its table
if it was missing), every other chain is unchanged and so is every other table. -/
theorem EnsureRule_error_store (fam : Classifier) (quote : Str → Str) (f : fakeIPTables)
    (position : RulePosition) (t c : Str) (args : List Str) (e : Err)
    (h : (EnsureRule fam quote f position t c args).2 = .err e) :
    (EnsureRule fam quote f position t c args).1 = (EnsureChain f t c).1 ∧
    (∀ chain, chainAt f t c = some chain → (EnsureRule fam quote f position t c args).1 = f) ∧
    (chainAt f t c = none →
      chainAt (EnsureRule fam quote f position t c args).1 t c
        = some { name := c, rules := [] }) ∧
    (∀ t' c', t' ≠ t ∨ c' ≠ c →
      chainAt (EnsureRule fam quote f position t c args).1 t' c' = chainAt f t' c') ∧
    (∀ t', t' ≠ t →
      mget t' (EnsureRule fam quote f position t c args).1.tables = mget t' f.tables) := by
  have hst : (EnsureRule fam quote f position t c args).1 = (ensureChain f t c).1 := by
    unfold EnsureRule at h ⊢
    rw [ensureRule_eq] at h ⊢
    cases hn : normalizeRule fam (joinSp (ruleArgs quote args)) with
    | err e' => rfl
    | crash => rfl
    | outOfFuel => rfl
    | ok r =>
      rw [hn] at h
      by_cases hr : r ∈ (ensureChain f t c).2.2.rules
      · simp [hr] at h
      · simp only [hr, if_false] at h ⊢
        cases position with
        | Prepend => simp at h
        | Append => simp at h
        | unrecognized p => rfl
  rw [hst]
  refine ⟨rfl, ?_, ?_, ?_, ?_⟩
  · intro chain hc
    rw [ensureChain_of_chainAt hc]
  · intro hc
    rw [ensureChain_chainAt_same, ensureChain_chain, hc]
    rfl
  · intro t' c' hne
    exact ensureChain_chainAt_ne f t c t' c' hne
  · intro t' hne
    unfold ensureChain
    cases h1 : mget t f.tables with
    | none => simp [getChain_noTable c h1, putChains, mget_mset_ne _ _ hne]
    | some table =>
      cases h2 : mget c table.chains with
      | none => simp [getChain_noChain h1 h2, putChains, mget_mset_ne _ _ hne]
      | some chain => simp [getChain_found h1 h2]

/-- C9 amended, at an unrecognized position on the missing chain `filter`/`FOO`
of a fresh engine. -/
theorem EnsureRule_error_store_witness :
    (EnsureRule sampleClassifier sampleQuote newFakeIPTables (.unrecognized "-Z".toList)
        "filter".toList "FOO".toList ["-j".toList, "ACCEPT".toList]).1
      = (EnsureChain newFakeIPTables "filter".toList "FOO".toList).1 :=
  (EnsureRule_error_store sampleClassifier sampleQuote newFakeIPTables
    (.unrecognized "-Z".toList) "filter".toList "FOO".toList ["-j".toList, "ACCEPT".toList]
    (.unknownPosition "-Z".toList) (by decide)).1

/-- C10: `DeleteRule` is lenient and literal.  It never returns an error; when
the table or chain is absent, or the chain holds no rule equal to the arguments
joined by single spaces, the store is unchanged; otherwise the first such rule is
removed from the chain, the other rules keep their order, and every other chain
is unchanged. -/
theorem DeleteRule_lenient_literal (f : fakeIPTables) (t c : Str) (args : List Str) :
    (DeleteRule f t c args).2 = .ok () ∧
    (chainAt f t c = none → (DeleteRule f t c args).1 = f) ∧
    (∀ chain, chainAt f t c = some chain → joinSp args ∉ chain.rules →
      (DeleteRule f t c args).1 = f) ∧
    (∀ chain, chainAt f t c = some chain → joinSp args ∈ chain.rules →
      ∃ l1 l2, chain.rules = l1 ++ joinSp args :: l2 ∧ joinSp args ∉ l1 ∧
        chainAt (DeleteRule f t c args).1 t c = some { chain with rules := l1 ++ l2 } ∧
        ∀ t' c', t' ≠ t ∨ c' ≠ c →
          chainAt (DeleteRule f t c args).1 t' c' = chainAt f t' c') := by
  refine ⟨?_, ?_, ?_, ?_⟩
  · unfold DeleteRule
    cases getChain f t c with
    | noTable e => rfl
    | noChain table e => rfl
    | found table chain =>
      simp only
      split_ifs <;> rfl
  · intro hc
    unfold DeleteRule
    cases hg : getChain f t c with
    | noTable e => rfl
    | noChain table e => rfl
    | found table chain => exact absurd hg (getChain_of_chainAt_none hc table chain)
  · intro chain hc hr
    obtain ⟨table, hg⟩ := getChain_of_chainAt hc
    unfold DeleteRule
    rw [hg]
    simp [(findRule_neg_iff chain (joinSp args)).mpr hr]
  · intro chain hc hr
    obtain ⟨table, hg⟩ := getChain_of_chainAt hc
    obtain ⟨l1, l2, h1, h2, h3⟩ := findRuleFrom_split (joinSp args) chain.rules 0 hr
    have hidx : findRule chain (joinSp args) = (l1.length : Int) := by
      unfold findRule
      rw [h3]
      simp
    have hnot : ¬ findRule chain (joinSp args) < 0 := by
      rw [hidx]
      omega
    have hrules : chain.rules.take (findRule chain (joinSp args)).toNat ++
        chain.rules.drop ((findRule chain (joinSp args)).toNat + 1) = l1 ++ l2 := by
      rw [hidx, Int.toNat_ofNat]
      conv_lhs => rw [h1]
      simp
    have hst : (DeleteRule f t c args).1 = setRules f t c chain (l1 ++ l2) := by
      unfold DeleteRule
      rw [hg]
      simp only [hnot, if_false, hrules]
    refine ⟨l1, l2, h1, h2, ?_, ?_⟩
    · rw [hst]
      apply chainAt_setRules_same
      cases hm : mget t f.tables with
      | none => simp [chainAt_none_of_table c hm] at hc
      | some table => rfl
    · intro t' c' hne
      rw [hst]
      exact chainAt_setRules_ne f t c t' c' chain _ hne

/-- C10 on a chain holding `a`, `b`, `a`: deleting `a` leaves `b`, `a`. -/
theorem DeleteRule_lenient_literal_witness :
    ∃ l1 l2, ["a".toList, "b".toList, "a".toList] = l1 ++ joinSp ["a".toList] :: l2 ∧
      joinSp ["a".toList] ∉ l1 ∧
      chainAt (DeleteRule
          { newFakeIPTables with
            tables := [("filter".toList, { name := "filter".toList, chains :=
              [("X".toList, { name := "X".toList,
                              rules := ["a".toList, "b".toList, "a".toList] })] })] }
          "filter".toList "X".toList ["a".toList]).1 "filter".toList "X".toList
        = some { name := "X".toList, rules := l1 ++ l2 } ∧
      ∀ t' c', t' ≠ "filter".toList ∨ c' ≠ "X".toList →
        chainAt (DeleteRule
          { newFakeIPTables with
            tables := [("filter".toList, { name := "filter".toList, chains :=
              [("X".toList, { name := "X".toList,
                              rules := ["a".toList, "b".toList, "a".toList] })] })] }
          "filter".toList "X".toList ["a".toList]).1 t' c'
        = chainAt { newFakeIPTables with
            tables := [("filter".toList, { name := "filter".toList, chains :=
              [("X".toList, { name := "X".toList,
                              rules := ["a".toList, "b".toList, "a".toList] })] })] } t' c' :=
  (DeleteRule_lenient_literal
    { newFakeIPTables with
      tables := [("filter".toList, { name := "filter".toList, chains :=
        [("X".toList, { name := "X".toList,
                        rules := ["a".toList, "b".toList, "a".toList] })] })] }
    "filter".toList "X".toList ["a".toList]).2.2.2
    { name := "X".toList, rules := ["a".toList, "b".toList, "a".toList] } (by decide) (by decide)

/-- C7: malformed rule lines are rejected.  If the lines before line `l` are
processed without `restore` returning, leaving the parser inside a table section
it is processing (current table non-empty and accepted by the filter), and `l`
begins with `-A` or `-I` and has fewer than 3 space-separated fields, or begins
with `-X` and has fewer than 2, then `restore` returns the invalid-rule error. -/
theorem restore_rejects_malformed (fam : Classifier) (f f' : fakeIPTables)
    (rt data l tn : Str) (flush : FlushFlag) (pre post : List Str)
    (hlines : readLines data = pre ++ (l ++ [newline]) :: post)
    (hpre : restorePrefix fam rt data flush pre f [] = some (f', tn))
    (htn : tn ≠ []) (hrt : rt = [] ∨ rt = tn)
    (hbad : ((startsWith l "-A".toList = true ∨ startsWith l "-I".toList = true) ∧
        (splitOn l ' ').length < 3) ∨
      (startsWith l "-X".toList = true ∧ (splitOn l ' ').length < 2)) :
    (restore fam f rt data flush).2 = .err (.invalidRule l) := by
  unfold restore
  rw [hlines, restoreLines_after fam rt data flush pre _ f f' [] tn hpre]
  have hfilter : ¬ (rt ≠ [] ∧ rt ≠ tn) := by
    rintro ⟨h1, h2⟩
    rcases hrt with h | h
    · exact h1 h
    · exact h2 h
  have hdash : ∃ x rest, l = '-' :: x :: rest ∧
      ((x = 'A' ∧ (splitOn l ' ').length < 3) ∨ (x = 'I' ∧ (splitOn l ' ').length < 3) ∨
        (x = 'X' ∧ (splitOn l ' ').length < 2)) := by
    have key : ∀ y : Char, startsWith l ['-', y] = true → ∃ rest, l = '-' :: y :: rest := by
      intro y hy
      cases l with
      | nil => simp [startsWith] at hy
      | cons a l1 =>
        cases l1 with
        | nil => simp [startsWith] at hy
        | cons b rest =>
          simp only [startsWith_cons_cons, startsWith_nil, Bool.and_true, Bool.and_eq_true,
            decide_eq_true_eq] at hy
          exact ⟨rest, by rw [hy.1, hy.2]⟩
    rcases hbad with ⟨h | h, hl⟩ | ⟨h, hl⟩
    · obtain ⟨rest, hr⟩ := key 'A' h
      exact ⟨'A', rest, hr, Or.inl ⟨rfl, hl⟩⟩
    · obtain ⟨rest, hr⟩ := key 'I' h
      exact ⟨'I', rest, hr, Or.inr (Or.inl ⟨rfl, hl⟩)⟩
    · obtain ⟨rest, hr⟩ := key 'X' h
      exact ⟨'X', rest, hr, Or.inr (Or.inr ⟨rfl, hl⟩)⟩
  obtain ⟨x, rest, hl, hx⟩ := hdash
  subst hl
  have hline : restoreLine fam rt data flush f' tn (('-' :: x :: rest) ++ [newline])
      = restoreBlock fam rt data flush f' tn ('-' :: x :: rest) := by
    have hcut := cutSuffixChar_append ('-' :: x :: rest) newline
    simp only [restoreLine, List.cons_append]
    rw [if_neg (by decide)]
    simp only [List.cons_append] at hcut
    rw [hcut]
    simp [startsWith]
  simp only [restoreLines, hline]
  have hblock : restoreBlock fam rt data flush f' tn ('-' :: x :: rest)
      = .done f' (.err (.invalidRule ('-' :: x :: rest))) := by
    unfold restoreBlock
    rw [if_pos htn, if_neg hfilter]
    rcases hx with ⟨hx, hlen⟩ | ⟨hx, hlen⟩ | ⟨hx, hlen⟩
    · subst hx
      simp [startsWith, restoreRule, hlen]
    · subst hx
      simp [startsWith, restoreRule, hlen]
    · subst hx
      simp [startsWith, restoreDelete, hlen]
  rw [hblock]

/-- C7 at the spec's example: the line `-A` alone inside the section of table
`filter`. -/
theorem restore_rejects_malformed_witness :
    (restore sampleClassifier newFakeIPTables [] (text ["*filter", "-A", "COMMIT"])
        .NoFlushTables).2 = .err (.invalidRule "-A".toList) :=
  restore_rejects_malformed sampleClassifier newFakeIPTables newFakeIPTables []
    (text ["*filter", "-A", "COMMIT"]) "-A".toList "filter".toList .NoFlushTables
    [text ["*filter"]] [text ["COMMIT"]] (by decide) (by decide) (by decide) (Or.inl rfl)
    (Or.inl ⟨Or.inl (by decide), by decide⟩)

/-- C6 fails on the code: with the full-table-flush flag the header of a chain
that does not exist makes `restore` return the chain-not-found error of
`getChain`, and the chain is not created. -/
theorem restore_flush_missing_chain_errors :
    RestoreAll sampleClassifier newFakeIPTables (text ["*filter", ":FOO - [0:0]", "COMMIT"])
        .FlushTables
      = (newFakeIPTables, .err (.chainNotFound "filter".toList "FOO".toList)) ∧
    ChainExists (RestoreAll sampleClassifier newFakeIPTables
        (text ["*filter", ":FOO - [0:0]", "COMMIT"]) .FlushTables).1 "filter".toList "FOO".toList
      = (false, some (.chainNotFound "filter".toList "FOO".toList)) := by
  decide

/-- C8 fails on the code: a rule line whose rule part is empty reaches
`remaining[0]` in `normalizeRule` with an empty string, a run-time panic. -/
theorem restore_crashes_on_empty_rule :
    (RestoreAll sampleClassifier newFakeIPTables (text ["*filter", "-A FOO ", "COMMIT"])
        .NoFlushTables).2 = .crash ∧
    normalizeRule sampleClassifier [] = .crash := by
  decide

/-! ### The header stream -/

theorem ensureChain_builtinChains (f : fakeIPTables) (t c : Str) :
    (ensureChain f t c).1.builtinChains = f.builtinChains := by
  unfold ensureChain
  cases getChain f t c <;> rfl

theorem isBuiltinChain_congr {f g : fakeIPTables} (h : g.builtinChains = f.builtinChains)
    (t c : Str) : isBuiltinChain g t c = isBuiltinChain f t c := by
  unfold isBuiltinChain
  rw [h]

theorem restoreLine_star (fam : Classifier) (rt allLines t tn : Str) (flush : FlushFlag)
    (f : fakeIPTables) (ht : t ≠ []) (hrt : rt = [] ∨ rt = t) :
    restoreLine fam rt allLines flush f tn (('*' :: t) ++ [newline]) = .next f t := by
  have hfilter : ¬ (rt ≠ [] ∧ rt ≠ t) := by
    rintro ⟨h1, h2⟩
    rcases hrt with h | h
    · exact h1 h
    · exact h2 h
  have hcut := cutSuffixChar_append ('*' :: t) newline
  simp only [List.cons_append] at hcut
  simp only [restoreLine, List.cons_append]
  rw [if_neg (by decide), hcut]
  simp only [startsWith_cons_cons, startsWith_nil, decide_True, Bool.and_true, if_true,
    List.drop_succ_cons, List.drop_zero]
  unfold restoreBlock
  rw [if_pos ht, if_neg hfilter]
  simp [startsWith]

theorem restoreLine_header (fam : Classifier) (rt allLines t c : Str) (flush : FlushFlag)
    (f : fakeIPTables) (ht : t ≠ []) (hrt : rt = [] ∨ rt = t) (hc : ' ' ∉ c) :
    restoreLine fam rt allLines flush f t (((':' :: c) ++ " - [0:0]".toList) ++ [newline])
      = restoreChain f t c allLines flush := by
  have hfilter : ¬ (rt ≠ [] ∧ rt ≠ t) := by
    rintro ⟨h1, h2⟩
    rcases hrt with h | h
    · exact h1 h
    · exact h2 h
  have hcut := cutSuffixChar_append ((':' :: c) ++ " - [0:0]".toList) newline
  simp only [List.cons_append] at hcut
  simp only [restoreLine, List.cons_append]
  rw [if_neg (by decide), hcut]
  have hsplit : splitOn (c ++ " - [0:0]".toList) ' ' = c :: splitOn "- [0:0]".toList ' ' :=
    splitOn_field c "- [0:0]".toList ' ' hc
  simp only [startsWith_cons_cons, startsWith_nil]
  rw [if_neg (by decide)]
  unfold restoreBlock
  rw [if_pos ht, if_neg hfilter]
  simp only [startsWith_cons_cons, startsWith_nil, decide_True, Bool.and_true, if_true]
  unfold restoreHeader
  simp only [List.drop_succ_cons, List.drop_zero, hsplit]

theorem restoreLine_commit (fam : Classifier) (rt allLines t : Str) (flush : FlushFlag)
    (f : fakeIPTables) (ht : t ≠ []) (hrt : rt = [] ∨ rt = t) :
    restoreLine fam rt allLines flush f t ("COMMIT".toList ++ [newline])
      = if rt = t then .done f (.ok ()) else .next f [] := by
  have hfilter : ¬ (rt ≠ [] ∧ rt ≠ t) := by
    rintro ⟨h1, h2⟩
    rcases hrt with h | h
    · exact h1 h
    · exact h2 h
  have h1 : restoreLine fam rt allLines flush f t ("COMMIT".toList ++ [newline])
      = restoreBlock fam rt allLines flush f t "COMMIT".toList := by
    have hcut := cutSuffixChar_append "COMMIT".toList newline
    have hc : ("COMMIT".toList ++ [newline]) = 'C' :: ("OMMIT".toList ++ [newline]) := rfl
    rw [hc] at hcut ⊢
    simp only [restoreLine]
    rw [if_neg (by decide), hcut]
    simp [startsWith]
  rw [h1]
  unfold restoreBlock
  rw [if_pos ht, if_neg hfilter]
  simp [startsWith]

/-- Restoring the header stream: the outcome is that of the chain-header step,
followed by a successful return. -/
theorem restore_headerStream (fam : Classifier) (f : fakeIPTables) (rt t c : Str)
    (flush : FlushFlag) (ht : t ≠ []) (htn : newline ∉ t) (hc1 : ' ' ∉ c) (hc2 : newline ∉ c)
    (hrt : rt = [] ∨ rt = t) :
    restore fam f rt (headerStream t c) flush
      = match restoreChain f t c (headerStream t c) flush with
        | .next f' _ => (f', .ok ())
        | .done f' r => (f', r) := by
  have hlines : readLines (headerStream t c)
      = [('*' :: t) ++ [newline], ((':' :: c) ++ " - [0:0]".toList) ++ [newline],
          "COMMIT".toList ++ [newline]] := by
    unfold headerStream
    have h1 : newline ∉ '*' :: t := by
      intro h
      rcases List.mem_cons.mp h with h | h
      · exact absurd h (by decide)
      · exact htn h
    have h2 : newline ∉ (':' :: c) ++ " - [0:0]".toList := by
      intro h
      rcases List.mem_append.mp h with h | h
      · rcases List.mem_cons.mp h with h | h
        · exact absurd h (by decide)
        · exact hc2 h
      · revert h
        decide
    rw [readLines_line _ _ h1, readLines_line _ _ h2]
    have : readLines ("COMMIT".toList ++ [newline]) = ["COMMIT".toList ++ [newline]] := by decide
    rw [this]
  unfold restore
  rw [hlines]
  simp only [restoreLines, restoreLine_star fam rt _ t [] flush f ht hrt,
    restoreLine_header fam rt _ t c flush f ht hrt hc1]
  cases hstep : restoreChain f t c (headerStream t c) flush with
  | done f' r => rfl
  | next f' tn' =>
    have htn' : tn' = t := by
      unfold restoreChain at hstep
      simp only at hstep
      split at hstep
      · cases hstep
      · split_ifs at hstep
        · revert hstep
          cases FlushChain (ensureChain _ t c).1 t c with
          | mk g r =>
            cases r <;> simp [Step.ofCall]
            intro _ h
            exact h.symm
        · simp only [Step.next.injEq] at hstep
          exact hstep.2.symm
    subst htn'
    simp only [restoreLine_commit fam rt _ tn' flush f' ht hrt]
    split_ifs <;> rfl

theorem FlushChain_of_chainAt {f : fakeIPTables} {t c : Str} {chain : fakeChain}
    (h : chainAt f t c = some chain) :
    FlushChain f t c = (setRules f t c chain [], .ok ()) := by
  obtain ⟨table, hg⟩ := getChain_of_chainAt h
  unfold FlushChain
  rw [hg]

theorem table_isSome_of_chainAt {f : fakeIPTables} {t c : Str} {chain : fakeChain}
    (h : chainAt f t c = some chain) : (mget t f.tables).isSome := by
  cases hm : mget t f.tables with
  | none => simp [chainAt_none_of_table c hm] at h
  | some table => rfl

/-- The chain-header step on an existing chain, under the flush flag: the chain
is deleted and recreated, so it ends up empty. -/
theorem restoreChain_flush {f : fakeIPTables} {t c : Str} {chain : fakeChain} (allLines : Str)
    (h : chainAt f t c = some chain) :
    ∃ f', restoreChain f t c allLines .FlushTables = .next f' t ∧ rulesAt f' t c = some [] := by
  cases h1 : mget t f.tables with
  | none => simp [chainAt_none_of_table c h1] at h
  | some table =>
    rw [chainAt_of_table c h1] at h
    have hnone : chainAt (putChains f t table (mdel c table.chains)) t c = none := by
      rw [chainAt_putChains_same, mget_mdel_self]
    have hnew : chainAt (ensureChain (putChains f t table (mdel c table.chains)) t c).1 t c
        = some { name := c, rules := [] } := by
      rw [ensureChain_chainAt_same, ensureChain_chain, hnone]
      rfl
    unfold restoreChain
    simp only [if_true, getChain_found h1 h]
    split_ifs
    · rw [FlushChain_of_chainAt hnew]
      exact ⟨_, rfl, rulesAt_setRules_same _ _ _ _ _ (table_isSome_of_chainAt hnew)⟩
    · exact ⟨_, rfl, by simp [rulesAt, hnew]⟩

/-- The chain-header step on an existing chain, without the flush flag: a
builtin chain keeps its rules, any other chain is flushed unless the stream
mentions `-X chain`. -/
theorem restoreChain_noflush {f : fakeIPTables} {t c : Str} {chain : fakeChain} (allLines : Str)
    (h : chainAt f t c = some chain) :
    ∃ f', restoreChain f t c allLines .NoFlushTables = .next f' t ∧
      (isBuiltinChain f t c = true → rulesAt f' t c = some chain.rules) ∧
      (isBuiltinChain f t c = false → strContains allLines ("-X ".toList ++ c) = false →
        rulesAt f' t c = some []) := by
  unfold restoreChain
  have hfl : ¬ (FlushFlag.NoFlushTables = FlushFlag.FlushTables) := by decide
  simp only [hfl, if_false, ensureChain_of_chainAt h]
  split_ifs with hcond
  · rw [FlushChain_of_chainAt h]
    refine ⟨_, rfl, ?_, ?_⟩
    · intro hb
      simp [hb] at hcond
    · intro _ _
      exact rulesAt_setRules_same _ _ _ _ _ (table_isSome_of_chainAt h)
  · refine ⟨_, rfl, ?_, ?_⟩
    · intro _
      simp [rulesAt, h]
    · intro hb hx
      rw [hb, hx] at hcond
      exact absurd rfl hcond

/-- C5: chain-header semantics of restore.  For a store in which chain `c` of
table `t` exists, after the stream `*t`, `:c - [0:0]`, `COMMIT` is processed
(no filter, or the filter `t`): (a) with the full-table-flush flag the chain
exists and has no rules, builtin or not; (b) with the no-flush flag a builtin
chain keeps exactly its rules; (c) with the no-flush flag a chain that is not
builtin, in a stream that nowhere contains `-X ` followed by `c`, exists and has
no rules.  In each case restore returns success. -/
theorem restore_header_semantics (fam : Classifier) (f : fakeIPTables) (rt t c : Str)
    (chain : fakeChain) (ht : t ≠ []) (htn : newline ∉ t) (hc1 : ' ' ∉ c) (hc2 : newline ∉ c)
    (hrt : rt = [] ∨ rt = t) (hch : chainAt f t c = some chain) :
    ((restore fam f rt (headerStream t c) .FlushTables).2 = .ok () ∧
      rulesAt (restore fam f rt (headerStream t c) .FlushTables).1 t c = some []) ∧
    (isBuiltinChain f t c = true →
      (restore fam f rt (headerStream t c) .NoFlushTables).2 = .ok () ∧
      rulesAt (restore fam f rt (headerStream t c) .NoFlushTables).1 t c = some chain.rules) ∧
    (isBuiltinChain f t c = false → strContains (headerStream t c) ("-X ".toList ++ c) = false →
      (restore fam f rt (headerStream t c) .NoFlushTables).2 = .ok () ∧
      rulesAt (restore fam f rt (headerStream t c) .NoFlushTables).1 t c = some []) := by
  refine ⟨?_, ?_, ?_⟩
  · obtain ⟨f', h1, h2⟩ := restoreChain_flush (headerStream t c) hch
    rw [restore_headerStream fam f rt t c _ ht htn hc1 hc2 hrt, h1]
    exact ⟨rfl, h2⟩
  · intro hb
    obtain ⟨f', h1, h2, _⟩ := restoreChain_noflush (headerStream t c) hch
    rw [restore_headerStream fam f rt t c _ ht htn hc1 hc2 hrt, h1]
    exact ⟨rfl, h2 hb⟩
  · intro hb hx
    obtain ⟨f', h1, _, h3⟩ := restoreChain_noflush (headerStream t c) hch
    rw [restore_headerStream fam f rt t c _ ht htn hc1 hc2 hrt, h1]
    exact ⟨rfl, h3 hb hx⟩

/-- C5 on a store whose builtin chain `filter`/`INPUT` holds the rule `-j ACCEPT`:
a flushing restore of the header stream empties it. -/
theorem restore_header_semantics_witness :
    (restore sampleClassifier
        (EnsureRule sampleClassifier sampleQuote newFakeIPTables .Append "filter".toList
          "INPUT".toList ["-j".toList, "ACCEPT".toList]).1
        [] (headerStream "filter".toList "INPUT".toList) .FlushTables).2 = .ok () ∧
    rulesAt (restore sampleClassifier
        (EnsureRule sampleClassifier sampleQuote newFakeIPTables .Append "filter".toList
          "INPUT".toList ["-j".toList, "ACCEPT".toList]).1
        [] (headerStream "filter".toList "INPUT".toList) .FlushTables).1
        "filter".toList "INPUT".toList = some [] :=
  (restore_header_semantics sampleClassifier
    (EnsureRule sampleClassifier sampleQuote newFakeIPTables .Append "filter".toList
      "INPUT".toList ["-j".toList, "ACCEPT".toList]).1
    [] "filter".toList "INPUT".toList
    { name := "INPUT".toList, rules := ["-j ACCEPT".toList] }
    (by decide) (by decide) (by decide) (by decide) (Or.inl rfl) (by decide)).1

/-! ### The normalizer: indices and fuel -/

theorem replaceFirst_length (s : Str) (a b : Char) : (replaceFirst s a b).length = s.length := by
  induction s with
  | nil => rfl
  | cons c s ih =>
    by_cases h : c = a
    · simp [replaceFirst, h]
    · simp [replaceFirst, h, ih]

theorem rewriteDest_length (s : Str) : (rewriteDest s).length = s.length := by
  unfold rewriteDest
  split_ifs
  · exact replaceFirst_length s _ _
  · rfl

theorem indexChar_none_iff (s : Str) (d : Char) : indexChar s d = none ↔ d ∉ s := by
  induction s with
  | nil => simp [indexChar]
  | cons c s ih =>
    by_cases h : c = d
    · simp [indexChar, h]
    · simp [indexChar, h, ih, Ne.symm h]

/-- The index found by `strings.Index` splits the string at the first occurrence. -/
theorem indexChar_some (s : Str) (d : Char) (i : Nat) (h : indexChar s d = some i) :
    i < s.length ∧ s.take i ++ d :: s.drop (i + 1) = s ∧ d ∉ s.take i := by
  induction s generalizing i with
  | nil => simp [indexChar] at h
  | cons c s ih =>
    by_cases hc : c = d
    · simp only [indexChar, hc, if_true, Option.some.injEq] at h
      subst h
      subst hc
      simp
    · simp only [indexChar, hc, if_false, Option.map_eq_some'] at h
      obtain ⟨j, hj, hij⟩ := h
      subst hij
      obtain ⟨h1, h2, h3⟩ := ih j hj
      refine ⟨by simp; omega, by simp [h2], ?_⟩
      simp only [List.take_succ_cons, List.mem_cons, not_or]
      exact ⟨Ne.symm hc, h3⟩

theorem indexChar_append_of_mem (s y : Str) (d : Char) (h : d ∈ s) :
    indexChar (s ++ y) d = indexChar s d := by
  induction s with
  | nil => simp at h
  | cons c s ih =>
    by_cases hc : c = d
    · simp [indexChar, hc]
    · have hs : d ∈ s := by
        rcases List.mem_cons.mp h with h | h
        · exact absurd h.symm hc
        · exact h
      simp [indexChar, hc, ih hs]

theorem indexChar_of_not_mem (s y : Str) (d : Char) (h : d ∉ s) :
    indexChar (s ++ d :: y) d = some s.length := by
  induction s with
  | nil => simp [indexChar]
  | cons c s ih =>
    have hc : c ≠ d := fun e => h (by simp [e])
    have hs : d ∉ s := fun e => h (by simp [e])
    simp [indexChar, hc, ih hs]

theorem tokenEnd_le (s : Str) (e : Nat) (h : tokenEnd s = some e) : e ≤ s.length := by
  unfold tokenEnd at h
  cases s with
  | nil =>
    simp at h
    omega
  | cons c rest =>
    simp only at h
    split_ifs at h with hq
    · cases hi : indexChar rest dquote with
      | none => simp [hi] at h
      | some i =>
        simp only [hi, Option.some.injEq] at h
        have := (indexChar_some rest dquote i hi).1
        simp only [List.length_cons]
        omega
    · cases hi : indexChar (c :: rest) ' ' with
      | none =>
        simp only [hi, Option.some.injEq] at h
        omega
      | some i =>
        simp only [hi, Option.some.injEq] at h
        have := (indexChar_some (c :: rest) ' ' i hi).1
        omega

/-- One iteration of the loop, with the bound checks discharged. -/
theorem normalizeLoop_succ (fam : Classifier) (n : Nat) (N R : Str) :
    normalizeLoop fam (n + 1) N R =
      match rewriteDest R with
      | [] => .crash
      | c :: rest =>
        match tokenEnd (c :: rest) with
        | none => .err .mismatchedQuotes
        | some e =>
          if (c :: rest).length = e then .ok (pushToken fam N ((c :: rest).take e))
          else normalizeLoop fam n (pushToken fam N ((c :: rest).take e))
            ((c :: rest).drop (e + 1)) := by
  simp only [normalizeLoop]
  change (match rewriteDest R with
    | [] => Res.crash
    | c :: rest => _) = _
  cases hR : rewriteDest R with
  | nil => rfl
  | cons c rest =>
    simp only
    cases hE : tokenEnd (c :: rest) with
    | none => rfl
    | some e =>
      have hle := tokenEnd_le _ _ hE
      simp only
      rw [if_neg (by omega)]
      by_cases hlen : (c :: rest).length = e
      · rw [if_pos hlen, if_pos hlen]
        rfl
      · rw [if_neg hlen, if_neg hlen, if_neg (by omega)]
        rfl

/-- More fuel than characters left is always enough: the result does not
depend on the amount. -/
theorem normalizeLoop_fuel (fam : Classifier) (n m : Nat) (N R : Str)
    (hn : R.length < n) (hm : R.length < m) :
    normalizeLoop fam n N R = normalizeLoop fam m N R := by
  induction n generalizing m N R with
  | zero => omega
  | succ n ih =>
    cases m with
    | zero => omega
    | succ m =>
      rw [normalizeLoop_succ, normalizeLoop_succ]
      have hlen := rewriteDest_length R
      cases hR : rewriteDest R with
      | nil => rfl
      | cons c rest =>
        simp only
        cases hE : tokenEnd (c :: rest) with
        | none => rfl
        | some e =>
          simp only
          split_ifs with h
          · rfl
          · have hpos : 0 < (c :: rest).length := by simp
            apply ih
            · rw [hR] at hlen
              simp only [List.length_drop]
              omega
            · rw [hR] at hlen
              simp only [List.length_drop]
              omega

/-- The loop never runs out of the fuel `normalizeRule` gives it. -/
theorem normalizeLoop_ne_outOfFuel (fam : Classifier) (n : Nat) (N R : Str) (hn : R.length < n) :
    normalizeLoop fam n N R ≠ .outOfFuel := by
  induction n generalizing N R with
  | zero => omega
  | succ n ih =>
    rw [normalizeLoop_succ]
    have hlen := rewriteDest_length R
    cases hR : rewriteDest R with
    | nil => simp
    | cons c rest =>
      simp only
      cases hE : tokenEnd (c :: rest) with
      | none => simp
      | some e =>
        simp only
        split_ifs with h
        · simp
        · have hpos : 0 < (c :: rest).length := by simp
          apply ih
          rw [hR] at hlen
          simp only [List.length_drop]
          omega

theorem normalizeRule_ne_outOfFuel (fam : Classifier) (rule : Str) :
    normalizeRule fam rule ≠ .outOfFuel :=
  normalizeLoop_ne_outOfFuel fam _ _ _ (Nat.lt_succ_self _)

theorem normalizeRule_eq_normFrom (fam : Classifier) (rule : Str) :
    normalizeRule fam rule = normFrom fam [] (trimSpace rule) := rfl

/-- The loop, unfolded once, in terms of itself with enough fuel. -/
theorem normFrom_unfold (fam : Classifier) (N R : Str) :
    normFrom fam N R =
      match rewriteDest R with
      | [] => .crash
      | c :: rest =>
        match tokenEnd (c :: rest) with
        | none => .err .mismatchedQuotes
        | some e =>
          if (c :: rest).length = e then .ok (pushToken fam N ((c :: rest).take e))
          else normFrom fam (pushToken fam N ((c :: rest).take e)) ((c :: rest).drop (e + 1)) := by
  unfold normFrom
  rw [normalizeLoop_succ]
  have hlen := rewriteDest_length R
  cases hR : rewriteDest R with
  | nil => rfl
  | cons c rest =>
    simp only
    cases hE : tokenEnd (c :: rest) with
    | none => rfl
    | some e =>
      simp only
      split_ifs with h
      · rfl
      · have hpos : 0 < (c :: rest).length := by simp
        apply normalizeLoop_fuel
        · rw [hR] at hlen
          simp only [List.length_drop]
          omega
        · omega

/-! ### The normalizer: one token at a time -/

theorem startsWith_eq_true (s p : Str) (h : startsWith s p = true) : s = p ++ s.drop p.length := by
  induction p generalizing s with
  | nil => simp
  | cons b p ih =>
    cases s with
    | nil => simp [startsWith] at h
    | cons a s =>
      simp only [startsWith_cons_cons, Bool.and_eq_true, decide_eq_true_eq] at h
      obtain ⟨h1, h2⟩ := h
      subst h1
      simpa using ih s h2

/-- A prefix without the character `d` is decided before the first `d`. -/
theorem startsWith_append_of_mem (A Y p : Str) (d : Char) (hA : d ∈ A) (hp : d ∉ p) :
    startsWith (A ++ Y) p = startsWith A p := by
  induction p generalizing A with
  | nil => rw [startsWith_nil, startsWith_nil]
  | cons b p ih =>
    cases A with
    | nil => simp at hA
    | cons a A =>
      simp only [List.cons_append, startsWith_cons_cons]
      by_cases hab : a = b
      · subst hab
        have had : a ≠ d := fun e => hp (by simp [e])
        have hA' : d ∈ A := by
          rcases List.mem_cons.mp hA with h | h
          · exact absurd h.symm had
          · exact h
        rw [ih A hA' (fun e => hp (by simp [e]))]
      · simp [hab]

theorem rewriteDest_of_not (R : Str) (h : startsWith R toDestination = false) :
    rewriteDest R = R := by
  simp [rewriteDest, h]

theorem normFrom_congr (fam : Classifier) (N R R' : Str) (h : rewriteDest R = rewriteDest R') :
    normFrom fam N R = normFrom fam N R' := by
  rw [normFrom_unfold, normFrom_unfold, h]

/-- An unquoted token followed by a space: the token is pushed and the loop goes
on after the space. -/
theorem normFrom_token_more (fam : Classifier) (N y S : Str) (h1 : ' ' ∉ y)
    (h2 : y.head? ≠ some dquote) (h3 : startsWith (y ++ ' ' :: S) toDestination = false) :
    normFrom fam N (y ++ ' ' :: S) = normFrom fam (pushToken fam N y) S := by
  rw [normFrom_unfold, rewriteDest_of_not _ h3]
  have hidx : indexChar (y ++ ' ' :: S) ' ' = some y.length := indexChar_of_not_mem y S ' ' h1
  have htok : tokenEnd (y ++ ' ' :: S) = some y.length := by
    cases y with
    | nil => simp [tokenEnd, indexChar, dquote]
    | cons a y =>
      have ha : a ≠ dquote := by
        intro e
        apply h2
        simp [e]
      simp only [List.cons_append] at hidx ⊢
      simp only [tokenEnd, ha, if_false, hidx]
  cases hR : y ++ ' ' :: S with
  | nil => simp at hR
  | cons c rest =>
    simp only
    rw [← hR, htok]
    simp only
    rw [if_neg (by simp)]
    simp

/-- An unquoted token at the end of the rule: the token is pushed and the loop
ends. -/
theorem normFrom_token_last (fam : Classifier) (N y : Str) (h0 : y ≠ []) (h1 : ' ' ∉ y)
    (h2 : y.head? ≠ some dquote) (h3 : startsWith y toDestination = false) :
    normFrom fam N y = .ok (pushToken fam N y) := by
  rw [normFrom_unfold, rewriteDest_of_not _ h3]
  cases y with
  | nil => exact absurd rfl h0
  | cons a y =>
    have ha : a ≠ dquote := by
      intro e
      apply h2
      simp [e]
    have hidx : indexChar (a :: y) ' ' = none := (indexChar_none_iff _ _).mpr h1
    simp only [tokenEnd, ha, if_false, hidx]
    simp

/-- A leading `--to-destination=` is read as the token `--to-destination`. -/
theorem normFrom_toDestination (fam : Classifier) (N Z : Str) :
    normFrom fam N (toDestination ++ Z)
      = normFrom fam (pushToken fam N "--to-destination".toList) Z := by
  have h1 : rewriteDest (toDestination ++ Z) = "--to-destination".toList ++ ' ' :: Z := by
    unfold rewriteDest
    rw [startsWith_append, if_pos rfl]
    simp [toDestination, replaceFirst]
  have h2 : rewriteDest ("--to-destination".toList ++ ' ' :: Z)
      = "--to-destination".toList ++ ' ' :: Z := by
    apply rewriteDest_of_not
    simp [toDestination, startsWith]
  rw [normFrom_congr fam N _ ("--to-destination".toList ++ ' ' :: Z) (by rw [h1, h2])]
  apply normFrom_token_more
  · decide
  · decide
  · simp [toDestination, startsWith]

/-! ### The normalizer: scanning through unquoted arguments -/

theorem getLast?_drop_of_split (y A2 : Str) (d e : Char) (hA2 : A2 ≠ [])
    (h : (y ++ d :: A2).getLast? = some e) : A2.getLast? = some e := by
  rw [List.getLast?_append] at h
  cases A2 with
  | nil => exact absurd rfl hA2
  | cons a A2 =>
    rw [List.getLast?_cons_cons] at h
    cases hl : (a :: A2).getLast? with
    | none => simp at hl
    | some z =>
      rw [hl] at h
      simpa using h

/-- Scanning through a quote-free text that ends with a space (or is empty)
reaches what follows it in the same way, whatever follows. -/
theorem normFrom_through (fam : Classifier) (Y Y' : Str)
    (hcont : ∀ N', normFrom fam N' Y = normFrom fam N' Y') :
    ∀ (n : Nat) (A N : Str), A.length ≤ n → dquote ∉ A → (A = [] ∨ A.getLast? = some ' ') →
      normFrom fam N (A ++ Y) = normFrom fam N (A ++ Y') := by
  intro n
  induction n with
  | zero =>
    intro A N hn _ _
    have : A = [] := List.length_eq_zero.mp (Nat.le_zero.mp hn)
    subst this
    exact hcont N
  | succ n ih =>
    intro A N hn hq hend
    by_cases hA : A = []
    · subst hA
      exact hcont N
    · have hlast : A.getLast? = some ' ' := by
        rcases hend with h | h
        · exact absurd h hA
        · exact h
      have hmem : ' ' ∈ A := by
        obtain ⟨B, hB⟩ := List.getLast?_eq_some_iff.mp hlast
        rw [hB]
        simp
      by_cases hd : startsWith A toDestination = true
      · have hsplit := startsWith_eq_true A toDestination hd
        have hlen : (A.drop toDestination.length).length ≤ n := by
          have h17 : toDestination.length = 17 := rfl
          have : A.length = toDestination.length + (A.drop toDestination.length).length := by
            conv_lhs => rw [hsplit]
            rw [List.length_append]
          omega
        have hq2 : dquote ∉ A.drop toDestination.length :=
          fun h => hq (List.mem_of_mem_drop h)
        have hend2 : A.drop toDestination.length = [] ∨
            (A.drop toDestination.length).getLast? = some ' ' := by
          by_cases he : A.drop toDestination.length = []
          · exact Or.inl he
          · right
            rw [hsplit, List.getLast?_append] at hlast
            cases hl : (A.drop toDestination.length).getLast? with
            | none => simp [he] at hl
            | some z =>
              rw [hl] at hlast
              simpa using hlast
        rw [hsplit, List.append_assoc, List.append_assoc, normFrom_toDestination,
          normFrom_toDestination]
        exact ih _ _ hlen hq2 hend2
      · have hd' : startsWith A toDestination = false := by simpa using hd
        cases hi : indexChar A ' ' with
        | none => exact absurd hmem ((indexChar_none_iff A ' ').mp hi)
        | some i =>
          obtain ⟨hlt, hsplit, hnot⟩ := indexChar_some A ' ' i hi
          have hhead : (A.take i).head? ≠ some dquote := by
            intro h
            have : dquote ∈ A.take i := List.mem_of_mem_head? h
            exact hq (List.mem_of_mem_take this)
          have hlen : (A.drop (i + 1)).length ≤ n := by
            simp only [List.length_drop]
            omega
          have hq2 : dquote ∉ A.drop (i + 1) := fun h => hq (List.mem_of_mem_drop h)
          have hend2 : A.drop (i + 1) = [] ∨ (A.drop (i + 1)).getLast? = some ' ' := by
            by_cases he : A.drop (i + 1) = []
            · exact Or.inl he
            · right
              rw [← hsplit] at hlast
              exact getLast?_drop_of_split _ _ _ _ he hlast
          have hsw : ∀ Z, startsWith (A.take i ++ ' ' :: (A.drop (i + 1) ++ Z)) toDestination
              = false := by
            intro Z
            have : A.take i ++ ' ' :: (A.drop (i + 1) ++ Z) = A ++ Z := by
              conv_rhs => rw [← hsplit]
              simp
            rw [this, startsWith_append_of_mem A Z toDestination ' ' hmem (by decide), hd']
          have e1 : A ++ Y = A.take i ++ ' ' :: (A.drop (i + 1) ++ Y) := by
            conv_lhs => rw [← hsplit]
            simp
          have e2 : A ++ Y' = A.take i ++ ' ' :: (A.drop (i + 1) ++ Y') := by
            conv_lhs => rw [← hsplit]
            simp
          rw [e1, e2, normFrom_token_more fam N _ _ hnot hhead (hsw Y),
            normFrom_token_more fam N _ _ hnot hhead (hsw Y')]
          exact ih _ _ hlen hq2 hend2

/-! ### The normalizer: address literals -/

theorem isAddrChar_not_space {c : Char} (h : isAddrChar c = true) : isSpace c = false := by
  unfold isAddrChar at h
  unfold isSpace
  simp only [Bool.or_eq_true, Bool.and_eq_true, decide_eq_true_eq] at h
  simp only [Bool.or_eq_false_iff, Bool.and_eq_false_iff, decide_eq_false_iff_not]
  omega

theorem isAddrChar_ne {c d : Char} (h : isAddrChar c = true) (hd : isAddrChar d = false) :
    c ≠ d := by
  intro e
  rw [e, hd] at h
  cases h

theorem dropWhile_append_of_head (p : Char → Bool) (L Z : Str)
    (hZ : ∃ a Z', Z = a :: Z' ∧ p a = false) :
    (L ++ Z).dropWhile p = L.dropWhile p ++ Z := by
  obtain ⟨a, Z', hZ, ha⟩ := hZ
  subst hZ
  induction L with
  | nil => simp [List.dropWhile, ha]
  | cons b L ih =>
    by_cases hb : p b = true
    · simp [List.dropWhile, hb, ih]
    · simp [List.dropWhile, hb]

/-- Trimming around a middle part that begins and ends with non-space characters
only touches the text before and after it. -/
theorem trimSpace_mid (L x R : Str) (a b : Char) (hh : x.head? = some a) (hl : x.getLast? = some b)
    (ha : isSpace a = false) (hb : isSpace b = false) :
    trimSpace (L ++ x ++ R)
      = L.dropWhile isSpace ++ x ++ (R.reverse.dropWhile isSpace).reverse := by
  unfold trimSpace
  have hx : ∃ x', x = a :: x' := by
    cases x with
    | nil => simp at hh
    | cons c x' =>
      simp only [List.head?_cons, Option.some.injEq] at hh
      exact ⟨x', by rw [hh]⟩
  obtain ⟨x', hx'⟩ := hx
  have h1 : (L ++ x ++ R).dropWhile isSpace = L.dropWhile isSpace ++ (x ++ R) := by
    rw [List.append_assoc]
    exact dropWhile_append_of_head isSpace L (x ++ R) ⟨a, x' ++ R, by rw [hx']; rfl, ha⟩
  rw [h1]
  obtain ⟨y, hy⟩ := List.getLast?_eq_some_iff.mp hl
  have h2 : (L.dropWhile isSpace ++ (x ++ R)).reverse
      = R.reverse ++ (b :: (L.dropWhile isSpace ++ y).reverse) := by
    rw [hy]
    simp
  rw [h2, dropWhile_append_of_head isSpace R.reverse _ ⟨b, _, rfl, hb⟩]
  rw [hy]
  simp

theorem trimRight_shape (S0 : Str) (h : S0 = [] ∨ ∃ r, S0 = ' ' :: r) :
    (S0.reverse.dropWhile isSpace).reverse = [] ∨
      ∃ S', (S0.reverse.dropWhile isSpace).reverse = ' ' :: S' := by
  obtain ⟨t, ht⟩ := List.dropWhile_suffix (l := S0.reverse) isSpace
  have hS0 : S0 = (S0.reverse.dropWhile isSpace).reverse ++ t.reverse := by
    have := congrArg List.reverse ht
    simpa using this.symm
  cases hS : (S0.reverse.dropWhile isSpace).reverse with
  | nil => exact Or.inl rfl
  | cons a S' =>
    right
    rcases h with h | ⟨r, h⟩
    · rw [h] at hS
      simp at hS
    · rw [hS, h] at hS0
      simp only [List.cons_append, List.cons.injEq] at hS0
      exact ⟨S', by rw [← hS0.1]⟩

/-- A bare address literal scanned as a token of its own and the same literal
with its prefix length give the same canonical text. -/
theorem normFrom_literal (fam : Classifier) (x sfx S N : Str)
    (hx : x ≠ []) (hxc : ∀ c ∈ x, isAddrChar c = true)
    (hsfx : sfx = "/32".toList ∨ sfx = "/128".toList)
    (hfam : addrSuffix fam x = x ++ sfx) (hcidr : fam (x ++ sfx) = .IPFamilyUnknown)
    (hS : S = [] ∨ ∃ S', S = ' ' :: S') :
    normFrom fam N (x ++ S) = normFrom fam N ((x ++ sfx) ++ S) := by
  have hsp : ' ' ∉ x := fun h => isAddrChar_ne (hxc _ h) (by decide) rfl
  have hsfxsp : ' ' ∉ sfx := by
    rcases hsfx with h | h <;> rw [h] <;> decide
  have hsp2 : ' ' ∉ x ++ sfx := by
    intro h
    rcases List.mem_append.mp h with h | h
    · exact hsp h
    · exact hsfxsp h
  obtain ⟨a, x', hx'⟩ : ∃ a x', x = a :: x' := by
    cases x with
    | nil => exact absurd rfl hx
    | cons a x' => exact ⟨a, x', rfl⟩
  have ha : isAddrChar a = true := hxc a (by rw [hx']; simp)
  have hadq : a ≠ dquote := isAddrChar_ne ha (by decide)
  have hadash : a ≠ '-' := isAddrChar_ne ha (by decide)
  have hhead : x.head? ≠ some dquote := by
    rw [hx']
    simpa using hadq
  have hhead2 : (x ++ sfx).head? ≠ some dquote := by
    rw [hx']
    simpa using hadq
  have hsw : ∀ Z, startsWith (x ++ Z) toDestination = false := by
    intro Z
    rw [hx']
    simp [toDestination, startsWith, hadash]
  have hsw2 : ∀ Z, startsWith ((x ++ sfx) ++ Z) toDestination = false := by
    intro Z
    rw [List.append_assoc]
    exact hsw _
  have hpush : pushToken fam N (x ++ sfx) = pushToken fam N x := by
    unfold pushToken
    rw [hfam]
    unfold addrSuffix
    rw [hcidr]
  rcases hS with hS | ⟨S', hS⟩
  · subst hS
    rw [List.append_nil, List.append_nil,
      normFrom_token_last fam N x hx hsp hhead (by simpa using hsw []),
      normFrom_token_last fam N (x ++ sfx) (by simp [hx]) hsp2 hhead2 (by simpa using hsw2 []),
      hpush]
  · subst hS
    rw [normFrom_token_more fam N x S' hsp hhead (hsw _),
      normFrom_token_more fam N (x ++ sfx) S' hsp2 hhead2 (hsw2 _), hpush]

/-- The rule text with a bare literal after a quote-free, space-terminated
prefix normalizes like the text with the literal's prefix length added. -/
theorem normalizeRule_literal (fam : Classifier) (x sfx L S0 : Str)
    (hx : x ≠ []) (hxc : ∀ c ∈ x, isAddrChar c = true)
    (hsfx : sfx = "/32".toList ∨ sfx = "/128".toList)
    (hfam : addrSuffix fam x = x ++ sfx) (hcidr : fam (x ++ sfx) = .IPFamilyUnknown)
    (hL1 : dquote ∉ L) (hL2 : L = [] ∨ L.getLast? = some ' ')
    (hS0 : S0 = [] ∨ ∃ r, S0 = ' ' :: r) :
    normalizeRule fam (L ++ x ++ S0) = normalizeRule fam (L ++ (x ++ sfx) ++ S0) := by
  obtain ⟨a, x', hx'⟩ : ∃ a x', x = a :: x' := by
    cases x with
    | nil => exact absurd rfl hx
    | cons a x' => exact ⟨a, x', rfl⟩
  have ha : isSpace a = false := isAddrChar_not_space (hxc a (by rw [hx']; simp))
  obtain ⟨b, hb⟩ : ∃ b, x.getLast? = some b := by
    cases h : x.getLast? with
    | none => simp [hx] at h
    | some b => exact ⟨b, rfl⟩
  have hbmem : b ∈ x := by
    obtain ⟨ys, hys⟩ := List.getLast?_eq_some_iff.mp hb
    rw [hys]
    simp
  have hbs : isSpace b = false := isAddrChar_not_space (hxc b hbmem)
  obtain ⟨b2, hb2, hb2s⟩ : ∃ b2, (x ++ sfx).getLast? = some b2 ∧ isSpace b2 = false := by
    rcases hsfx with h | h
    · exact ⟨'2', by rw [h, List.getLast?_append]; rfl, by decide⟩
    · exact ⟨'8', by rw [h, List.getLast?_append]; rfl, by decide⟩
  rw [normalizeRule_eq_normFrom, normalizeRule_eq_normFrom,
    trimSpace_mid L x S0 a b (by rw [hx']; rfl) hb ha hbs,
    trimSpace_mid L (x ++ sfx) S0 a b2 (by rw [hx']; rfl) hb2 ha hb2s]
  have hA1 : dquote ∉ L.dropWhile isSpace :=
    fun h => hL1 ((List.dropWhile_suffix isSpace).subset h)
  have hA2 : L.dropWhile isSpace = [] ∨ (L.dropWhile isSpace).getLast? = some ' ' := by
    by_cases he : L.dropWhile isSpace = []
    · exact Or.inl he
    · right
      rcases hL2 with h | h
      · rw [h] at he
        simp at he
      · obtain ⟨t, ht⟩ := List.dropWhile_suffix (l := L) isSpace
        rw [← ht, List.getLast?_append] at h
        cases hl : (L.dropWhile isSpace).getLast? with
        | none => simp [he] at hl
        | some z =>
          rw [hl] at h
          simpa using h
  rw [List.append_assoc, List.append_assoc]
  exact normFrom_through fam _ _
    (fun N' => normFrom_literal fam x sfx _ N' hx hxc hsfx hfam hcidr (trimRight_shape S0 hS0))
    _ _ [] (Nat.le_refl _) hA1 hA2

/-! ### Joining arguments -/

theorem strContains_space_of_not_mem (s : Str) (h : ' ' ∉ s) : strContains s [' '] = false := by
  induction s with
  | nil => rfl
  | cons a s ih =>
    have ha : a ≠ ' ' := fun e => h (by simp [e])
    have hs : ' ' ∉ s := fun e => h (by simp [e])
    simp [strContains, startsWith, ha, ih hs]

theorem ruleArgs_of_no_space (quote : Str → Str) (args : List Str) (h : ∀ p ∈ args, ' ' ∉ p) :
    ruleArgs quote args = args := by
  induction args with
  | nil => rfl
  | cons a args ih =>
    have ha : strContains a [' '] = false := strContains_space_of_not_mem a (h a (by simp))
    have := ih (fun p hp => h p (by simp [hp]))
    unfold ruleArgs at this ⊢
    simp [ha, this]

theorem ruleArgs_append (quote : Str → Str) (a b : List Str) :
    ruleArgs quote (a ++ b) = ruleArgs quote a ++ ruleArgs quote b := by
  simp [ruleArgs]

theorem joinSp_cons (a : Str) (rest : List Str) :
    joinSp (a :: rest) = a ++ (if rest = [] then [] else ' ' :: joinSp rest) := by
  cases rest with
  | nil => simp [joinSp]
  | cons b rest => simp [joinSp]

/-- The joined text around one argument: the arguments before it, each followed
by a space, and the arguments after it, preceded by a space. -/
theorem joinSp_split (pre post : List Str) (b : Str) :
    joinSp (pre ++ b :: post)
      = pre.flatMap (fun p => p ++ [' ']) ++ b ++ (if post = [] then [] else ' ' :: joinSp post) := by
  induction pre with
  | nil => simp [joinSp_cons]
  | cons a pre ih =>
    rw [List.cons_append, joinSp_cons, if_neg (by simp), ih]
    simp

theorem flatMap_space_shape (pre : List Str) (h : ∀ p ∈ pre, dquote ∉ p) :
    dquote ∉ pre.flatMap (fun p => p ++ [' ']) ∧
    (pre.flatMap (fun p => p ++ [' ']) = [] ∨
      (pre.flatMap (fun p => p ++ [' '])).getLast? = some ' ') := by
  constructor
  · intro hm
    rw [List.mem_flatMap] at hm
    obtain ⟨p, hp, hq⟩ := hm
    rcases List.mem_append.mp hq with hq | hq
    · exact h p hp hq
    · revert hq
      decide
  · induction pre with
    | nil => exact Or.inl rfl
    | cons a pre ih =>
      right
      rcases ih (fun p hp => h p (by simp [hp])) with ih | ih
      · simp [List.flatMap_cons, ih, List.getLast?_append]
      · simp [List.flatMap_cons, ih, List.getLast?_append, List.getLast?_cons]

/-- A successful `ensureRule` leaves the canonical rule in the chain. -/
theorem ensureRule_ok (fam : Classifier) (f : fakeIPTables) (position : RulePosition)
    (t c rule : Str) (existed : Bool) (h : (ensureRule fam f position t c rule).2 = .ok existed) :
    ∃ r rules, normalizeRule fam rule = .ok r ∧
      rulesAt (ensureRule fam f position t c rule).1 t c = some rules ∧ r ∈ rules := by
  rw [ensureRule_eq] at h ⊢
  cases hn : normalizeRule fam rule with
  | err e => simp [hn] at h
  | crash => simp [hn] at h
  | outOfFuel => simp [hn] at h
  | ok r =>
    rw [hn] at h
    refine ⟨r, ?_⟩
    by_cases hr : r ∈ (ensureChain f t c).2.2.rules
    · refine ⟨(ensureChain f t c).2.2.rules, rfl, ?_, hr⟩
      simp only [hr, if_true, rulesAt, ensureChain_chainAt_same, Option.map_some']
    · simp only [hr, if_false] at h ⊢
      cases position with
      | Prepend =>
        exact ⟨_, trivial, rulesAt_setRules_same _ _ _ _ _ (ensureChain_table_isSome f t c),
          by simp⟩
      | Append =>
        exact ⟨_, trivial, rulesAt_setRules_same _ _ _ _ _ (ensureChain_table_isSome f t c),
          by simp⟩
      | unrecognized p => simp at h

/-- C2, as stated, fails: when the literal stands inside a quoted token the two
argument lists give different canonical rules, the second call returns
existed=false and two rules are stored. -/
theorem EnsureRule_quoted_literal_differs :
    sampleClassifier "10.0.0.1".toList = .IPv4 ∧
    sampleClassifier "10.0.0.1/32".toList = .IPFamilyUnknown ∧
    (EnsureRule sampleClassifier sampleQuote
      (EnsureRule sampleClassifier sampleQuote newFakeIPTables .Append "filter".toList
        "FORWARD".toList [dquote :: "a".toList, "10.0.0.1".toList, ['b', dquote]]).1
      .Append "filter".toList "FORWARD".toList
      [dquote :: "a".toList, "10.0.0.1/32".toList, ['b', dquote]]).2 = .ok false ∧
    rulesAt (EnsureRule sampleClassifier sampleQuote
      (EnsureRule sampleClassifier sampleQuote newFakeIPTables .Append "filter".toList
        "FORWARD".toList [dquote :: "a".toList, "10.0.0.1".toList, ['b', dquote]]).1
      .Append "filter".toList "FORWARD".toList
      [dquote :: "a".toList, "10.0.0.1/32".toList, ['b', dquote]]).1
      "filter".toList "FORWARD".toList
      = some [dquote :: "a 10.0.0.1 b".toList ++ [dquote],
              dquote :: "a 10.0.0.1/32 b".toList ++ [dquote]] := by
  decide

/-- C2, amended: canonical equivalence of address literals scanned as tokens.
Let two argument lists differ only in one argument, a bare IPv4 literal `x`
(non-empty, of address characters) in the first and `x/32` in the second
(respectively IPv6 and `x/128`), where the classifier reports `x/32` (`x/128`)
as not an address and no argument before the literal contains a space or a
double quote.  If `EnsureRule` with the first list succeeds, then `EnsureRule`
with the second list returns existed=true and leaves the store unchanged, and
both lists have the same canonical rule. -/
theorem EnsureRule_canonical_address (fam : Classifier) (quote : Str → Str) (f : fakeIPTables)
    (pos1 pos2 : RulePosition) (t c x sfx : Str) (pre post : List Str) (existed : Bool)
    (hx : x ≠ []) (hxc : ∀ ch ∈ x, isAddrChar ch = true)
    (hfam : (fam x = .IPv4 ∧ sfx = "/32".toList) ∨ (fam x = .IPv6 ∧ sfx = "/128".toList))
    (hcidr : fam (x ++ sfx) = .IPFamilyUnknown)
    (hpre : ∀ p ∈ pre, ' ' ∉ p ∧ dquote ∉ p)
    (hfirst : (EnsureRule fam quote f pos1 t c (pre ++ x :: post)).2 = .ok existed) :
    EnsureRule fam quote (EnsureRule fam quote f pos1 t c (pre ++ x :: post)).1 pos2 t c
        (pre ++ (x ++ sfx) :: post)
      = ((EnsureRule fam quote f pos1 t c (pre ++ x :: post)).1, .ok true) ∧
    normalizeRule fam (joinSp (ruleArgs quote (pre ++ (x ++ sfx) :: post)))
      = normalizeRule fam (joinSp (ruleArgs quote (pre ++ x :: post))) := by
  have hsp : ' ' ∉ x := fun h => isAddrChar_ne (hxc _ h) (by decide) rfl
  have hsfx : sfx = "/32".toList ∨ sfx = "/128".toList := by
    rcases hfam with h | h
    · exact Or.inl h.2
    · exact Or.inr h.2
  have hsp2 : ' ' ∉ x ++ sfx := by
    intro h
    rcases List.mem_append.mp h with h | h
    · exact hsp h
    · rcases hsfx with e | e <;> rw [e] at h <;> revert h <;> decide
  have hadd : addrSuffix fam x = x ++ sfx := by
    unfold addrSuffix
    rcases hfam with ⟨h1, h2⟩ | ⟨h1, h2⟩
    · rw [h1, h2]
    · rw [h1, h2]
  have hargs : ∀ y, ' ' ∉ y → joinSp (ruleArgs quote (pre ++ y :: post))
      = pre.flatMap (fun p => p ++ [' ']) ++ y ++
        (if ruleArgs quote post = [] then [] else ' ' :: joinSp (ruleArgs quote post)) := by
    intro y hy
    have h1 : ruleArgs quote (pre ++ y :: post) = pre ++ y :: ruleArgs quote post := by
      have : pre ++ y :: post = pre ++ ([y] ++ post) := rfl
      rw [this, ruleArgs_append, ruleArgs_append,
        ruleArgs_of_no_space quote pre (fun p hp => (hpre p hp).1),
        ruleArgs_of_no_space quote [y] (by simpa using hy)]
      rfl
    rw [h1, joinSp_split]
  obtain ⟨hL1, hL2⟩ := flatMap_space_shape pre (fun p hp => (hpre p hp).2)
  have hS0 : (if ruleArgs quote post = [] then [] else ' ' :: joinSp (ruleArgs quote post)) = [] ∨
      ∃ r, (if ruleArgs quote post = [] then ([] : Str)
        else ' ' :: joinSp (ruleArgs quote post)) = ' ' :: r := by
    split_ifs
    · exact Or.inl rfl
    · exact Or.inr ⟨_, rfl⟩
  have hnorm : normalizeRule fam (joinSp (ruleArgs quote (pre ++ (x ++ sfx) :: post)))
      = normalizeRule fam (joinSp (ruleArgs quote (pre ++ x :: post))) := by
    rw [hargs x hsp, hargs (x ++ sfx) hsp2]
    exact (normalizeRule_literal fam x sfx _ _ hx hxc hsfx hadd hcidr hL1 hL2 hS0).symm
  refine ⟨?_, hnorm⟩
  unfold EnsureRule at hfirst ⊢
  obtain ⟨r, rules, hn, hrules, hr⟩ := ensureRule_ok fam f pos1 t c _ existed hfirst
  exact ensureRule_present fam _ pos2 t c _ r rules (by rw [hnorm]; exact hn) hrules hr

/-- C2 amended, at the spec's example: `-s 10.0.0.1 -j ACCEPT` and then
`-s 10.0.0.1/32 -j ACCEPT` on a fresh engine. -/
theorem EnsureRule_canonical_address_witness :
    EnsureRule sampleClassifier sampleQuote
        (EnsureRule sampleClassifier sampleQuote newFakeIPTables .Append "filter".toList
          "FORWARD".toList (["-s".toList] ++ "10.0.0.1".toList :: ["-j".toList, "ACCEPT".toList])).1
        .Append "filter".toList "FORWARD".toList
        (["-s".toList] ++ ("10.0.0.1".toList ++ "/32".toList) :: ["-j".toList, "ACCEPT".toList])
      = ((EnsureRule sampleClassifier sampleQuote newFakeIPTables .Append "filter".toList
          "FORWARD".toList (["-s".toList] ++ "10.0.0.1".toList :: ["-j".toList, "ACCEPT".toList])).1,
          .ok true) :=
  (EnsureRule_canonical_address sampleClassifier sampleQuote newFakeIPTables .Append .Append
    "filter".toList "FORWARD".toList "10.0.0.1".toList "/32".toList ["-s".toList]
    ["-j".toList, "ACCEPT".toList] false (by decide) (by decide) (Or.inl ⟨by decide, rfl⟩)
    (by decide) (by decide) (by decide)).1

/-! ### The normalizer: quoted tokens and trimmed tokens -/

theorem normFrom_nil (fam : Classifier) (N : Str) : normFrom fam N [] = .crash := rfl

theorem startsWith_toDestination_of_head (a : Char) (s : Str) (h : a ≠ '-') :
    startsWith (a :: s) toDestination = false := by
  simp [toDestination, startsWith, h]

/-- A quoted token: it runs to the next double quote; the character after the
closing quote, if any, is skipped. -/
theorem normFrom_quoted (fam : Classifier) (N body rest2 : Str) (hb : dquote ∉ body) :
    normFrom fam N (dquote :: (body ++ dquote :: rest2))
      = if rest2 = [] then .ok (pushToken fam N (dquote :: (body ++ [dquote])))
        else normFrom fam (pushToken fam N (dquote :: (body ++ [dquote]))) (rest2.drop 1) := by
  rw [normFrom_unfold,
    rewriteDest_of_not _ (startsWith_toDestination_of_head dquote _ (by decide))]
  have hidx : indexChar (body ++ dquote :: rest2) dquote = some body.length :=
    indexChar_of_not_mem body rest2 dquote hb
  simp only [tokenEnd, if_true, hidx]
  have htake : (dquote :: (body ++ dquote :: rest2)).take (body.length + 2)
      = dquote :: (body ++ [dquote]) := by
    simp [List.take_append_eq_append_take]
  have hdrop : (dquote :: (body ++ dquote :: rest2)).drop (body.length + 2 + 1)
      = rest2.drop 1 := by
    simp [List.drop_append_eq_append_drop]
  rw [htake, hdrop]
  by_cases hr : rest2 = []
  · subst hr
    simp
  · rw [if_neg hr, if_neg]
    simp only [List.length_cons, List.length_append]
    have : 0 < rest2.length := List.length_pos.mpr hr
    omega

/-- A token that starts with a double quote and has no closing quote is the
mismatched-quotes error. -/
theorem normFrom_unterminated (fam : Classifier) (N rest : Str) (h : dquote ∉ rest) :
    normFrom fam N (dquote :: rest) = .err .mismatchedQuotes := by
  rw [normFrom_unfold,
    rewriteDest_of_not _ (startsWith_toDestination_of_head dquote _ (by decide))]
  simp only [tokenEnd, if_true, (indexChar_none_iff rest dquote).mpr h]

theorem dropWhile_of_head (p : Char → Bool) (s : Str) (h : ∀ a, s.head? = some a → p a = false) :
    s.dropWhile p = s := by
  cases s with
  | nil => rfl
  | cons a s => simp [List.dropWhile, h a rfl]

theorem trimSpace_of_ends (s : Str) (hh : ∀ a, s.head? = some a → isSpace a = false)
    (hl : ∀ b, s.getLast? = some b → isSpace b = false) : trimSpace s = s := by
  unfold trimSpace
  rw [dropWhile_of_head isSpace s hh, dropWhile_of_head isSpace s.reverse (by simpa using hl)]
  simp

theorem fam_unknown_of_mem {fam : Classifier} (hfam : AddrOnly fam) (x : Str) (c : Char)
    (hc : c ∈ x) (hnc : isAddrChar c = false) : fam x = .IPFamilyUnknown := by
  by_contra h
  have := (hfam x h).2 c hc
  rw [hnc] at this
  cases this

theorem fam_nil {fam : Classifier} (hfam : AddrOnly fam) : fam [] = .IPFamilyUnknown := by
  by_contra h
  exact (hfam [] h).1 rfl

theorem addrSuffix_of_unknown {fam : Classifier} {x : Str} (h : fam x = .IPFamilyUnknown) :
    addrSuffix fam x = x := by
  simp [addrSuffix, h]

/-- What `addrSuffix` can give: the token itself, or the token with `/32` or
`/128` when the classifier accepts it. -/
theorem addrSuffix_cases (fam : Classifier) (x : Str) :
    (fam x = .IPFamilyUnknown ∧ addrSuffix fam x = x) ∨
    (fam x ≠ .IPFamilyUnknown ∧
      (addrSuffix fam x = x ++ "/32".toList ∨ addrSuffix fam x = x ++ "/128".toList)) := by
  unfold addrSuffix
  cases h : fam x with
  | IPv4 => exact Or.inr ⟨by simp, Or.inl rfl⟩
  | IPv6 => exact Or.inr ⟨by simp, Or.inr rfl⟩
  | IPFamilyUnknown => exact Or.inl ⟨rfl, rfl⟩

theorem glue_glue (N a b : Str) (h : N ≠ [] ∨ a ≠ []) :
    glue (glue N a) b = glue N (a ++ ' ' :: b) := by
  unfold glue
  by_cases hN : N = []
  · subst hN
    have ha : a ≠ [] := by
      rcases h with h | h
      · exact absurd rfl h
      · exact h
    simp [ha]
  · simp [hN]

theorem glue_ne_nil (N a : Str) (h : N ≠ [] ∨ a ≠ []) : glue N a ≠ [] := by
  unfold glue
  by_cases hN : N = []
  · subst hN
    rcases h with h | h
    · exact absurd rfl h
    · simpa using h
  · simp [hN]

theorem pushToken_eq_glue (fam : Classifier) (N tok : Str) :
    pushToken fam N tok = glue N (trimSpace (addrSuffix fam tok)) := by
  unfold pushToken glue
  by_cases hN : N = []
  · simp [hN]
  · simp [hN]

/-! ### The normalizer: building fixed texts -/

theorem Fixed_cons (fam : Classifier) (y Rc : Str) (hy1 : ' ' ∉ y)
    (hy2 : y.head? ≠ some dquote) (hy3 : startsWith (y ++ ' ' :: Rc) toDestination = false)
    (hy4 : trimSpace (addrSuffix fam y) = y) (hRc : Fixed fam Rc) :
    Fixed fam (y ++ ' ' :: Rc) := by
  intro N0 hN0
  have hne : N0 ≠ [] ∨ y ≠ [] := by
    rcases hN0 with h | h
    · exact Or.inl h
    · right
      intro hy
      apply h
      rw [hy]
      rfl
  rw [normFrom_token_more fam N0 y Rc hy1 hy2 hy3, pushToken_eq_glue, hy4,
    hRc (glue N0 y) (Or.inl (glue_ne_nil N0 y hne)), glue_glue N0 y Rc hne]

theorem Fixed_last (fam : Classifier) (y : Str) (hy0 : y ≠ []) (hy1 : ' ' ∉ y)
    (hy2 : y.head? ≠ some dquote) (hy3 : startsWith y toDestination = false)
    (hy4 : trimSpace (addrSuffix fam y) = y) : Fixed fam y := by
  intro N0 _
  rw [normFrom_token_last fam N0 y hy0 hy1 hy2 hy3, pushToken_eq_glue, hy4]

theorem Fixed_quoted_cons (fam : Classifier) (body Rc : Str) (hb : dquote ∉ body)
    (hq : trimSpace (addrSuffix fam (dquote :: (body ++ [dquote]))) = dquote :: (body ++ [dquote]))
    (hRc : Fixed fam Rc) : Fixed fam (dquote :: (body ++ [dquote]) ++ ' ' :: Rc) := by
  intro N0 _
  have hform : dquote :: (body ++ [dquote]) ++ ' ' :: Rc
      = dquote :: (body ++ dquote :: (' ' :: Rc)) := by simp
  rw [hform, normFrom_quoted fam N0 body (' ' :: Rc) hb, if_neg (by simp), pushToken_eq_glue, hq]
  simp only [List.drop_succ_cons, List.drop_zero]
  rw [hRc _ (Or.inl (glue_ne_nil N0 _ (Or.inr (by simp)))), glue_glue N0 _ Rc (Or.inr (by simp)),
    ← hform]

theorem Fixed_quoted_last (fam : Classifier) (body : Str) (hb : dquote ∉ body)
    (hq : trimSpace (addrSuffix fam (dquote :: (body ++ [dquote]))) = dquote :: (body ++ [dquote])) :
    Fixed fam (dquote :: (body ++ [dquote])) := by
  intro N0 _
  have hform : dquote :: (body ++ [dquote]) = dquote :: (body ++ dquote :: []) := rfl
  rw [hform, normFrom_quoted fam N0 body [] hb, if_pos rfl, pushToken_eq_glue, ← hform, hq]

/-- A quoted token is left as it is by the classifier and by trimming. -/
theorem quoted_token_plain {fam : Classifier} (hfam : AddrOnly fam) (body : Str) :
    trimSpace (addrSuffix fam (dquote :: (body ++ [dquote]))) = dquote :: (body ++ [dquote]) := by
  have hu : fam (dquote :: (body ++ [dquote])) = .IPFamilyUnknown :=
    fam_unknown_of_mem hfam _ dquote (by simp) (by decide)
  rw [addrSuffix_of_unknown hu]
  apply trimSpace_of_ends
  · intro a ha
    simp only [List.head?_cons, Option.some.injEq] at ha
    rw [← ha]
    decide
  · intro b hb
    have : (dquote :: (body ++ [dquote])).getLast? = some dquote := by
      rw [← List.cons_append, List.getLast?_concat]
    rw [this] at hb
    simp only [Option.some.injEq] at hb
    rw [← hb]
    decide

/-- An unquoted token without white space: what is pushed for it is stable
under the classifier and under trimming. -/
theorem plain_token {fam : Classifier} (hfam : AddrOnly fam) (y : Str)
    (hws : ∀ c ∈ y, isSpace c = false) :
    trimSpace (addrSuffix fam y) = addrSuffix fam y ∧
    fam (addrSuffix fam y) = .IPFamilyUnknown ∧
    (∀ c ∈ addrSuffix fam y, isSpace c = false) ∧
    (y ≠ [] → addrSuffix fam y ≠ []) ∧
    (addrSuffix fam y).head? = y.head? ∧
    (addrSuffix fam y = y ∨ ∀ Z, startsWith (addrSuffix fam y ++ Z) toDestination = false) := by
  have hall : ∀ s : Str, (∀ c ∈ s, isSpace c = false) → trimSpace s = s := by
    intro s hs
    apply trimSpace_of_ends
    · intro a ha
      exact hs a (List.mem_of_mem_head? ha)
    · intro b hb
      obtain ⟨ys, hys⟩ := List.getLast?_eq_some_iff.mp hb
      exact hs b (by rw [hys]; simp)
  rcases addrSuffix_cases fam y with ⟨hu, he⟩ | ⟨hn, he⟩
  · rw [he]
    exact ⟨hall y hws, hu, hws, fun h => h, rfl, Or.inl rfl⟩
  · obtain ⟨hy0, hyc⟩ := hfam y hn
    obtain ⟨sfx, hsfx, he'⟩ : ∃ sfx, (sfx = "/32".toList ∨ sfx = "/128".toList) ∧
        addrSuffix fam y = y ++ sfx := by
      rcases he with he | he
      · exact ⟨_, Or.inl rfl, he⟩
      · exact ⟨_, Or.inr rfl, he⟩
    have hsfxws : ∀ c ∈ sfx, isSpace c = false := by
      rcases hsfx with h | h <;> rw [h] <;> decide
    have hslash : '/' ∈ sfx := by
      rcases hsfx with h | h <;> rw [h] <;> decide
    have hws' : ∀ c ∈ y ++ sfx, isSpace c = false := by
      intro c hc
      rcases List.mem_append.mp hc with hc | hc
      · exact hws c hc
      · exact hsfxws c hc
    obtain ⟨a, y2, hy2⟩ : ∃ a y2, y = a :: y2 := by
      cases y with
      | nil => exact absurd rfl hy0
      | cons a y2 => exact ⟨a, y2, rfl⟩
    have hadash : a ≠ '-' := isAddrChar_ne (hyc a (by rw [hy2]; simp)) (by decide)
    rw [he']
    refine ⟨hall _ hws', ?_, hws', fun _ => by simp [hy0], ?_, Or.inr ?_⟩
    · exact fam_unknown_of_mem hfam _ '/' (by simp [hslash]) (by decide)
    · rw [hy2]
      rfl
    · intro Z
      rw [hy2]
      exact startsWith_toDestination_of_head a _ hadash

/-! ### The normalizer: its results are fixed points -/

theorem getLast?_append_cons (y Rc : Str) (d : Char) (h : Rc ≠ []) :
    (y ++ d :: Rc).getLast? = Rc.getLast? := by
  cases Rc with
  | nil => exact absurd rfl h
  | cons a Rc =>
    rw [List.getLast?_append, List.getLast?_cons_cons]
    cases hl : (a :: Rc).getLast? with
    | none => simp at hl
    | some z => rfl

theorem head?_cons_append_ne (a : Char) (s t : Str) (h : a ≠ ' ') :
    ((a :: s) ++ t).head? ≠ some ' ' := by
  simpa using h

theorem head?_take_cons (c : Char) (rest : Str) (i : Nat) (a : Char)
    (h : ((c :: rest).take i).head? = some a) : a = c := by
  cases i with
  | zero => simp at h
  | succ i =>
    simp only [List.take_succ_cons, List.head?_cons, Option.some.injEq] at h
    exact h.symm

theorem not_space_of_plain {s : Str} (hps : PlainSpaces s) {y : Str} (hsub : ∀ c ∈ y, c ∈ s)
    (hsp : ' ' ∉ y) : ∀ c ∈ y, isSpace c = false := by
  intro c hc
  by_contra hs
  have hs' : isSpace c = true := by simpa using hs
  have := hps c (hsub c hc) hs'
  subst this
  exact hsp hc

theorem plainSpaces_of_no_space {s : Str} (h : ∀ c ∈ s, isSpace c = false) : PlainSpaces s := by
  intro c hc hs
  rw [h c hc] at hs
  cases hs

theorem plainSpaces_append_cons {y Rc : Str} (hy : PlainSpaces y) (hRc : PlainSpaces Rc) :
    PlainSpaces (y ++ ' ' :: Rc) := by
  intro c hc hs
  rcases List.mem_append.mp hc with hc | hc
  · exact hy c hc hs
  · rcases List.mem_cons.mp hc with hc | hc
    · exact hc
    · exact hRc c hc hs

/-- With a classifier that accepts address characters only, and a text whose
white space is plain spaces, a successful run of the loop returns `normalized`
followed by a text that the loop reproduces as it is. -/
theorem normFrom_fixed {fam : Classifier} (hfam : AddrOnly fam) :
    ∀ (n : Nat) (R N r : Str), R.length ≤ n → PlainSpaces R →
      (N ≠ [] ∨ R.head? ≠ some ' ') → normFrom fam N R = .ok r →
      ∃ Rc, r = glue N Rc ∧ Fixed fam Rc ∧ PlainSpaces Rc ∧ Rc ≠ [] ∧
        Rc.getLast? ≠ some ' ' ∧ (R.head? ≠ some ' ' → Rc.head? ≠ some ' ') := by
  intro n
  induction n with
  | zero =>
    intro R N r hn _ _ h
    have hR : R = [] := List.length_eq_zero.mp (Nat.le_zero.mp hn)
    subst hR
    rw [normFrom_nil] at h
    cases h
  | succ n ih =>
    intro R N r hn hps hN h
    by_cases hd : startsWith R toDestination = true
    · have hsplit := startsWith_eq_true R toDestination hd
      have htd : pushToken fam N "--to-destination".toList = glue N "--to-destination".toList := by
        rw [pushToken_eq_glue,
          addrSuffix_of_unknown (fam_unknown_of_mem hfam _ '-' (by decide) (by decide))]
        congr 1
      have htd4 : trimSpace (addrSuffix fam "--to-destination".toList)
          = "--to-destination".toList := by
        rw [addrSuffix_of_unknown (fam_unknown_of_mem hfam _ '-' (by decide) (by decide))]
        decide
      rw [hsplit, normFrom_toDestination, htd] at h
      have hZlen : (R.drop toDestination.length).length ≤ n := by
        have h17 : toDestination.length = 17 := rfl
        have : R.length = toDestination.length + (R.drop toDestination.length).length := by
          conv_lhs => rw [hsplit]
          rw [List.length_append]
        omega
      have hZps : PlainSpaces (R.drop toDestination.length) :=
        fun c hc => hps c (List.mem_of_mem_drop hc)
      obtain ⟨Rc, h1, h2, h3, h4, h5, _⟩ := ih _ _ r hZlen hZps
        (Or.inl (glue_ne_nil N _ (Or.inr (by decide)))) h
      refine ⟨"--to-destination".toList ++ ' ' :: Rc, ?_, ?_, ?_, by simp, ?_, ?_⟩
      · rw [h1, glue_glue N _ Rc (Or.inr (by decide))]
      · exact Fixed_cons fam _ Rc (by decide) (by decide)
          (by simp [toDestination, startsWith]) htd4 h2
      · exact plainSpaces_append_cons (plainSpaces_of_no_space (by decide)) h3
      · rw [getLast?_append_cons _ _ _ h4]
        exact h5
      · intro _
        exact head?_cons_append_ne '-' "-to-destination".toList _ (by decide)
    · have hd' : startsWith R toDestination = false := by simpa using hd
      cases R with
      | nil =>
        rw [normFrom_nil] at h
        cases h
      | cons c rest =>
        by_cases hq : c = dquote
        · subst hq
          cases hi : indexChar rest dquote with
          | none =>
            rw [normFrom_unterminated fam N rest ((indexChar_none_iff _ _).mp hi)] at h
            cases h
          | some i =>
            obtain ⟨hlt, hsplit, hnot⟩ := indexChar_some rest dquote i hi
            have hR : dquote :: rest = dquote :: (rest.take i ++ dquote :: rest.drop (i + 1)) := by
              rw [hsplit]
            have htok := quoted_token_plain hfam (rest.take i)
            have hpsbody : PlainSpaces (dquote :: (rest.take i ++ [dquote])) := by
              intro x hx hs
              have hdq : isSpace dquote = false := by decide
              rcases List.mem_cons.mp hx with hx | hx
              · rw [hx, hdq] at hs
                cases hs
              · rcases List.mem_append.mp hx with hx | hx
                · exact hps x (List.mem_cons_of_mem _ (List.mem_of_mem_take hx)) hs
                · rw [List.mem_singleton.mp hx, hdq] at hs
                  cases hs
            have hlastq : (dquote :: (rest.take i ++ [dquote])).getLast? = some dquote := by
              rw [← List.cons_append, List.getLast?_concat]
            rw [hR, normFrom_quoted fam N _ _ hnot, pushToken_eq_glue, htok] at h
            by_cases hr2 : rest.drop (i + 1) = []
            · rw [if_pos hr2] at h
              simp only [Res.ok.injEq] at h
              refine ⟨dquote :: (rest.take i ++ [dquote]), h.symm,
                Fixed_quoted_last fam _ hnot htok, hpsbody, by simp, ?_, ?_⟩
              · rw [hlastq]
                decide
              · intro _
                have hdq : dquote ≠ ' ' := by decide
                simpa using hdq
            · rw [if_neg hr2] at h
              have hlen2 : ((rest.drop (i + 1)).drop 1).length ≤ n := by
                simp only [List.length_drop]
                simp only [List.length_cons] at hn
                omega
              have hps2 : PlainSpaces ((rest.drop (i + 1)).drop 1) := fun x hx =>
                hps x (List.mem_cons_of_mem _ (List.mem_of_mem_drop (List.mem_of_mem_drop hx)))
              obtain ⟨Rc, h1, h2, h3, h4, h5, _⟩ := ih _ _ r hlen2 hps2
                (Or.inl (glue_ne_nil N _ (Or.inr (by simp)))) h
              refine ⟨dquote :: (rest.take i ++ [dquote]) ++ ' ' :: Rc, ?_,
                Fixed_quoted_cons fam _ Rc hnot htok h2,
                plainSpaces_append_cons hpsbody h3, by simp, ?_, ?_⟩
              · rw [h1, glue_glue N _ Rc (Or.inr (by simp))]
              · rw [getLast?_append_cons _ _ _ h4]
                exact h5
              · intro _
                exact head?_cons_append_ne dquote _ _ (by decide)
        · cases hi : indexChar (c :: rest) ' ' with
          | none =>
            have hsp : ' ' ∉ c :: rest := (indexChar_none_iff _ _).mp hi
            have hws := not_space_of_plain hps (fun _ hx => hx) hsp
            obtain ⟨p1, p2, p3, p4, p5, p6⟩ := plain_token hfam (c :: rest) hws
            have hhead : (c :: rest).head? ≠ some dquote := by simpa using hq
            rw [normFrom_token_last fam N (c :: rest) (by simp) hsp hhead hd', pushToken_eq_glue,
              p1] at h
            simp only [Res.ok.injEq] at h
            have hne : addrSuffix fam (c :: rest) ≠ [] := p4 (by simp)
            have hsp' : ' ' ∉ addrSuffix fam (c :: rest) := by
              intro hx
              have := p3 _ hx
              revert this
              decide
            refine ⟨addrSuffix fam (c :: rest), h.symm, ?_, plainSpaces_of_no_space p3, hne, ?_, ?_⟩
            · refine Fixed_last fam _ hne hsp' (by rw [p5]; exact hhead) ?_
                (by rw [addrSuffix_of_unknown p2, p1])
              rcases p6 with p6 | p6
              · rw [p6]
                exact hd'
              · simpa using p6 []
            · intro hl
              obtain ⟨ys, hys⟩ := List.getLast?_eq_some_iff.mp hl
              exact hsp' (by rw [hys]; simp)
            · intro hc
              rw [p5]
              exact hc
          | some i =>
            obtain ⟨hlt, hsplit, hnot⟩ := indexChar_some (c :: rest) ' ' i hi
            have hws := not_space_of_plain hps (fun _ hx => List.mem_of_mem_take hx) hnot
            obtain ⟨p1, p2, p3, p4, p5, p6⟩ := plain_token hfam ((c :: rest).take i) hws
            have hhead : ((c :: rest).take i).head? ≠ some dquote := by
              intro hx
              exact hq (head?_take_cons c rest i dquote hx).symm
            have hsw : startsWith ((c :: rest).take i ++ ' ' :: (c :: rest).drop (i + 1))
                toDestination = false := by
              rw [hsplit]
              exact hd'
            have hsp' : ' ' ∉ addrSuffix fam ((c :: rest).take i) := by
              intro hx
              have := p3 _ hx
              revert this
              decide
            have hNy : N ≠ [] ∨ addrSuffix fam ((c :: rest).take i) ≠ [] := by
              rcases hN with hN | hN
              · exact Or.inl hN
              · right
                apply p4
                cases i with
                | zero =>
                  exfalso
                  apply hN
                  have := hsplit
                  simp only [List.take_zero, List.nil_append, List.cons.injEq] at this
                  rw [← this.1]
                  rfl
                | succ i => simp
            rw [← hsplit, normFrom_token_more fam N _ _ hnot hhead hsw, pushToken_eq_glue, p1] at h
            have hlen2 : ((c :: rest).drop (i + 1)).length ≤ n := by
              simp only [List.length_drop]
              omega
            have hps2 : PlainSpaces ((c :: rest).drop (i + 1)) :=
              fun x hx => hps x (List.mem_of_mem_drop hx)
            obtain ⟨Rc, h1, h2, h3, h4, h5, _⟩ := ih _ _ r hlen2 hps2
              (Or.inl (glue_ne_nil N _ hNy)) h
            refine ⟨addrSuffix fam ((c :: rest).take i) ++ ' ' :: Rc, ?_, ?_,
              plainSpaces_append_cons (plainSpaces_of_no_space p3) h3, by simp, ?_, ?_⟩
            · rw [h1, glue_glue N _ Rc hNy]
            · refine Fixed_cons fam _ Rc hsp' (by rw [p5]; exact hhead) ?_
                (by rw [addrSuffix_of_unknown p2, p1]) h2
              rcases p6 with p6 | p6
              · rw [p6]
                have e1 : ∀ Z, (c :: rest).take i ++ ' ' :: Z = ((c :: rest).take i ++ [' ']) ++ Z := by
                  intro Z
                  simp
                rw [e1, startsWith_append_of_mem _ _ _ ' ' (by simp) (by decide)]
                rw [e1, startsWith_append_of_mem _ _ _ ' ' (by simp) (by decide)] at hsw
                exact hsw
              · exact p6 _
            · rw [getLast?_append_cons _ _ _ h4]
              exact h5
            · intro hc
              have hc' : c ≠ ' ' := by simpa using hc
              cases i with
              | zero =>
                exfalso
                have := hsplit
                simp only [List.take_zero, List.nil_append, List.cons.injEq] at this
                exact hc' this.1.symm
              | succ i =>
                have : (addrSuffix fam ((c :: rest).take (i + 1))).head? = some c := by
                  rw [p5]
                  rfl
                rw [List.head?_append, this]
                simpa using hc'

theorem trimSpace_decompose (s : Str) :
    ∃ pre post, s = pre ++ trimSpace s ++ post ∧ s.dropWhile isSpace = trimSpace s ++ post := by
  obtain ⟨pre, hpre⟩ := List.dropWhile_suffix (l := s) isSpace
  obtain ⟨t, ht⟩ := List.dropWhile_suffix (l := (s.dropWhile isSpace).reverse) isSpace
  have hD : s.dropWhile isSpace = trimSpace s ++ t.reverse := by
    have := congrArg List.reverse ht
    simp only [List.reverse_append, List.reverse_reverse] at this
    exact this.symm
  exact ⟨pre, t.reverse, by rw [List.append_assoc, ← hD, hpre], hD⟩

theorem mem_of_mem_trimSpace {s : Str} {c : Char} (h : c ∈ trimSpace s) : c ∈ s := by
  obtain ⟨pre, post, hs, _⟩ := trimSpace_decompose s
  rw [hs]
  simp [h]

theorem trimSpace_head (s : Str) (a : Char) (h : (trimSpace s).head? = some a) :
    isSpace a = false := by
  obtain ⟨pre, post, _, hD⟩ := trimSpace_decompose s
  have hh : (s.dropWhile isSpace).head? = some a := by
    rw [hD, List.head?_append, h]
    rfl
  have := List.head?_dropWhile_not isSpace s
  rw [hh] at this
  simpa using this

/-- With a classifier that accepts address characters only, the canonical form
of a rule text whose white space is plain spaces is a fixed point of
`normalizeRule`, and its white space is plain spaces again. -/
theorem normalizeRule_canon {fam : Classifier} (hfam : AddrOnly fam) (s r : Str)
    (hs : PlainSpaces s) (h : normalizeRule fam s = .ok r) : Canon fam r ∧ PlainSpaces r := by
  rw [normalizeRule_eq_normFrom] at h
  have hps : PlainSpaces (trimSpace s) := fun c hc => hs c (mem_of_mem_trimSpace hc)
  have hhead : (trimSpace s).head? ≠ some ' ' := by
    intro hx
    have := trimSpace_head s ' ' hx
    revert this
    decide
  obtain ⟨Rc, h1, h2, h3, h4, h5, h6⟩ :=
    normFrom_fixed hfam _ (trimSpace s) [] r (Nat.le_refl _) hps (Or.inr hhead) h
  have hr : r = Rc := by
    rw [h1]
    rfl
  subst hr
  have htrim : trimSpace r = r := by
    apply trimSpace_of_ends
    · intro a ha
      by_contra hsp
      have hsp' : isSpace a = true := by simpa using hsp
      have : a = ' ' := h3 a (List.mem_of_mem_head? ha) hsp'
      subst this
      exact h6 hhead ha
    · intro b hb
      by_contra hsp
      have hsp' : isSpace b = true := by simpa using hsp
      obtain ⟨ys, hys⟩ := List.getLast?_eq_some_iff.mp hb
      have : b = ' ' := h3 b (by rw [hys]; simp) hsp'
      subst this
      exact h5 hb
  refine ⟨⟨?_, ?_⟩, h3⟩
  · rw [normalizeRule_eq_normFrom, htrim, h2 [] (Or.inr (h6 hhead))]
    rfl
  · intro hn
    have := h3 newline hn (by decide)
    revert this
    decide

/-! ### The text `SaveInto` writes -/

theorem saveChain_eq (chain : fakeChain) (data : Str) :
    saveChain chain data
      = data ++ (chain.rules.map (ruleBody chain.name)).flatMap (fun l => l ++ [newline]) := by
  unfold saveChain
  generalize chain.rules = rules
  induction rules generalizing data with
  | nil => simp
  | cons r rules ih =>
    rw [List.foldl_cons, ih]
    simp [ruleBody]

theorem saveFold_eq (chains : List fakeChain) (b r : Str) :
    chains.foldl
        (fun br chain =>
          (br.1 ++ [':'] ++ chain.name ++ " - [0:0]".toList ++ [newline], saveChain chain br.2))
        (b, r)
      = (b ++ (chains.map headerBody).flatMap (fun l => l ++ [newline]),
         r ++ (chains.flatMap (fun chain => chain.rules.map (ruleBody chain.name))).flatMap
           (fun l => l ++ [newline])) := by
  induction chains generalizing b r with
  | nil => simp
  | cons chain chains ih =>
    rw [List.foldl_cons, ih, saveChain_eq]
    simp [headerBody, List.flatMap_append]

/-- The buffer after `SaveInto` on an existing table: the lines of `saveLines`,
each with its newline. -/
theorem SaveInto_eq (rangeOrder : Map fakeChain → List fakeChain) (f : fakeIPTables) (t : Str)
    (table : fakeTable) (buffer : Str) (h : mget t f.tables = some table) :
    SaveInto rangeOrder f t buffer
      = (buffer ++ (saveLines table (rangeOrder table.chains)).flatMap (fun l => l ++ [newline]),
         .ok ()) := by
  unfold SaveInto getTable
  rw [h]
  simp only [saveFold_eq]
  simp [saveLines, List.flatMap_append]

theorem readLines_flatMap (ls : List Str) (h : ∀ l ∈ ls, newline ∉ l) :
    readLines (ls.flatMap (fun l => l ++ [newline])) = ls.map (fun l => l ++ [newline]) := by
  induction ls with
  | nil => rfl
  | cons l ls ih =>
    have h1 : newline ∉ l := h l (by simp)
    have h2 := ih (fun l' hl' => h l' (by simp [hl']))
    rw [List.flatMap_cons, List.append_assoc]
    simp only [List.singleton_append]
    rw [readLines_line l _ h1, h2]
    rfl

/-! ### Restoring the saved lines -/

theorem splitOn_length_pos (s : Str) (sep : Char) : 0 < (splitOn s sep).length := by
  induction s with
  | nil => simp [splitOn]
  | cons a s ih =>
    unfold splitOn
    split_ifs
    · simp
    · cases h : splitOn s sep with
      | nil => simp
      | cons p ps => simp

/-- A saved rule line makes `restore` call `ensureRule` with Append on the
chain and rule it carries. -/
theorem restoreLine_rule (fam : Classifier) (allLines t c r : Str) (flush : FlushFlag)
    (f : fakeIPTables) (ht : t ≠ []) (hc : ' ' ∉ c) :
    restoreLine fam [] allLines flush f t (ruleBody c r ++ [newline])
      = Step.ofCall t (ensureRule fam f .Append t c r) := by
  have hcut := cutSuffixChar_append (ruleBody c r) newline
  have hform : ruleBody c r = '-' :: 'A' :: ' ' :: (c ++ ' ' :: r) := rfl
  rw [hform] at hcut ⊢
  simp only [List.cons_append] at hcut
  simp only [restoreLine, List.cons_append]
  rw [if_neg (by decide), hcut]
  simp only [startsWith_cons_cons, startsWith_nil]
  rw [if_neg (by decide)]
  unfold restoreBlock
  rw [if_pos ht, if_neg (by simp)]
  have h1 : startsWith ('-' :: 'A' :: ' ' :: (c ++ ' ' :: r)) [':'] = false := rfl
  have h2 : startsWith ('-' :: 'A' :: ' ' :: (c ++ ' ' :: r)) "-A".toList = true := rfl
  rw [h1, h2]
  simp only [Bool.false_eq_true, if_false, if_true]
  have hsplit : splitOn ('-' :: 'A' :: ' ' :: (c ++ ' ' :: r)) ' '
      = "-A".toList :: c :: splitOn r ' ' := by
    have e1 : '-' :: 'A' :: ' ' :: (c ++ ' ' :: r) = "-A".toList ++ ' ' :: (c ++ ' ' :: r) := rfl
    rw [e1, splitOn_field _ _ ' ' (by decide), splitOn_field c r ' ' hc]
  have hlen : ¬ (("-A".toList :: c :: splitOn r ' ').length < 3) := by
    have := splitOn_length_pos r ' '
    simp only [List.length_cons]
    omega
  have hcp : cutPrefix ('-' :: 'A' :: ' ' :: (c ++ ' ' :: r)) ("-A".toList ++ [' '] ++ c ++ [' '])
      = r := by
    have e2 : '-' :: 'A' :: ' ' :: (c ++ ' ' :: r) = ("-A".toList ++ [' '] ++ c ++ [' ']) ++ r := by
      simp
    rw [e2, cutPrefix_append]
  unfold restoreRule
  simp only [hsplit, hlen, if_false, hcp]

/-- A saved header line, read without a filter, runs the chain-header step. -/
theorem restoreLine_headerBody (fam : Classifier) (allLines t : Str) (chain : fakeChain)
    (flush : FlushFlag) (f : fakeIPTables) (ht : t ≠ []) (hc : ' ' ∉ chain.name) :
    restoreLine fam [] allLines flush f t (headerBody chain ++ [newline])
      = restoreChain f t chain.name allLines flush :=
  restoreLine_header fam [] allLines t chain.name flush f ht (Or.inl rfl) hc

theorem setRules_self {f : fakeIPTables} {t c : Str} {chain : fakeChain}
    (h : chainAt f t c = some chain) : setRules f t c chain chain.rules = f := by
  cases h1 : mget t f.tables with
  | none => simp [chainAt_none_of_table c h1] at h
  | some table =>
    rw [chainAt_of_table c h1] at h
    unfold setRules putChains
    simp only [h1]
    have e1 : mset c { chain with rules := chain.rules } table.chains = table.chains :=
      mset_of_mget h
    rw [e1]
    have e2 : mset t { table with chains := table.chains } f.tables = f.tables := mset_of_mget h1
    rw [e2]

/-- Without the flush flag, the chain-header step on a chain that is absent or
empty just ensures the chain. -/
theorem restoreChain_noflush_empty (f : fakeIPTables) (t c allLines : Str)
    (h : chainAt f t c = none ∨ chainAt f t c = some { name := c, rules := [] }) :
    restoreChain f t c allLines .NoFlushTables = .next (ensureChain f t c).1 t := by
  have hnew : chainAt (ensureChain f t c).1 t c = some { name := c, rules := [] } := by
    rw [ensureChain_chainAt_same, ensureChain_chain]
    rcases h with h | h <;> rw [h] <;> rfl
  unfold restoreChain
  have hfl : ¬ (FlushFlag.NoFlushTables = FlushFlag.FlushTables) := by decide
  simp only [hfl, if_false]
  split_ifs
  · rw [FlushChain_of_chainAt hnew]
    have := setRules_self hnew
    simp only at this
    rw [this]
    rfl
  · rfl

theorem restorePrefix_append (fam : Classifier) (rt allLines : Str) (flush : FlushFlag)
    (pre rest : List Str) (f f' : fakeIPTables) (tn tn' : Str)
    (h : restorePrefix fam rt allLines flush pre f tn = some (f', tn')) :
    restorePrefix fam rt allLines flush (pre ++ rest) f tn
      = restorePrefix fam rt allLines flush rest f' tn' := by
  induction pre generalizing f tn with
  | nil =>
    simp only [restorePrefix, Option.some.injEq, Prod.mk.injEq] at h
    obtain ⟨h1, h2⟩ := h
    subst h1
    subst h2
    rfl
  | cons line pre ih =>
    simp only [restorePrefix] at h
    simp only [List.cons_append, restorePrefix]
    cases hs : restoreLine fam rt allLines flush f tn line with
    | next f1 tn1 =>
      rw [hs] at h
      exact ih f1 tn1 h
    | done f1 r =>
      rw [hs] at h
      cases h

theorem ensureChain_tables_isSome (f : fakeIPTables) (t c t' : Str)
    (h : (mget t' f.tables).isSome) : (mget t' (ensureChain f t c).1.tables).isSome := by
  by_cases ht : t' = t
  · subst ht
    exact ensureChain_table_isSome f t' c
  · unfold ensureChain
    cases h1 : mget t f.tables with
    | none => simpa [getChain_noTable c h1, putChains, mget_mset_ne _ _ ht] using h
    | some table =>
      cases h2 : mget c table.chains with
      | none => simpa [getChain_noChain h1 h2, putChains, mget_mset_ne _ _ ht] using h
      | some chain => simpa [getChain_found h1 h2] using h

theorem setRules_tables_isSome (f : fakeIPTables) (t c t' : Str) (chain : fakeChain)
    (rules : List Str) (h : (mget t' f.tables).isSome) :
    (mget t' (setRules f t c chain rules).tables).isSome := by
  unfold setRules
  cases h1 : mget t f.tables with
  | none => exact h
  | some table =>
    by_cases ht : t' = t
    · subst ht
      simp [putChains, mget_mset_self]
    · simpa [putChains, mget_mset_ne _ _ ht] using h

/-- The header lines of a save, read into a store whose chains of table `t` are
all empty: every named chain exists and is empty afterwards. -/
theorem restorePrefix_headers (fam : Classifier) (allLines t : Str) (ht : t ≠ [])
    (chains : List fakeChain) (hnames : ∀ chain ∈ chains, ' ' ∉ chain.name) :
    ∀ f : fakeIPTables,
      (∀ c, chainAt f t c = none ∨ chainAt f t c = some { name := c, rules := [] }) →
      ∃ f', restorePrefix fam [] allLines .NoFlushTables
          (chains.map (fun chain => headerBody chain ++ [newline])) f t = some (f', t) ∧
        (∀ c, chainAt f' t c =
          if c ∈ chains.map fakeChain.name then some { name := c, rules := [] }
          else chainAt f t c) ∧
        (∀ t', (mget t' f.tables).isSome → (mget t' f'.tables).isSome) := by
  induction chains with
  | nil =>
    intro f _
    exact ⟨f, rfl, by simp, fun _ h => h⟩
  | cons chain chains ih =>
    intro f hf
    have hstep : restoreLine fam [] allLines .NoFlushTables f t (headerBody chain ++ [newline])
        = .next (ensureChain f t chain.name).1 t := by
      rw [restoreLine_headerBody fam allLines t chain _ f ht (hnames chain (by simp)),
        restoreChain_noflush_empty f t chain.name allLines (hf chain.name)]
    have hf1 : ∀ c, chainAt (ensureChain f t chain.name).1 t c =
        if c = chain.name then some { name := c, rules := [] } else chainAt f t c := by
      intro c
      by_cases hc : c = chain.name
      · subst hc
        rw [if_pos rfl, ensureChain_chainAt_same, ensureChain_chain]
        rcases hf chain.name with h | h <;> rw [h] <;> rfl
      · rw [if_neg hc, ensureChain_chainAt_ne f t chain.name t c (Or.inr hc)]
    have hf1' : ∀ c, chainAt (ensureChain f t chain.name).1 t c = none ∨
        chainAt (ensureChain f t chain.name).1 t c = some { name := c, rules := [] } := by
      intro c
      rw [hf1 c]
      split_ifs
      · exact Or.inr rfl
      · exact hf c
    obtain ⟨f', h1, h2, h3⟩ := ih (fun ch hch => hnames ch (by simp [hch])) _ hf1'
    refine ⟨f', ?_, ?_, ?_⟩
    · simp only [List.map_cons, restorePrefix, hstep]
      exact h1
    · intro c
      rw [h2 c, hf1 c]
      by_cases hc : c = chain.name
      · simp [hc]
      · simp [hc]
    · intro t' ht'
      exact h3 t' (ensureChain_tables_isSome f t chain.name t' ht')

/-- The rule lines of one chain, read into a store where the chain holds the
rules `L0`: the rules are appended in order and no other chain changes. -/
theorem restorePrefix_rules (fam : Classifier) (allLines t c : Str) (flush : FlushFlag)
    (ht : t ≠ []) (hc : ' ' ∉ c) (rules : List Str)
    (hcanon : ∀ r ∈ rules, normalizeRule fam r = .ok r) :
    ∀ (f : fakeIPTables) (L0 : List Str), chainAt f t c = some { name := c, rules := L0 } →
      (L0 ++ rules).Nodup →
      ∃ f', restorePrefix fam [] allLines flush
          (rules.map (fun r => ruleBody c r ++ [newline])) f t = some (f', t) ∧
        chainAt f' t c = some { name := c, rules := L0 ++ rules } ∧
        (∀ t' c', t' ≠ t ∨ c' ≠ c → chainAt f' t' c' = chainAt f t' c') ∧
        (∀ t', (mget t' f.tables).isSome → (mget t' f'.tables).isSome) := by
  induction rules with
  | nil =>
    intro f L0 hch _
    exact ⟨f, rfl, by simpa using hch, fun _ _ _ => rfl, fun _ h => h⟩
  | cons r rules ih =>
    intro f L0 hch hnd
    have hr : r ∉ L0 := by
      intro hx
      have := (List.nodup_append.mp hnd).2.2
      exact this hx (by simp)
    have hens : ensureRule fam f .Append t c r
        = (setRules f t c { name := c, rules := L0 } (L0 ++ [r]), .ok false) := by
      rw [ensureRule_eq, hcanon r (by simp), ensureChain_of_chainAt hch]
      simp [hr]
    have hstep : restoreLine fam [] allLines flush f t (ruleBody c r ++ [newline])
        = .next (setRules f t c { name := c, rules := L0 } (L0 ++ [r])) t := by
      rw [restoreLine_rule fam allLines t c r flush f ht hc, hens]
      rfl
    have hch1 : chainAt (setRules f t c { name := c, rules := L0 } (L0 ++ [r])) t c
        = some { name := c, rules := L0 ++ [r] } :=
      chainAt_setRules_same f t c _ _ (table_isSome_of_chainAt hch)
    have hnd1 : ((L0 ++ [r]) ++ rules).Nodup := by simpa using hnd
    obtain ⟨f', h1, h2, h3, h4⟩ := ih (fun r' hr' => hcanon r' (by simp [hr'])) _ _ hch1 hnd1
    refine ⟨f', ?_, ?_, ?_, ?_⟩
    · simp only [List.map_cons, restorePrefix, hstep]
      exact h1
    · rw [h2]
      simp
    · intro t' c' hne
      rw [h3 t' c' hne, chainAt_setRules_ne f t c t' c' _ _ hne]
    · intro t' ht'
      exact h4 t' (setRules_tables_isSome f t c t' _ _ ht')

/-- The rule lines of all chains of a save, read into a store in which those
chains exist and are empty: each chain ends up as it was saved. -/
theorem restorePrefix_chains (fam : Classifier) (allLines t : Str) (flush : FlushFlag)
    (ht : t ≠ []) (chains : List fakeChain)
    (hnd : (chains.map fakeChain.name).Nodup)
    (hinv : ∀ chain ∈ chains, ' ' ∉ chain.name ∧ chain.rules.Nodup ∧
      ∀ r ∈ chain.rules, normalizeRule fam r = .ok r) :
    ∀ f : fakeIPTables,
      (∀ chain ∈ chains, chainAt f t chain.name = some { name := chain.name, rules := [] }) →
      ∃ f', restorePrefix fam [] allLines flush
          ((chains.flatMap (fun chain => chain.rules.map (ruleBody chain.name))).map
            (fun l => l ++ [newline])) f t = some (f', t) ∧
        (∀ chain ∈ chains, chainAt f' t chain.name = some chain) ∧
        (∀ c, c ∉ chains.map fakeChain.name → chainAt f' t c = chainAt f t c) ∧
        (∀ t', (mget t' f.tables).isSome → (mget t' f'.tables).isSome) := by
  induction chains with
  | nil =>
    intro f _
    exact ⟨f, rfl, by simp, fun _ _ => rfl, fun _ h => h⟩
  | cons chain chains ih =>
    intro f hstart
    obtain ⟨hnotin, hnd'⟩ := List.nodup_cons.mp hnd
    obtain ⟨hc, hrn, hcanon⟩ := hinv chain (by simp)
    obtain ⟨f1, h1, h2, h3, h4⟩ := restorePrefix_rules fam allLines t chain.name flush ht hc
      chain.rules hcanon f [] (hstart chain (by simp)) (by simpa using hrn)
    have hstart1 : ∀ ch ∈ chains, chainAt f1 t ch.name = some { name := ch.name, rules := [] } := by
      intro ch hch
      have hne : ch.name ≠ chain.name := by
        intro e
        apply hnotin
        rw [← e]
        exact List.mem_map_of_mem _ hch
      rw [h3 t ch.name (Or.inr hne)]
      exact hstart ch (by simp [hch])
    obtain ⟨f', g1, g2, g3, g4⟩ := ih hnd' (fun ch hch => hinv ch (by simp [hch])) f1 hstart1
    refine ⟨f', ?_, ?_, ?_, ?_⟩
    · rw [List.flatMap_cons, List.map_append, List.map_map]
      rw [restorePrefix_append fam [] allLines flush _ _ f f1 t t (by
        simpa [Function.comp] using h1)]
      exact g1
    · intro ch hch
      rcases List.mem_cons.mp hch with hch | hch
      · subst hch
        rw [g3 ch.name hnotin, h2, List.nil_append]
      · exact g2 ch hch
    · intro c hcn
      have hc1 : c ≠ chain.name := fun e => hcn (by simp [e])
      have hc2 : c ∉ chains.map fakeChain.name := fun e => hcn (by simp [e])
      rw [g3 c hc2, h3 t c (Or.inr hc1)]
    · intro t' ht'
      exact g4 t' (h4 t' ht')

/-! ### The invariant of built stores -/

theorem mem_mset {β : Type} {k : Str} {v : β} {m : Map β} {e : Str × β} (h : e ∈ mset k v m) :
    e = (k, v) ∨ e ∈ m := by
  induction m with
  | nil =>
    simp only [mset, List.mem_singleton] at h
    exact Or.inl h
  | cons x m ih =>
    obtain ⟨k', v'⟩ := x
    by_cases hk : k' = k
    · simp only [mset, hk, if_true, List.mem_cons] at h
      rcases h with h | h
      · exact Or.inl h
      · exact Or.inr (List.mem_cons_of_mem _ h)
    · simp only [mset, hk, if_false, List.mem_cons] at h
      rcases h with h | h
      · exact Or.inr (by simp [h])
      · rcases ih h with h | h
        · exact Or.inl h
        · exact Or.inr (List.mem_cons_of_mem _ h)

theorem map_fst_mset {β : Type} (k : Str) (v : β) (m : Map β) :
    (mset k v m).map Prod.fst
      = if k ∈ m.map Prod.fst then m.map Prod.fst else m.map Prod.fst ++ [k] := by
  induction m with
  | nil => simp [mset]
  | cons x m ih =>
    obtain ⟨k', v'⟩ := x
    by_cases hk : k' = k
    · subst hk
      simp only [mset, if_true, List.map_cons, List.mem_cons, true_or]
    · have hk' : k ≠ k' := fun e => hk e.symm
      simp only [mset, hk, if_false, List.map_cons, ih, List.mem_cons, hk', false_or]
      split_ifs
      · rfl
      · rfl

theorem nodup_keys_mset {β : Type} (k : Str) (v : β) (m : Map β) (h : (m.map Prod.fst).Nodup) :
    ((mset k v m).map Prod.fst).Nodup := by
  rw [map_fst_mset]
  split_ifs with hk
  · exact h
  · rw [List.nodup_append]
    exact ⟨h, List.nodup_singleton k, by
      intro a ha hb
      rw [List.mem_singleton] at hb
      subst hb
      exact hk ha⟩

theorem mset_ne_nil {β : Type} (k : Str) (v : β) (m : Map β) : mset k v m ≠ [] := by
  cases m with
  | nil => simp [mset]
  | cons x m =>
    obtain ⟨k', v'⟩ := x
    simp only [mset]
    split_ifs <;> simp

theorem mem_of_mget {β : Type} {k : Str} {v : β} {m : Map β} (h : mget k m = some v) :
    (k, v) ∈ m := by
  induction m with
  | nil => simp [mget] at h
  | cons x m ih =>
    obtain ⟨k', v'⟩ := x
    by_cases hk : k' = k
    · subst hk
      simp only [mget, if_true, Option.some.injEq] at h
      subst h
      simp
    · simp only [mget, hk, if_false] at h
      exact List.mem_cons_of_mem _ (ih h)

theorem mget_none_of_not_mem {β : Type} {k : Str} {m : Map β} (h : k ∉ m.map Prod.fst) :
    mget k m = none := by
  induction m with
  | nil => rfl
  | cons x m ih =>
    obtain ⟨k', v'⟩ := x
    have hk : k' ≠ k := fun e => h (by
      rw [List.map_cons, e]
      exact List.mem_cons_self _ _)
    have hm : k ∉ m.map Prod.fst := fun e => h (by
      rw [List.map_cons]
      exact List.mem_cons_of_mem _ e)
    simp only [mget, hk, if_false]
    exact ih hm

theorem mget_of_mem_nodup {β : Type} {k : Str} {v : β} {m : Map β}
    (hnd : (m.map Prod.fst).Nodup) (h : (k, v) ∈ m) : mget k m = some v := by
  induction m with
  | nil => simp at h
  | cons x m ih =>
    obtain ⟨k', v'⟩ := x
    simp only [List.map_cons, List.nodup_cons] at hnd
    rcases List.mem_cons.mp h with h | h
    · simp only [Prod.mk.injEq] at h
      obtain ⟨h1, h2⟩ := h
      subst h1
      subst h2
      simp [mget]
    · have hk : k' ≠ k := by
        intro e
        apply hnd.1
        rw [e]
        exact List.mem_map_of_mem Prod.fst h
      simp only [mget, hk, if_false]
      exact ih hnd.2 h

theorem chainAt_new (t c : Str) : chainAt newFakeIPTables t c = none := by
  unfold chainAt newFakeIPTables
  simp only [mget]
  split_ifs <;> rfl

theorem StoreInv_new (fam : Classifier) : StoreInv fam newFakeIPTables := by
  intro t table h
  have hcases : (t = "filter".toList ∧ table = { name := "filter".toList, chains := [] }) ∨
      (t = "nat".toList ∧ table = { name := "nat".toList, chains := [] }) := by
    unfold newFakeIPTables at h
    simp only [mget] at h
    split_ifs at h with h1 h2
    · left
      exact ⟨h1.symm, by simpa using h.symm⟩
    · right
      exact ⟨h2.symm, by simpa using h.symm⟩
  rcases hcases with ⟨h1, h2⟩ | ⟨h1, h2⟩
  · subst h1
    subst h2
    exact ⟨rfl, by decide, by decide, by simp, by simp, fun _ => by decide⟩
  · subst h1
    subst h2
    exact ⟨rfl, by decide, by decide, by simp, by simp, fun _ => by decide⟩

theorem TableInv_mset {fam : Classifier} {t : Str} {table : fakeTable} (c : Str) (v : fakeChain)
    (h : TableInv fam t table) (hv : ChainInv fam c v) :
    TableInv fam t { table with chains := mset c v table.chains } := by
  obtain ⟨h1, h2, h3, h4, h5, _⟩ := h
  refine ⟨h1, h2, h3, nodup_keys_mset c v _ h4, ?_, fun e => absurd e (mset_ne_nil c v _)⟩
  intro e he
  rcases mem_mset he with he | he
  · rw [he]
    exact hv
  · exact h5 e he

theorem StoreInv_putChains {fam : Classifier} {f : fakeIPTables} (t : Str) (table : fakeTable)
    (chains : Map fakeChain) (h : StoreInv fam f)
    (ht : TableInv fam t { table with chains := chains }) :
    StoreInv fam (putChains f t table chains) := by
  intro t' table' h'
  by_cases hne : t' = t
  · subst hne
    simp only [putChains, mget_mset_self, Option.some.injEq] at h'
    rw [← h']
    exact ht
  · simp only [putChains, mget_mset_ne _ _ hne] at h'
    exact h t' table' h'

theorem StoreInv_ensureChain {fam : Classifier} {f : fakeIPTables} (t c : Str)
    (ht : NameOK t) (hc : NameOK c) (h : StoreInv fam f) :
    StoreInv fam (ensureChain f t c).1 := by
  have hnew : ChainInv fam c { name := c, rules := [] } :=
    ⟨rfl, hc.2.1, hc.2.2, List.nodup_nil, by simp⟩
  unfold ensureChain
  cases h1 : mget t f.tables with
  | none =>
    rw [getChain_noTable c h1]
    apply StoreInv_putChains t _ _ h
    refine ⟨rfl, ht.1, ht.2.2, by simp [mset], ?_, fun e => absurd e (mset_ne_nil _ _ _)⟩
    intro e he
    simp only [mset, List.mem_singleton] at he
    rw [he]
    exact hnew
  | some table =>
    cases h2 : mget c table.chains with
    | none =>
      rw [getChain_noChain h1 h2]
      exact StoreInv_putChains t _ _ h (TableInv_mset c _ (h t table h1) hnew)
    | some chain =>
      rw [getChain_found h1 h2]
      exact h

theorem StoreInv_setRules {fam : Classifier} {f : fakeIPTables} (t c : Str) (chain : fakeChain)
    (rules : List Str) (h : StoreInv fam f) (hv : ChainInv fam c { chain with rules := rules }) :
    StoreInv fam (setRules f t c chain rules) := by
  unfold setRules
  cases h1 : mget t f.tables with
  | none => exact h
  | some table => exact StoreInv_putChains t _ _ h (TableInv_mset c _ (h t table h1) hv)

theorem ChainInv_of_chainAt {fam : Classifier} {f : fakeIPTables} {t c : Str} {chain : fakeChain}
    (h : StoreInv fam f) (hc : chainAt f t c = some chain) : ChainInv fam c chain := by
  cases h1 : mget t f.tables with
  | none => simp [chainAt_none_of_table c h1] at hc
  | some table =>
    rw [chainAt_of_table c h1] at hc
    exact (h t table h1).2.2.2.2.1 (c, chain) (mem_of_mget hc)

theorem StoreInv_ensureRule {fam : Classifier} (hfam : AddrOnly fam) {f : fakeIPTables}
    (position : RulePosition) (t c rule : Str) (ht : NameOK t) (hc : NameOK c)
    (hrule : PlainSpaces rule) (h : StoreInv fam f) :
    StoreInv fam (ensureRule fam f position t c rule).1 := by
  have h1 : StoreInv fam (ensureChain f t c).1 := StoreInv_ensureChain t c ht hc h
  have hci : ChainInv fam c (ensureChain f t c).2.2 :=
    ChainInv_of_chainAt h1 (ensureChain_chainAt_same f t c)
  rw [ensureRule_eq]
  cases hn : normalizeRule fam rule with
  | err e => exact h1
  | crash => exact h1
  | outOfFuel => exact h1
  | ok r =>
    have hcanon : Canon fam r := (normalizeRule_canon hfam rule r hrule hn).1
    by_cases hr : r ∈ (ensureChain f t c).2.2.rules
    · simpa [hr] using h1
    · simp only [hr, if_false]
      obtain ⟨c1, c2, c3, c4, c5⟩ := hci
      cases position with
      | Prepend =>
        refine StoreInv_setRules t c _ _ h1 ⟨c1, c2, c3, ?_, ?_⟩
        · exact List.nodup_cons.mpr ⟨hr, c4⟩
        · intro r' hr'
          rcases List.mem_cons.mp hr' with hr' | hr'
          · rw [hr']
            exact hcanon
          · exact c5 r' hr'
      | Append =>
        refine StoreInv_setRules t c _ _ h1 ⟨c1, c2, c3, ?_, ?_⟩
        · rw [List.nodup_append]
          exact ⟨c4, List.nodup_singleton r, by
            intro a ha hb
            rw [List.mem_singleton] at hb
            subst hb
            exact hr ha⟩
        · intro r' hr'
          rcases List.mem_append.mp hr' with hr' | hr'
          · exact c5 r' hr'
          · rw [List.mem_singleton.mp hr']
            exact hcanon
      | unrecognized p => exact h1

/-- Every built store satisfies the invariant. -/
theorem StoreInv_of_Built {fam : Classifier} (hfam : AddrOnly fam) (quote : Str → Str)
    {f : fakeIPTables} (h : Built fam quote f) : StoreInv fam f := by
  induction h with
  | fresh => exact StoreInv_new fam
  | EnsureChain t c ht hc _ ih => exact StoreInv_ensureChain t c ht hc ih
  | EnsureRule position t c args ht hc hargs _ ih =>
    exact StoreInv_ensureRule hfam position t c _ ht hc hargs ih

/-! ### Save and restore -/

/-- Restoring, without a filter and without the flush flag, the lines saved for
table `t` into a store whose table `t` has no chains with rules: restore
succeeds and table `t` holds the saved chains. -/
theorem restore_saveLines (fam : Classifier) (data t : Str) (table : fakeTable)
    (chains : List fakeChain) (f : fakeIPTables)
    (hname : table.name = t) (ht : t ≠ [])
    (hlines : readLines data = (saveLines table chains).map (fun l => l ++ [newline]))
    (hnd : (chains.map fakeChain.name).Nodup)
    (hinv : ∀ chain ∈ chains, ' ' ∉ chain.name ∧ chain.rules.Nodup ∧
      ∀ r ∈ chain.rules, normalizeRule fam r = .ok r)
    (hf : ∀ c, chainAt f t c = none) :
    (restore fam f [] data .NoFlushTables).2 = .ok () ∧
    (∀ chain ∈ chains, chainAt (restore fam f [] data .NoFlushTables).1 t chain.name = some chain) ∧
    (∀ c, c ∉ chains.map fakeChain.name →
      chainAt (restore fam f [] data .NoFlushTables).1 t c = none) ∧
    (∀ t', (mget t' f.tables).isSome →
      (mget t' (restore fam f [] data .NoFlushTables).1.tables).isSome) := by
  obtain ⟨f1, a1, a2, a3⟩ := restorePrefix_headers fam data t ht chains
    (fun ch hch => (hinv ch hch).1) f (fun c => Or.inl (hf c))
  have hstart : ∀ ch ∈ chains, chainAt f1 t ch.name = some { name := ch.name, rules := [] } := by
    intro ch hch
    rw [a2 ch.name, if_pos (List.mem_map_of_mem _ hch)]
  obtain ⟨f2, b1, b2, b3, b4⟩ := restorePrefix_chains fam data t .NoFlushTables ht chains hnd hinv
    f1 hstart
  have hres : restore fam f [] data .NoFlushTables = (f2, .ok ()) := by
    have hl : (saveLines table chains).map (fun l => l ++ [newline])
        = (('*' :: t) ++ [newline]) ::
          (chains.map (fun chain => headerBody chain ++ [newline]) ++
            ((chains.flatMap (fun chain => chain.rules.map (ruleBody chain.name))).map
                (fun l => l ++ [newline]) ++ ["COMMIT".toList ++ [newline]])) := by
      unfold saveLines
      rw [hname]
      simp [Function.comp]
    unfold restore
    rw [hlines, hl, restoreLines, restoreLine_star fam [] data t [] .NoFlushTables f ht (Or.inl rfl)]
    simp only
    rw [restoreLines_after fam [] data .NoFlushTables _ _ f f1 t t a1,
      restoreLines_after fam [] data .NoFlushTables _ _ f1 f2 t t b1, restoreLines,
      restoreLine_commit fam [] data t .NoFlushTables f2 ht (Or.inl rfl),
      if_neg (fun e => ht e.symm)]
    rfl
  rw [hres]
  refine ⟨rfl, b2, ?_, fun t' ht' => b4 t' (a3 t' ht')⟩
  intro c hc
  rw [b3 c hc, a2 c, if_neg hc]
  exact hf c

/-- C4, as stated, fails: an argument that begins with a tab and a double
quote is stored with the tab trimmed, so the saved rule starts a quoted token
that never ends, and restoring the saved text returns the mismatched-quotes
error. -/
theorem save_restore_tab_argument_fails :
    (RestoreAll sampleClassifier newFakeIPTables
      (SaveInto (fun m => m.map Prod.snd)
        (EnsureRule sampleClassifier sampleQuote newFakeIPTables .Append "filter".toList
          "LOG".toList ["a".toList, [Char.ofNat 9, dquote, 'b']]).1
        "filter".toList []).1 .NoFlushTables).2 = .err .mismatchedQuotes ∧
    rulesAt (EnsureRule sampleClassifier sampleQuote newFakeIPTables .Append "filter".toList
          "LOG".toList ["a".toList, [Char.ofNat 9, dquote, 'b']]).1 "filter".toList "LOG".toList
      = some [['a', ' ', dquote, 'b']] := by
  decide

/-- C4, amended: save/restore round trip.  Take an address classifier that
accepts only non-empty strings of hexadecimal digits, dots and colons, and a
store reached from a fresh engine by `EnsureChain` and `EnsureRule` calls whose
table and chain names are non-empty and free of spaces and newlines and whose
rule text (the arguments as `EnsureRule` joins them, internal-space arguments
quoted) has no white-space character other than the space.  For every table `t`
of it and every order in which `SaveInto` visits the chains, `SaveInto(t)`
succeeds, and `RestoreAll` of its text without the flush flag on a fresh engine
succeeds and yields a table `t` with the same chain names and, for each chain,
the identical rule list. -/
theorem save_restore_roundtrip {fam : Classifier} (hfam : AddrOnly fam) (quote : Str → Str)
    (rangeOrder : Map fakeChain → List fakeChain)
    (hrange : ∀ m, (rangeOrder m).Perm (m.map Prod.snd))
    (f : fakeIPTables) (t : Str) (table : fakeTable)
    (hb : Built fam quote f) (ht : mget t f.tables = some table) :
    (SaveInto rangeOrder f t []).2 = .ok () ∧
    (RestoreAll fam newFakeIPTables (SaveInto rangeOrder f t []).1 .NoFlushTables).2 = .ok () ∧
    ∃ table',
      mget t (RestoreAll fam newFakeIPTables (SaveInto rangeOrder f t []).1 .NoFlushTables).1.tables
        = some table' ∧
      ∀ c, mget c table'.chains = mget c table.chains := by
  obtain ⟨hname, htne, htnl, hkeys, hchains, hempty⟩ := StoreInv_of_Built hfam quote hb t table ht
  have hperm := hrange table.chains
  have hmem : ∀ ch ∈ rangeOrder table.chains, (ch.name, ch) ∈ table.chains := by
    intro ch hch
    obtain ⟨e, he, hee⟩ := List.mem_map.mp (hperm.mem_iff.mp hch)
    have := (hchains e he).1
    rw [hee] at this
    rw [this, ← hee]
    exact he
  have hci : ∀ ch ∈ rangeOrder table.chains, ChainInv fam ch.name ch :=
    fun ch hch => hchains _ (hmem ch hch)
  have hmapname : table.chains.map (fun e => e.2.name) = table.chains.map Prod.fst :=
    List.map_congr_left (fun e he => (hchains e he).1)
  have hnames : ((rangeOrder table.chains).map fakeChain.name).Perm (table.chains.map Prod.fst) := by
    have := hperm.map fakeChain.name
    rw [List.map_map] at this
    have e : (fakeChain.name ∘ Prod.snd : Str × fakeChain → Str) = fun e => e.2.name := rfl
    rw [e, hmapname] at this
    exact this
  have hnd : ((rangeOrder table.chains).map fakeChain.name).Nodup := hnames.nodup_iff.mpr hkeys
  have hsave := SaveInto_eq rangeOrder f t table [] ht
  have hnl : ∀ l ∈ saveLines table (rangeOrder table.chains), newline ∉ l := by
    intro l hl
    unfold saveLines at hl
    simp only [List.mem_append, List.mem_singleton, List.mem_map, List.mem_flatMap] at hl
    rcases hl with ((hl | ⟨ch, hch, hl⟩) | ⟨ch, hch, r, hr, hl⟩) | hl
    · rw [hl, hname]
      intro hx
      rcases List.mem_cons.mp hx with hx | hx
      · exact absurd hx (by decide)
      · exact htnl hx
    · rw [← hl]
      unfold headerBody
      intro hx
      rcases List.mem_append.mp hx with hx | hx
      · rcases List.mem_cons.mp hx with hx | hx
        · exact absurd hx (by decide)
        · exact (hci ch hch).2.2.1 hx
      · revert hx
        decide
    · rw [← hl]
      unfold ruleBody
      intro hx
      rcases List.mem_append.mp hx with hx | hx
      · revert hx
        decide
      · rcases List.mem_cons.mp hx with hx | hx
        · exact absurd hx (by decide)
        · rcases List.mem_append.mp hx with hx | hx
          · exact (hci ch hch).2.2.1 hx
          · rcases List.mem_cons.mp hx with hx | hx
            · exact absurd hx (by decide)
            · exact ((hci ch hch).2.2.2.2 r hr).2 hx
    · rw [hl]
      decide
  have hlines : readLines (SaveInto rangeOrder f t []).1
      = (saveLines table (rangeOrder table.chains)).map (fun l => l ++ [newline]) := by
    rw [hsave]
    simp only [List.nil_append]
    exact readLines_flatMap _ hnl
  obtain ⟨r1, r2, r3, r4⟩ := restore_saveLines fam (SaveInto rangeOrder f t []).1 t table
    (rangeOrder table.chains) newFakeIPTables hname htne hlines hnd
    (fun ch hch => ⟨(hci ch hch).2.1, (hci ch hch).2.2.2.1,
      fun r hr => ((hci ch hch).2.2.2.2 r hr).1⟩)
    (fun c => chainAt_new t c)
  refine ⟨by rw [hsave], r1, ?_⟩
  unfold RestoreAll
  have hsome : (mget t (restore fam newFakeIPTables [] (SaveInto rangeOrder f t []).1
      .NoFlushTables).1.tables).isSome := by
    by_cases he : table.chains = []
    · exact r4 t (hempty he)
    · obtain ⟨e, he'⟩ := List.exists_mem_of_ne_nil _ he
      have hch : e.2 ∈ rangeOrder table.chains :=
        hperm.mem_iff.mpr (List.mem_map_of_mem Prod.snd he')
      exact table_isSome_of_chainAt (r2 e.2 hch)
  cases hm : mget t (restore fam newFakeIPTables [] (SaveInto rangeOrder f t []).1
      .NoFlushTables).1.tables with
  | none => simp [hm] at hsome
  | some table' =>
    refine ⟨table', rfl, ?_⟩
    intro c
    rw [← chainAt_of_table c hm]
    by_cases hc : c ∈ (rangeOrder table.chains).map fakeChain.name
    · obtain ⟨ch, hch, hcn⟩ := List.mem_map.mp hc
      rw [← hcn, r2 ch hch, mget_of_mem_nodup hkeys (hmem ch hch)]
    · rw [r3 c hc, mget_none_of_not_mem (fun hx => hc (hnames.mem_iff.mpr hx))]

theorem sampleClassifier_addrOnly : AddrOnly sampleClassifier := by
  intro x hx
  have hall : x.all isAddrChar = true := by
    by_contra h
    apply hx
    unfold sampleClassifier
    simp only [h]
    rfl
  constructor
  · intro he
    subst he
    exact hx (by decide)
  · intro c hc
    exact List.all_eq_true.mp hall c hc

/-- C4 amended, at the spec's example: the rule `-m comment --comment "my rule"`
in `filter`/`LOG`, saved and restored into a fresh engine. -/
theorem save_restore_roundtrip_witness :
    (SaveInto (fun m => m.map Prod.snd)
      (EnsureRule sampleClassifier sampleQuote newFakeIPTables .Append "filter".toList
        "LOG".toList ["-m".toList, "comment".toList, "--comment".toList, "my rule".toList]).1
      "filter".toList []).2 = .ok () ∧
    (RestoreAll sampleClassifier newFakeIPTables
      (SaveInto (fun m => m.map Prod.snd)
        (EnsureRule sampleClassifier sampleQuote newFakeIPTables .Append "filter".toList
          "LOG".toList ["-m".toList, "comment".toList, "--comment".toList, "my rule".toList]).1
        "filter".toList []).1 .NoFlushTables).2 = .ok () ∧
    ∃ table',
      mget "filter".toList (RestoreAll sampleClassifier newFakeIPTables
        (SaveInto (fun m => m.map Prod.snd)
          (EnsureRule sampleClassifier sampleQuote newFakeIPTables .Append "filter".toList
            "LOG".toList ["-m".toList, "comment".toList, "--comment".toList, "my rule".toList]).1
          "filter".toList []).1 .NoFlushTables).1.tables = some table' ∧
      ∀ c, mget c table'.chains
        = mget c ({ name := "filter".toList, chains := [("LOG".toList,
            { name := "LOG".toList,
              rules := ["-m comment --comment ".toList ++ dquote :: "my rule".toList ++ [dquote]] })]
            } : fakeTable).chains :=
  save_restore_roundtrip sampleClassifier_addrOnly sampleQuote (fun m => m.map Prod.snd)
    (fun _ => List.Perm.refl _)
    (EnsureRule sampleClassifier sampleQuote newFakeIPTables .Append "filter".toList
      "LOG".toList ["-m".toList, "comment".toList, "--comment".toList, "my rule".toList]).1
    "filter".toList
    { name := "filter".toList, chains := [("LOG".toList,
        { name := "LOG".toList,
          rules := ["-m comment --comment ".toList ++ dquote :: "my rule".toList ++ [dquote]] })] }
    (Built.EnsureRule .Append "filter".toList "LOG".toList
      ["-m".toList, "comment".toList, "--comment".toList, "my rule".toList]
      (by unfold NameOK; decide) (by unfold NameOK; decide) (by unfold PlainSpaces; decide)
      Built.fresh)
    (by decide)

/-! ### No call runs out of fuel -/

theorem ensureRule_ne_outOfFuel (fam : Classifier) (f : fakeIPTables) (position : RulePosition)
    (t c rule : Str) : (ensureRule fam f position t c rule).2 ≠ .outOfFuel := by
  rw [ensureRule_eq]
  cases hn : normalizeRule fam rule with
  | err e => simp
  | crash => simp
  | outOfFuel => exact absurd hn (normalizeRule_ne_outOfFuel fam rule)
  | ok r =>
    simp only
    split_ifs
    · simp
    · cases position <;> simp

theorem Step.ofCall_ne_outOfFuel {α : Type} (tableName : Str) (r : fakeIPTables × Res α)
    (h : r.2 ≠ .outOfFuel) (g : fakeIPTables) : Step.ofCall tableName r ≠ .done g .outOfFuel := by
  obtain ⟨f, r⟩ := r
  cases r with
  | ok a => simp [Step.ofCall]
  | err e => simp [Step.ofCall]
  | crash => simp [Step.ofCall]
  | outOfFuel => exact absurd rfl h

theorem FlushChain_ne_outOfFuel (f : fakeIPTables) (t c : Str) :
    (FlushChain f t c).2 ≠ .outOfFuel := by
  unfold FlushChain
  cases getChain f t c <;> simp

theorem DeleteChain_ne_outOfFuel (f : fakeIPTables) (t c : Str) :
    (DeleteChain f t c).2 ≠ .outOfFuel := by
  unfold DeleteChain
  cases getChain f t c <;> simp

theorem restoreBlock_ne_outOfFuel (fam : Classifier) (rt allLines : Str) (flush : FlushFlag)
    (f g : fakeIPTables) (tableName line : Str) :
    restoreBlock fam rt allLines flush f tableName line ≠ .done g .outOfFuel := by
  have hrule : ∀ tn l flag pos, restoreRule fam f tn l flag pos ≠ .done g .outOfFuel := by
    intro tn l flag pos
    unfold restoreRule
    simp only
    split_ifs
    · simp
    · split
      · exact Step.ofCall_ne_outOfFuel _ _ (ensureRule_ne_outOfFuel fam f pos tn _ _) g
      · simp
  have hheader : ∀ tn l, restoreHeader f tn l allLines flush ≠ .done g .outOfFuel := by
    intro tn l
    unfold restoreHeader
    split
    · simp
    · unfold restoreChain
      simp only
      split
      · simp
      · split_ifs
        · exact Step.ofCall_ne_outOfFuel _ _ (FlushChain_ne_outOfFuel _ _ _) g
        · simp
  have hdelete : ∀ tn l, restoreDelete f tn l ≠ .done g .outOfFuel := by
    intro tn l
    unfold restoreDelete
    simp only
    split_ifs
    · simp
    · split
      · exact Step.ofCall_ne_outOfFuel _ _ (DeleteChain_ne_outOfFuel _ _ _) g
      · simp
  unfold restoreBlock
  split_ifs
  · simp
  · exact hheader _ _
  · exact hrule _ _ _ _
  · exact hrule _ _ _ _
  · exact hdelete _ _
  · simp
  · simp
  · simp
  · simp

theorem restoreLine_ne_outOfFuel (fam : Classifier) (rt allLines : Str) (flush : FlushFlag)
    (f g : fakeIPTables) (tableName line : Str) :
    restoreLine fam rt allLines flush f tableName line ≠ .done g .outOfFuel := by
  unfold restoreLine
  split
  · simp
  · simp only
    split
    · simp
    · exact restoreBlock_ne_outOfFuel fam rt allLines flush f g _ _

/-- The model of `restore` is total and never reports exhausted fuel: every
result is a return with nil, an error value, or a run-time panic. -/
theorem restore_ne_outOfFuel (fam : Classifier) (f : fakeIPTables) (rt data : Str)
    (flush : FlushFlag) : (restore fam f rt data flush).2 ≠ .outOfFuel := by
  unfold restore
  generalize readLines data = lines
  generalize ([] : Str) = tn
  induction lines generalizing f tn with
  | nil => simp [restoreLines]
  | cons line rest ih =>
    unfold restoreLines
    cases hs : restoreLine fam rt data flush f tn line with
    | next f1 tn1 => exact ih f1 tn1
    | done f1 r =>
      simp only
      intro hr
      rw [hr] at hs
      exact restoreLine_ne_outOfFuel fam rt data flush f f1 tn line hs

/-! ### The chain operations, one by one -/

theorem chainAt_eq_none_iff (f : fakeIPTables) (t c : Str) :
    chainAt f t c = none ↔
      (mget t f.tables = none ∨ ∃ table, mget t f.tables = some table ∧ mget c table.chains = none) := by
  cases h1 : mget t f.tables with
  | none => simp [chainAt_none_of_table c h1]
  | some table => simp [chainAt_of_table c h1]

theorem ChainExists_of_chainAt {f : fakeIPTables} {t c : Str} {chain : fakeChain}
    (h : chainAt f t c = some chain) : ChainExists f t c = (true, none) := by
  obtain ⟨table, hg⟩ := getChain_of_chainAt h
  unfold ChainExists
  rw [hg]

theorem putChains_tables_ne (f : fakeIPTables) {t t' : Str} (table : fakeTable)
    (chains : Map fakeChain) (h : t' ≠ t) :
    mget t' (putChains f t table chains).tables = mget t' f.tables := by
  simp [putChains, mget_mset_ne _ _ h]

theorem ensureChain_tables_ne (f : fakeIPTables) (t c : Str) {t' : Str} (h : t' ≠ t) :
    mget t' (ensureChain f t c).1.tables = mget t' f.tables := by
  unfold ensureChain
  cases h1 : mget t f.tables with
  | none => simp [getChain_noTable c h1, putChains_tables_ne _ _ _ h]
  | some table =>
    cases h2 : mget c table.chains with
    | none => simp [getChain_noChain h1 h2, putChains_tables_ne _ _ _ h]
    | some chain => simp [getChain_found h1 h2]

theorem setRules_tables_ne (f : fakeIPTables) (t c : Str) (chain : fakeChain) (rules : List Str)
    {t' : Str} (h : t' ≠ t) :
    mget t' (setRules f t c chain rules).tables = mget t' f.tables := by
  unfold setRules
  cases h1 : mget t f.tables with
  | none => rfl
  | some table => simp [putChains_tables_ne _ _ _ h]

theorem ensureChain_existed (f : fakeIPTables) (t c : Str) :
    (ensureChain f t c).2.1 = (chainAt f t c).isSome := by
  unfold ensureChain
  cases h1 : mget t f.tables with
  | none => simp [getChain_noTable c h1, chainAt_none_of_table c h1]
  | some table =>
    cases h2 : mget c table.chains with
    | none => simp [getChain_noChain h1 h2, chainAt_of_table c h1, h2]
    | some chain => simp [getChain_found h1 h2, chainAt_of_table c h1, h2]

/-- C11: `EnsureChain` postcondition and idempotence.  `EnsureChain(t, c)` never
returns an error and returns existed=true iff `c` was a chain of `t`; afterwards
`ChainExists(t, c)` holds; if `c` existed the store is unchanged, otherwise `c`
has been created with no rules (and table `t` if needed) while every other
chain and every other table is unchanged; a second `EnsureChain(t, c)` returns
true and changes nothing. -/
theorem EnsureChain_postcondition (f : fakeIPTables) (t c : Str) :
    (EnsureChain f t c).2 = .ok (chainAt f t c).isSome ∧
    ChainExists (EnsureChain f t c).1 t c = (true, none) ∧
    (∀ chain, chainAt f t c = some chain → (EnsureChain f t c).1 = f) ∧
    (chainAt f t c = none →
      chainAt (EnsureChain f t c).1 t c = some { name := c, rules := [] }) ∧
    (∀ t' c', t' ≠ t ∨ c' ≠ c → chainAt (EnsureChain f t c).1 t' c' = chainAt f t' c') ∧
    (∀ t', t' ≠ t → mget t' (EnsureChain f t c).1.tables = mget t' f.tables) ∧
    EnsureChain (EnsureChain f t c).1 t c = ((EnsureChain f t c).1, .ok true) := by
  unfold EnsureChain
  simp only
  refine ⟨by rw [ensureChain_existed], ChainExists_of_chainAt (ensureChain_chainAt_same f t c),
    ?_, ?_, ?_, ?_, ?_⟩
  · intro chain hc
    rw [ensureChain_of_chainAt hc]
  · intro hc
    rw [ensureChain_chainAt_same, ensureChain_chain, hc]
    rfl
  · intro t' c' hne
    exact ensureChain_chainAt_ne f t c t' c' hne
  · intro t' hne
    exact ensureChain_tables_ne f t c hne
  · rw [ensureChain_of_chainAt (ensureChain_chainAt_same f t c)]

/-- C11 on a fresh engine: `EnsureChain("filter", "FOO")` creates the empty
chain `FOO`. -/
theorem EnsureChain_postcondition_witness :
    chainAt (EnsureChain newFakeIPTables "filter".toList "FOO".toList).1 "filter".toList
        "FOO".toList = some { name := "FOO".toList, rules := [] } :=
  (EnsureChain_postcondition newFakeIPTables "filter".toList "FOO".toList).2.2.2.1 (by decide)

/-- C12: `FlushChain` is strict.  It returns an error iff table `t` is absent or
chain `c` is absent from `t`, and then the store is unchanged; otherwise it
returns success, chain `c` exists with no rules (and its name), every other
chain and every other table is unchanged. -/
theorem FlushChain_strict (f : fakeIPTables) (t c : Str) :
    ((∃ e, (FlushChain f t c).2 = .err e) ↔
      (mget t f.tables = none ∨
        ∃ table, mget t f.tables = some table ∧ mget c table.chains = none)) ∧
    (chainAt f t c = none → (FlushChain f t c).1 = f) ∧
    (∀ chain, chainAt f t c = some chain →
      (FlushChain f t c).2 = .ok () ∧
      chainAt (FlushChain f t c).1 t c = some { chain with rules := [] } ∧
      (∀ t' c', t' ≠ t ∨ c' ≠ c → chainAt (FlushChain f t c).1 t' c' = chainAt f t' c') ∧
      (∀ t', t' ≠ t → mget t' (FlushChain f t c).1.tables = mget t' f.tables)) := by
  refine ⟨?_, ?_, ?_⟩
  · rw [← chainAt_eq_none_iff]
    cases hc : chainAt f t c with
    | none =>
      simp only [iff_true]
      unfold FlushChain
      cases hg : getChain f t c with
      | noTable e => exact ⟨e, rfl⟩
      | noChain table e => exact ⟨e, rfl⟩
      | found table chain => exact absurd hg (getChain_of_chainAt_none hc table chain)
    | some chain =>
      rw [FlushChain_of_chainAt hc]
      simp
  · intro hc
    unfold FlushChain
    cases hg : getChain f t c with
    | noTable e => rfl
    | noChain table e => rfl
    | found table chain => exact absurd hg (getChain_of_chainAt_none hc table chain)
  · intro chain hc
    rw [FlushChain_of_chainAt hc]
    refine ⟨rfl, chainAt_setRules_same f t c chain [] (table_isSome_of_chainAt hc), ?_, ?_⟩
    · intro t' c' hne
      exact chainAt_setRules_ne f t c t' c' chain [] hne
    · intro t' hne
      exact setRules_tables_ne f t c chain [] hne

/-- C12 on a fresh engine: flushing the missing chain `filter`/`FOO` leaves the
store as it is. -/
theorem FlushChain_strict_witness :
    (FlushChain newFakeIPTables "filter".toList "FOO".toList).1 = newFakeIPTables :=
  (FlushChain_strict newFakeIPTables "filter".toList "FOO".toList).2.1 (by decide)

/-- C13: `DeleteChain` removes exactly one chain.  It returns an error iff `t`
or `c` is absent, and then the store is unchanged; otherwise it returns
success, `c` is no longer a chain of `t`, table `t` still exists, and every
other chain and every other table is unchanged. -/
theorem DeleteChain_removes_one (f : fakeIPTables) (t c : Str) :
    ((∃ e, (DeleteChain f t c).2 = .err e) ↔
      (mget t f.tables = none ∨
        ∃ table, mget t f.tables = some table ∧ mget c table.chains = none)) ∧
    (chainAt f t c = none → (DeleteChain f t c).1 = f) ∧
    (∀ chain, chainAt f t c = some chain →
      (DeleteChain f t c).2 = .ok () ∧
      chainAt (DeleteChain f t c).1 t c = none ∧
      (mget t (DeleteChain f t c).1.tables).isSome ∧
      (∀ t' c', t' ≠ t ∨ c' ≠ c → chainAt (DeleteChain f t c).1 t' c' = chainAt f t' c') ∧
      (∀ t', t' ≠ t → mget t' (DeleteChain f t c).1.tables = mget t' f.tables)) := by
  have hfound : ∀ chain, chainAt f t c = some chain → ∃ table, mget t f.tables = some table ∧
      DeleteChain f t c = (putChains f t table (mdel c table.chains), .ok ()) := by
    intro chain hc
    cases h1 : mget t f.tables with
    | none => simp [chainAt_none_of_table c h1] at hc
    | some table =>
      rw [chainAt_of_table c h1] at hc
      refine ⟨table, rfl, ?_⟩
      unfold DeleteChain
      rw [getChain_found h1 hc]
  refine ⟨?_, ?_, ?_⟩
  · rw [← chainAt_eq_none_iff]
    cases hc : chainAt f t c with
    | none =>
      simp only [iff_true]
      unfold DeleteChain
      cases hg : getChain f t c with
      | noTable e => exact ⟨e, rfl⟩
      | noChain table e => exact ⟨e, rfl⟩
      | found table chain => exact absurd hg (getChain_of_chainAt_none hc table chain)
    | some chain =>
      obtain ⟨table, _, hd⟩ := hfound chain hc
      rw [hd]
      simp
  · intro hc
    unfold DeleteChain
    cases hg : getChain f t c with
    | noTable e => rfl
    | noChain table e => rfl
    | found table chain => exact absurd hg (getChain_of_chainAt_none hc table chain)
  · intro chain hc
    obtain ⟨table, h1, hd⟩ := hfound chain hc
    rw [hd]
    refine ⟨rfl, ?_, ?_, ?_, ?_⟩
    · rw [chainAt_putChains_same, mget_mdel_self]
    · simp [putChains, mget_mset_self]
    · intro t' c' hne
      by_cases ht : t' = t
      · subst ht
        have hc' : c' ≠ c := by
          rcases hne with h | h
          · exact absurd rfl h
          · exact h
        rw [chainAt_putChains_same, mget_mdel_ne _ hc', chainAt_of_table c' h1]
      · exact chainAt_putChains_ne f c' table _ ht
    · intro t' hne
      exact putChains_tables_ne f table _ hne

/-- C13 on a store with the chain `filter`/`FOO`: after `DeleteChain` the chain
is gone. -/
theorem DeleteChain_removes_one_witness :
    chainAt (DeleteChain (EnsureChain newFakeIPTables "filter".toList "FOO".toList).1
        "filter".toList "FOO".toList).1 "filter".toList "FOO".toList = none :=
  ((DeleteChain_removes_one (EnsureChain newFakeIPTables "filter".toList "FOO".toList).1
    "filter".toList "FOO".toList).2.2 { name := "FOO".toList, rules := [] } (by decide)).2.1

/-- C14, as stated, fails: on a missing chain, and on a missing table,
`ChainExists` returns false together with the not-found error of `getChain`. -/
theorem ChainExists_returns_error :
    ChainExists newFakeIPTables "filter".toList "FOO".toList
      = (false, some (.chainNotFound "filter".toList "FOO".toList)) ∧
    ChainExists newFakeIPTables "mangle".toList "FOO".toList
      = (false, some (.tableNotFound "mangle".toList)) := by
  decide

/-- C14, amended: `ChainExists(t, c)` returns true and no error when `c` is a
chain of `t`; when table `t` is absent it returns false with the
table-not-found error, and when `t` exists without chain `c` it returns false
with the chain-not-found error. -/
theorem ChainExists_result (f : fakeIPTables) (t c : Str) :
    (∀ chain, chainAt f t c = some chain → ChainExists f t c = (true, none)) ∧
    (mget t f.tables = none → ChainExists f t c = (false, some (.tableNotFound t))) ∧
    (∀ table, mget t f.tables = some table → mget c table.chains = none →
      ChainExists f t c = (false, some (.chainNotFound t c))) := by
  refine ⟨fun chain hc => ChainExists_of_chainAt hc, ?_, ?_⟩
  · intro h
    unfold ChainExists
    rw [getChain_noTable c h]
  · intro table h1 h2
    unfold ChainExists
    rw [getChain_noChain h1 h2]

/-- C14 amended, on a fresh engine and the missing chain `filter`/`FOO`. -/
theorem ChainExists_result_witness :
    ChainExists newFakeIPTables "filter".toList "FOO".toList
      = (false, some (.chainNotFound "filter".toList "FOO".toList)) :=
  (ChainExists_result newFakeIPTables "filter".toList "FOO".toList).2.2
    { name := "filter".toList, chains := [] } (by decide) (by decide)

/-- C18 fails on the code: on the empty string, on a string of white space
only, on a rule that ends in `--to-destination=` and on a quoted token followed
by one more character, `normalizeRule` indexes `remaining[0]` on an empty
string and panics; it returns neither a canonical string nor an error. -/
theorem normalizeRule_crashes_on_blank (fam : Classifier) :
    normalizeRule fam [] = .crash ∧
    normalizeRule fam [' ', Char.ofNat 9, ' '] = .crash ∧
    normalizeRule fam "-j DNAT --to-destination=".toList = .crash ∧
    normalizeRule fam [dquote, 'a', dquote, 'x'] = .crash := by
  refine ⟨rfl, rfl, rfl, rfl⟩

/-! ### Tables and chains are filed under their own names -/

theorem WellNamed_new : WellNamed newFakeIPTables := by
  intro t table h
  unfold newFakeIPTables at h
  simp only [mget] at h
  split_ifs at h with h1 h2 <;> cases h
  · exact ⟨h1, by simp, by simp⟩
  · exact ⟨h2, by simp, by simp⟩

theorem WellNamed_putChains {f : fakeIPTables} {t : Str} {table : fakeTable}
    {chains : Map fakeChain} (h : WellNamed f) (hn : table.name = t)
    (hk : (chains.map Prod.fst).Nodup) (hv : ∀ e ∈ chains, e.2.name = e.1) :
    WellNamed (putChains f t table chains) := by
  intro t' table' ht'
  by_cases hne : t' = t
  · subst hne
    simp only [putChains, mget_mset_self, Option.some.injEq] at ht'
    subst ht'
    exact ⟨hn, hk, hv⟩
  · simp only [putChains, mget_mset_ne _ _ hne] at ht'
    exact h t' table' ht'

theorem WellNamed_chainAt {f : fakeIPTables} (h : WellNamed f) {t c : Str} {chain : fakeChain}
    (hc : chainAt f t c = some chain) : chain.name = c := by
  cases h1 : mget t f.tables with
  | none => simp [chainAt_none_of_table c h1] at hc
  | some table =>
    rw [chainAt_of_table c h1] at hc
    exact (h t table h1).2.2 (c, chain) (mem_of_mget hc)

theorem WellNamed_mset {f : fakeIPTables} {t c : Str} {table : fakeTable} {chain : fakeChain}
    (h : WellNamed f) (ht : mget t f.tables = some table) (hn : chain.name = c) :
    WellNamed (putChains f t table (mset c chain table.chains)) := by
  obtain ⟨h1, h2, h3⟩ := h t table ht
  refine WellNamed_putChains h h1 (nodup_keys_mset c chain _ h2) ?_
  intro e he
  rcases mem_mset he with rfl | he
  · exact hn
  · exact h3 e he

theorem WellNamed_ensureChain {f : fakeIPTables} (t c : Str) (h : WellNamed f) :
    WellNamed (ensureChain f t c).1 := by
  unfold ensureChain
  cases h1 : mget t f.tables with
  | none =>
    rw [getChain_noTable c h1]
    exact WellNamed_putChains h rfl (by simp [mset]) (by simp [mset])
  | some table =>
    cases h2 : mget c table.chains with
    | none =>
      rw [getChain_noChain h1 h2]
      exact WellNamed_mset h h1 rfl
    | some chain =>
      rw [getChain_found h1 h2]
      exact h

theorem WellNamed_setRules {f : fakeIPTables} (t c : Str) (chain : fakeChain) (rules : List Str)
    (h : WellNamed f) (hn : chain.name = c) : WellNamed (setRules f t c chain rules) := by
  unfold setRules
  cases h1 : mget t f.tables with
  | none => exact h
  | some table => exact WellNamed_mset h h1 hn

theorem WellNamed_FlushChain {f : fakeIPTables} (t c : Str) (h : WellNamed f) :
    WellNamed (FlushChain f t c).1 := by
  cases hc : chainAt f t c with
  | none =>
    unfold FlushChain
    cases hg : getChain f t c with
    | noTable e => exact h
    | noChain table e => exact h
    | found table chain => exact absurd hg (getChain_of_chainAt_none hc table chain)
  | some chain =>
    rw [FlushChain_of_chainAt hc]
    exact WellNamed_setRules t c chain [] h (WellNamed_chainAt h hc)

theorem WellNamed_DeleteChain {f : fakeIPTables} (t c : Str) (h : WellNamed f) :
    WellNamed (DeleteChain f t c).1 := by
  unfold DeleteChain
  cases h1 : mget t f.tables with
  | none =>
    rw [getChain_noTable c h1]
    exact h
  | some table =>
    cases h2 : mget c table.chains with
    | none =>
      rw [getChain_noChain h1 h2]
      exact h
    | some chain =>
      rw [getChain_found h1 h2]
      obtain ⟨h3, h4, h5⟩ := h t table h1
      refine WellNamed_putChains h h3 ?_ ?_
      · exact h4.sublist (List.Sublist.map _ (List.filter_sublist _))
      · intro e he
        exact h5 e (List.mem_of_mem_filter he)

theorem WellNamed_ensureRule (fam : Classifier) {f : fakeIPTables} (position : RulePosition)
    (t c rule : Str) (h : WellNamed f) : WellNamed (ensureRule fam f position t c rule).1 := by
  have h1 : WellNamed (ensureChain f t c).1 := WellNamed_ensureChain t c h
  have h2 : (ensureChain f t c).2.2.name = c :=
    WellNamed_chainAt h1 (ensureChain_chainAt_same f t c)
  rw [ensureRule_eq]
  cases normalizeRule fam rule with
  | err e => exact h1
  | crash => exact h1
  | outOfFuel => exact h1
  | ok r =>
    by_cases hr : r ∈ (ensureChain f t c).2.2.rules
    · simpa [hr] using h1
    · simp only [hr, if_false]
      cases position with
      | Prepend => exact WellNamed_setRules t c _ _ h1 h2
      | Append => exact WellNamed_setRules t c _ _ h1 h2
      | unrecognized p => exact h1

theorem WellNamed_DeleteRule {f : fakeIPTables} (t c : Str) (args : List Str) (h : WellNamed f) :
    WellNamed (DeleteRule f t c args).1 := by
  unfold DeleteRule
  cases h1 : mget t f.tables with
  | none =>
    rw [getChain_noTable c h1]
    exact h
  | some table =>
    cases h2 : mget c table.chains with
    | none =>
      rw [getChain_noChain h1 h2]
      exact h
    | some chain =>
      rw [getChain_found h1 h2]
      have hn : chain.name = c := WellNamed_chainAt h (by rw [chainAt_of_table c h1]; exact h2)
      simp only
      split_ifs with hlt
      · exact h
      · exact WellNamed_setRules t c _ _ h hn

/-- What the four store-changing calls that `restore` makes preserve, `restore`
preserves, whatever it returns. -/
theorem restoreLines_preserves (fam : Classifier) (P : fakeIPTables → Prop)
    (hEC : ∀ f t c, P f → P (ensureChain f t c).1)
    (hFC : ∀ f t c, P f → P (FlushChain f t c).1)
    (hDC : ∀ f t c, P f → P (DeleteChain f t c).1)
    (hER : ∀ f position t c rule, P f → P (ensureRule fam f position t c rule).1)
    (rt allLines : Str) (flush : FlushFlag) (lines : List Str) (f : fakeIPTables)
    (tableName : Str) (h : P f) :
    P (restoreLines fam rt allLines flush lines f tableName).1 := by
  have hRule : ∀ (f : fakeIPTables) (tableName line flag : Str) (position : RulePosition),
      P f → P (restoreRule fam f tableName line flag position).store := by
    intro f tableName line flag position h
    unfold restoreRule
    simp only
    split_ifs with hlen
    · exact h
    · split
      · rw [Step.store_ofCall]
        exact hER _ position tableName _ _ h
      · exact h
  have hChain : ∀ (f : fakeIPTables) (tableName chainName : Str),
      P f → P (restoreChain f tableName chainName allLines flush).store := by
    intro f tableName chainName h
    unfold restoreChain
    have hdel : ∀ f', (if flush = .FlushTables then
        match getChain f tableName chainName with
        | .noTable e => Except.error e
        | .noChain _ e => Except.error e
        | .found table _ => Except.ok (putChains f tableName table (mdel chainName table.chains))
      else Except.ok f) = Except.ok f' → P f' := by
      intro f' hf'
      split_ifs at hf' with hfl
      · cases h1 : mget tableName f.tables with
        | none => simp [getChain_noTable chainName h1] at hf'
        | some table =>
          cases h2 : mget chainName table.chains with
          | none => simp [getChain_noChain h1 h2] at hf'
          | some chain =>
            simp only [getChain_found h1 h2, Except.ok.injEq] at hf'
            rw [← hf']
            have hd := hDC f tableName chainName h
            unfold DeleteChain at hd
            rw [getChain_found h1 h2] at hd
            exact hd
      · cases hf'
        exact h
    simp only
    split
    · exact h
    · rename_i f' heq
      have h1 : P (ensureChain f' tableName chainName).1 := hEC _ _ _ (hdel f' heq)
      split_ifs
      · rw [Step.store_ofCall]
        exact hFC _ tableName chainName h1
      · exact h1
  have hHeader : ∀ (f : fakeIPTables) (tableName line : Str),
      P f → P (restoreHeader f tableName line allLines flush).store := by
    intro f tableName line h
    unfold restoreHeader
    split
    · exact h
    · exact hChain _ _ _ h
  have hDelete : ∀ (f : fakeIPTables) (tableName line : Str),
      P f → P (restoreDelete f tableName line).store := by
    intro f tableName line h
    unfold restoreDelete
    simp only
    split_ifs with hlen
    · exact h
    · split
      · rw [Step.store_ofCall]
        exact hDC _ tableName _ h
      · exact h
  have hBlock : ∀ (f : fakeIPTables) (tableName line : Str),
      P f → P (restoreBlock fam rt allLines flush f tableName line).store := by
    intro f tableName line h
    unfold restoreBlock
    split_ifs
    · exact h
    · exact hHeader _ _ _ h
    · exact hRule _ _ _ _ _ h
    · exact hRule _ _ _ _ _ h
    · exact hDelete _ _ _ h
    · exact h
    · exact h
    · exact h
    · exact h
  have hLine : ∀ (f : fakeIPTables) (tableName line : Str),
      P f → P (restoreLine fam rt allLines flush f tableName line).store := by
    intro f tableName line h
    unfold restoreLine
    split
    · exact h
    · simp only
      split
      · exact h
      · exact hBlock _ _ _ h
  induction lines generalizing f tableName with
  | nil => exact h
  | cons line rest ih =>
    unfold restoreLines
    have hx := hLine f tableName line h
    split <;> rename_i heq <;> rw [heq] at hx
    · exact ih _ _ hx
    · exact hx

theorem WellNamed_restoreLines (fam : Classifier) (rt allLines : Str) (flush : FlushFlag)
    (lines : List Str) {f : fakeIPTables} (tableName : Str) (h : WellNamed f) :
    WellNamed (restoreLines fam rt allLines flush lines f tableName).1 :=
  restoreLines_preserves fam WellNamed
    (fun _ t c h => WellNamed_ensureChain t c h)
    (fun _ t c h => WellNamed_FlushChain t c h)
    (fun _ t c h => WellNamed_DeleteChain t c h)
    (fun _ position t c rule h => WellNamed_ensureRule fam position t c rule h)
    rt allLines flush lines f tableName h

/-- In every store the exposed operations can produce from a fresh engine,
tables and chains are filed under their own names. -/
theorem WellNamed_of_Reachable (fam : Classifier) (quote : Str → Str) {f : fakeIPTables}
    (h : Reachable fam quote f) : WellNamed f := by
  induction h with
  | fresh => exact WellNamed_new
  | EnsureChain t c _ ih => exact WellNamed_ensureChain t c ih
  | FlushChain t c _ ih => exact WellNamed_FlushChain t c ih
  | DeleteChain t c _ ih => exact WellNamed_DeleteChain t c ih
  | EnsureRule position t c args _ ih => exact WellNamed_ensureRule fam position t c _ ih
  | DeleteRule t c args _ ih => exact WellNamed_DeleteRule t c args ih
  | Restore t data flush _ ih => exact WellNamed_restoreLines fam _ _ _ _ _ ih
  | RestoreAll data flush _ ih => exact WellNamed_restoreLines fam _ _ _ _ _ ih

/-- C15: `SaveInto` output shape.  For every store the exposed operations can
produce, every existing table `t` and every order `rangeOrder` in which the
chains of `t` are enumerated, `SaveInto(t)` returns success and appends to the
buffer the line `*t`, one header line `:c - [0:0]` per chain in the order of
enumeration, then for each chain in that order its block of lines `-A c r`, one
per rule `r` in the chain's order, then the line `COMMIT`; the enumerated
chains are exactly the chains of `t`, each once.  (`SaveInto` only reads the
store: it returns the buffer and the error and has no store to return.) -/
theorem SaveInto_shape (fam : Classifier) (quote : Str → Str)
    (rangeOrder : Map fakeChain → List fakeChain) (f : fakeIPTables)
    (hf : Reachable fam quote f) (t : Str) (table : fakeTable) (buffer : Str)
    (ht : mget t f.tables = some table)
    (hperm : (rangeOrder table.chains).Perm (table.chains.map Prod.snd)) :
    SaveInto rangeOrder f t buffer
      = (buffer ++
          (['*' :: t] ++ (rangeOrder table.chains).map (fun chain => ':' :: chain.name ++ " - [0:0]".toList)
            ++ (rangeOrder table.chains).flatMap
                (fun chain => chain.rules.map
                  (fun r => "-A ".toList ++ chain.name ++ [' '] ++ r))
            ++ ["COMMIT".toList]).flatMap (fun l => l ++ [newline]),
         .ok ()) ∧
    ((rangeOrder table.chains).map fakeChain.name).Nodup ∧
    (∀ c chain, chainAt f t c = some chain ↔
      (chain ∈ rangeOrder table.chains ∧ chain.name = c)) := by
  obtain ⟨h1, h2, h3⟩ := WellNamed_of_Reachable fam quote hf t table ht
  refine ⟨?_, ?_, ?_⟩
  · have e1 : (fun chain : fakeChain => ':' :: chain.name ++ " - [0:0]".toList) = headerBody := rfl
    have e2 : (fun chain : fakeChain =>
        chain.rules.map (fun r => "-A ".toList ++ chain.name ++ [' '] ++ r))
          = fun chain => chain.rules.map (ruleBody chain.name) := by
      funext chain
      simp [ruleBody]
    rw [SaveInto_eq rangeOrder f t table buffer ht, e1, e2]
    simp [saveLines, h1]
  · have hp := hperm.map fakeChain.name
    rw [hp.nodup_iff, List.map_map]
    have : table.chains.map (fakeChain.name ∘ Prod.snd) = table.chains.map Prod.fst :=
      List.map_congr_left (fun e he => h3 e he)
    rw [this]
    exact h2
  · intro c chain
    rw [chainAt_of_table c ht]
    constructor
    · intro hc
      have hm := mem_of_mget hc
      exact ⟨hperm.mem_iff.mpr (List.mem_map.mpr ⟨(c, chain), hm, rfl⟩), h3 (c, chain) hm⟩
    · rintro ⟨hm, hn⟩
      obtain ⟨e, he, hec⟩ := List.mem_map.mp (hperm.mem_iff.mp hm)
      obtain ⟨k, v⟩ := e
      simp only at hec
      subst hec
      have := h3 (k, v) he
      simp only at this
      rw [hn] at this
      subst this
      exact mget_of_mem_nodup h2 he

/-- C15 on the store with the chain `filter`/`FOO` holding the rule `-j ACCEPT`,
the chains enumerated in map order. -/
theorem SaveInto_shape_witness :
    (SaveInto (fun m => m.map Prod.snd)
        (EnsureRule sampleClassifier sampleQuote newFakeIPTables .Append "filter".toList
          "FOO".toList ["-j".toList, "ACCEPT".toList]).1 "filter".toList []).1
      = text ["*filter", ":FOO - [0:0]", "-A FOO -j ACCEPT", "COMMIT"] :=
  congrArg Prod.fst (SaveInto_shape sampleClassifier sampleQuote (fun m => m.map Prod.snd)
    (EnsureRule sampleClassifier sampleQuote newFakeIPTables .Append "filter".toList
      "FOO".toList ["-j".toList, "ACCEPT".toList]).1
    (Reachable.EnsureRule _ _ _ _ Reachable.fresh) "filter".toList
    { name := "filter".toList,
      chains := [("FOO".toList, { name := "FOO".toList, rules := ["-j ACCEPT".toList] })] } []
    (by decide) (List.Perm.refl _)).1

/-! ### Lines of a stream and text searched in it -/

theorem startsWith_line (x y p : Str) (hp : newline ∉ p) :
    startsWith (x ++ newline :: y) p = startsWith x p := by
  induction x generalizing p with
  | nil =>
    cases p with
    | nil => rfl
    | cons d p =>
      have hd : newline ≠ d := fun e => hp (by simp [e])
      simp [startsWith, hd]
  | cons c x ih =>
    cases p with
    | nil => rfl
    | cons d p =>
      have hp2 : newline ∉ p := fun e => hp (by simp [e])
      simp [startsWith, ih p hp2]

/-- A text without a newline occurs in a stream iff it occurs before or after
a given newline of it. -/
theorem strContains_line (x y p : Str) (hp : newline ∉ p) :
    strContains (x ++ newline :: y) p = (strContains x p || strContains y p) := by
  induction x with
  | nil =>
    have h := startsWith_line [] y p hp
    simp only [List.nil_append] at h
    simp only [List.nil_append, strContains, h]
  | cons c x ih =>
    have h := startsWith_line (c :: x) y p hp
    simp only [List.cons_append] at h
    show (startsWith (c :: (x ++ newline :: y)) p || strContains (x ++ newline :: y) p)
      = (strContains (c :: x) p || strContains y p)
    rw [h, ih]
    simp only [strContains, Bool.or_assoc]

theorem readLines_eq_nil_iff (d : Str) : readLines d = [] ↔ newline ∉ d := by
  induction d with
  | nil => simp [readLines]
  | cons c d ih =>
    by_cases hc : c = newline
    · simp [readLines, hc]
    · have hc2 : newline ≠ c := fun e => hc e.symm
      cases hr : readLines d with
      | nil => simp [readLines, hc, hr, hc2, ih.mp hr]
      | cons l ls =>
        have : ¬ newline ∉ d := fun e => by
          rw [ih.mpr e] at hr
          cases hr
        simp only [not_not] at this
        simp [readLines, hc, hr, this]

/-- Reading lines from a stream cut at a line boundary: the lines of the part
before the cut, then the lines of the part after it. -/
theorem readLines_append (d1 d2 : Str) (hb : d1 = [] ∨ d1.getLast? = some newline) :
    readLines (d1 ++ d2) = readLines d1 ++ readLines d2 := by
  induction d1 with
  | nil => rfl
  | cons c d ih =>
    have hlast : (c :: d).getLast? = some newline := by
      rcases hb with h | h
      · cases h
      · exact h
    by_cases hc : c = newline
    · have hd : d = [] ∨ d.getLast? = some newline := by
        cases d with
        | nil => exact Or.inl rfl
        | cons a d =>
          right
          rw [List.getLast?_cons_cons] at hlast
          exact hlast
      simp [readLines, hc, ih hd]
    · have hdne : d ≠ [] := by
        rintro rfl
        simp at hlast
        exact hc hlast
      have hd : d.getLast? = some newline := by
        cases d with
        | nil => exact absurd rfl hdne
        | cons a d =>
          rw [List.getLast?_cons_cons] at hlast
          exact hlast
      have hmem : newline ∈ d := List.mem_of_getLast?_eq_some hd
      cases hr : readLines d with
      | nil => exact absurd hmem ((readLines_eq_nil_iff d).mp hr)
      | cons l ls =>
        have h1 := ih (Or.inr hd)
        rw [hr] at h1
        simp [readLines, hc, h1, hr]

/-- Every line read ends with the only newline it holds. -/
theorem readLines_shape (d : Str) :
    ∀ l ∈ readLines d, ∃ b, l = b ++ [newline] ∧ newline ∉ b := by
  induction d with
  | nil => simp [readLines]
  | cons c d ih =>
    by_cases hc : c = newline
    · intro l hl
      simp only [readLines, hc, if_true, List.mem_cons] at hl
      rcases hl with rfl | hl
      · exact ⟨[], rfl, by simp⟩
      · exact ih l hl
    · have hc2 : newline ≠ c := fun e => hc e.symm
      cases hr : readLines d with
      | nil => simp [readLines, hc, hr]
      | cons l0 ls =>
        rw [hr] at ih
        intro l hl
        simp only [readLines, hc, if_false, hr, List.mem_cons] at hl
        rcases hl with rfl | hl
        · obtain ⟨b, hb1, hb2⟩ := ih l0 (by simp)
          refine ⟨c :: b, by simp [hb1], ?_⟩
          simp [hc2, hb2]
        · exact ih l (by simp [hl])

theorem splitOn_head_mem (s : Str) (sep : Char) (p : Str) (ps : List Str)
    (h : splitOn s sep = p :: ps) : sep ∉ p ∧ ∀ x ∈ p, x ∈ s := by
  induction s generalizing p ps with
  | nil =>
    simp only [splitOn, List.cons.injEq] at h
    obtain ⟨rfl, _⟩ := h
    simp
  | cons c s ih =>
    by_cases hc : c = sep
    · simp only [splitOn, hc, if_true, List.cons.injEq] at h
      obtain ⟨rfl, _⟩ := h
      simp
    · have hc2 : sep ≠ c := fun e => hc e.symm
      cases hr : splitOn s sep with
      | nil =>
        simp only [splitOn, hc, if_false, hr, List.cons.injEq] at h
        obtain ⟨rfl, _⟩ := h
        simp [hc2]
      | cons q qs =>
        simp only [splitOn, hc, if_false, hr, List.cons.injEq] at h
        obtain ⟨rfl, _⟩ := h
        obtain ⟨h1, h2⟩ := ih q qs hr
        refine ⟨by simp [hc2, h1], ?_⟩
        intro x hx
        rcases List.mem_cons.mp hx with rfl | hx
        · simp
        · exact List.mem_cons_of_mem _ (h2 x hx)

/-! ### What `restore` takes from the whole stream -/

theorem restoreChain_congr (f : fakeIPTables) (tn c a1 a2 : Str) (flush : FlushFlag)
    (h : strContains a1 ("-X ".toList ++ c) = strContains a2 ("-X ".toList ++ c)) :
    restoreChain f tn c a1 flush = restoreChain f tn c a2 flush := by
  unfold restoreChain
  rw [h]

theorem restoreHeader_congr (f : fakeIPTables) (tn line a1 a2 : Str) (flush : FlushFlag)
    (hline : newline ∉ line)
    (h : ∀ c, ' ' ∉ c → newline ∉ c →
      strContains a1 ("-X ".toList ++ c) = strContains a2 ("-X ".toList ++ c)) :
    restoreHeader f tn line a1 flush = restoreHeader f tn line a2 flush := by
  unfold restoreHeader
  cases hs : splitOn (line.drop 1) ' ' with
  | nil => rfl
  | cons c cs =>
    obtain ⟨h1, h2⟩ := splitOn_head_mem _ _ _ _ hs
    exact restoreChain_congr f tn c a1 a2 flush
      (h c h1 (fun hx => hline (List.mem_of_mem_drop (h2 _ hx))))

theorem restoreBlock_congr (fam : Classifier) (rt a1 a2 : Str) (flush : FlushFlag)
    (f : fakeIPTables) (tn line : Str) (hline : newline ∉ line)
    (h : ∀ c, ' ' ∉ c → newline ∉ c →
      strContains a1 ("-X ".toList ++ c) = strContains a2 ("-X ".toList ++ c)) :
    restoreBlock fam rt a1 flush f tn line = restoreBlock fam rt a2 flush f tn line := by
  unfold restoreBlock
  rw [restoreHeader_congr f tn line a1 a2 flush hline h]

theorem restoreLine_congr (fam : Classifier) (rt a1 a2 : Str) (flush : FlushFlag)
    (f : fakeIPTables) (tn line : Str) (hline : ∃ b, line = b ++ [newline] ∧ newline ∉ b)
    (h : ∀ c, ' ' ∉ c → newline ∉ c →
      strContains a1 ("-X ".toList ++ c) = strContains a2 ("-X ".toList ++ c)) :
    restoreLine fam rt a1 flush f tn line = restoreLine fam rt a2 flush f tn line := by
  obtain ⟨b, hb1, hb2⟩ := hline
  have hcut : newline ∉ cutSuffixChar line newline := by
    rw [hb1, cutSuffixChar_append]
    exact hb2
  unfold restoreLine
  cases line with
  | nil => rfl
  | cons c0 rest =>
    simp only
    by_cases hc : c0 = '#'
    · simp only [hc, if_true]
    · simp only [hc, if_false]
      exact restoreBlock_congr fam rt a1 a2 flush f _ _ hcut h

theorem restoreLines_congr (fam : Classifier) (rt a1 a2 : Str) (flush : FlushFlag)
    (lines : List Str) (f : fakeIPTables) (tn : Str)
    (hlines : ∀ l ∈ lines, ∃ b, l = b ++ [newline] ∧ newline ∉ b)
    (h : ∀ c, ' ' ∉ c → newline ∉ c →
      strContains a1 ("-X ".toList ++ c) = strContains a2 ("-X ".toList ++ c)) :
    restoreLines fam rt a1 flush lines f tn = restoreLines fam rt a2 flush lines f tn := by
  induction lines generalizing f tn with
  | nil => rfl
  | cons line rest ih =>
    have ih2 := fun f tn => ih f tn (fun l hl => hlines l (by simp [hl]))
    unfold restoreLines
    rw [restoreLine_congr fam rt a1 a2 flush f tn line (hlines line (by simp)) h]
    cases restoreLine fam rt a2 flush f tn line with
    | next f2 tn2 => exact ih2 f2 tn2
    | done f2 r => rfl

theorem restoreLine_comment (fam : Classifier) (rt allLines : Str) (flush : FlushFlag)
    (f : fakeIPTables) (tn rest : Str) :
    restoreLine fam rt allLines flush f tn ('#' :: rest) = .next f tn := by
  unfold restoreLine
  simp

theorem restoreLines_comment (fam : Classifier) (rt allLines : Str) (flush : FlushFlag)
    (pre post : List Str) (rest : Str) (f : fakeIPTables) (tn : Str) :
    restoreLines fam rt allLines flush (pre ++ ('#' :: rest) :: post) f tn
      = restoreLines fam rt allLines flush (pre ++ post) f tn := by
  induction pre generalizing f tn with
  | nil =>
    simp only [List.nil_append]
    conv_lhs => unfold restoreLines
    rw [restoreLine_comment]
  | cons line pre ih =>
    simp only [List.cons_append]
    conv_lhs => unfold restoreLines
    conv_rhs => unfold restoreLines
    cases restoreLine fam rt allLines flush f tn line with
    | next f2 tn2 => exact ih f2 tn2
    | done f2 r => rfl

/-- C16 fails on the code: with the chain `filter`/`FOO` holding a rule, the
stream `*filter`, `:FOO - [0:0]`, `COMMIT` restored without flush empties `FOO`,
but with the comment line `# -X FOO` put in front the same stream leaves the
rule in place; both calls return success.  The loop skips the comment line,
yet the search of the whole input for `-X FOO` finds its text and withholds the
flush of a chain that nothing deletes. -/
theorem restore_comment_changes_store :
    RestoreAll sampleClassifier
        (EnsureRule sampleClassifier sampleQuote newFakeIPTables .Append "filter".toList
          "FOO".toList ["-j".toList, "ACCEPT".toList]).1
        (text ["*filter", ":FOO - [0:0]", "COMMIT"]) .NoFlushTables
      = ((EnsureChain newFakeIPTables "filter".toList "FOO".toList).1, .ok ()) ∧
    RestoreAll sampleClassifier
        (EnsureRule sampleClassifier sampleQuote newFakeIPTables .Append "filter".toList
          "FOO".toList ["-j".toList, "ACCEPT".toList]).1
        (text ["# -X FOO", "*filter", ":FOO - [0:0]", "COMMIT"]) .NoFlushTables
      = ((EnsureRule sampleClassifier sampleQuote newFakeIPTables .Append "filter".toList
          "FOO".toList ["-j".toList, "ACCEPT".toList]).1, .ok ()) ∧
    rulesAt (EnsureChain newFakeIPTables "filter".toList "FOO".toList).1 "filter".toList
        "FOO".toList = some [] ∧
    rulesAt (EnsureRule sampleClassifier sampleQuote newFakeIPTables .Append "filter".toList
        "FOO".toList ["-j".toList, "ACCEPT".toList]).1 "filter".toList "FOO".toList
      = some ["-j ACCEPT".toList] := by
  decide

/-- How far the code ignores a comment line: a newline-terminated line that
begins with `#`, inserted at a line boundary of the stream (its start, or right
after a newline), changes neither the result of `restore` nor the final store
when every text `-X c` the comment line contains, for `c` free of spaces and
newlines, occurs in the stream already, so that the search of the whole input
answers as before. -/
theorem restore_comment_ignored (fam : Classifier) (f : fakeIPTables) (rt : Str)
    (flush : FlushFlag) (d1 d2 body : Str)
    (hb : d1 = [] ∨ d1.getLast? = some newline) (hbody : newline ∉ body)
    (hx : ∀ c, ' ' ∉ c → newline ∉ c →
      strContains ('#' :: body) ("-X ".toList ++ c) = true →
      strContains (d1 ++ d2) ("-X ".toList ++ c) = true) :
    restore fam f rt (d1 ++ ('#' :: body ++ [newline]) ++ d2) flush
      = restore fam f rt (d1 ++ d2) flush := by
  have hcb : newline ∉ '#' :: body := by
    intro h
    rcases List.mem_cons.mp h with h | h
    · exact absurd h (by decide)
    · exact hbody h
  have hform : d1 ++ ('#' :: body ++ [newline]) ++ d2
      = d1 ++ (('#' :: body) ++ newline :: d2) := by simp
  have hsame : ∀ c, ' ' ∉ c → newline ∉ c →
      strContains (d1 ++ ('#' :: body ++ [newline]) ++ d2) ("-X ".toList ++ c)
        = strContains (d1 ++ d2) ("-X ".toList ++ c) := by
    intro c hc1 hc2
    have hp : newline ∉ "-X ".toList ++ c := by
      intro h
      rcases List.mem_append.mp h with h | h
      · exact absurd h (by decide)
      · exact hc2 h
    have hx2 := hx c hc1 hc2
    rw [hform]
    rcases hb with h | h
    · subst h
      simp only [List.nil_append] at hx2 ⊢
      rw [strContains_line _ _ _ hp]
      cases h1 : strContains ('#' :: body) ("-X ".toList ++ c) with
      | false => simp
      | true =>
        rw [hx2 h1]
        rfl
    · obtain ⟨ys, rfl⟩ := List.getLast?_eq_some_iff.mp h
      have e1 : ys ++ [newline] ++ (('#' :: body) ++ newline :: d2)
          = ys ++ newline :: (('#' :: body) ++ newline :: d2) := by simp
      have e2 : ys ++ [newline] ++ d2 = ys ++ newline :: d2 := by simp
      rw [e2] at hx2
      rw [e1, e2, strContains_line _ _ _ hp, strContains_line _ _ _ hp,
        strContains_line _ _ _ hp]
      rw [strContains_line _ _ _ hp] at hx2
      cases h1 : strContains ('#' :: body) ("-X ".toList ++ c) with
      | false => simp
      | true =>
        have := hx2 h1
        cases h3 : strContains ys ("-X ".toList ++ c) <;> simp_all
  have hlines : readLines (d1 ++ ('#' :: body ++ [newline]) ++ d2)
      = readLines d1 ++ ('#' :: (body ++ [newline])) :: readLines d2 := by
    rw [hform, readLines_append d1 _ hb, readLines_line _ _ hcb]
    rfl
  unfold restore
  rw [hlines, restoreLines_comment, readLines_append d1 d2 hb, ← readLines_append d1 d2 hb]
  exact restoreLines_congr fam rt _ _ flush _ f [] (readLines_shape _) hsame

/-- The stream `*filter`, `:FOO - [0:0]`, `COMMIT` with the comment line
`# note` inserted after its first line restores as the stream without it. -/
theorem restore_comment_ignored_witness :
    restore sampleClassifier newFakeIPTables [] (text ["*filter", "# note", ":FOO - [0:0]", "COMMIT"])
        .NoFlushTables
      = restore sampleClassifier newFakeIPTables [] (text ["*filter", ":FOO - [0:0]", "COMMIT"])
        .NoFlushTables :=
  restore_comment_ignored sampleClassifier newFakeIPTables [] .NoFlushTables
    (text ["*filter"]) (text [":FOO - [0:0]", "COMMIT"]) " note".toList
    (Or.inr (by decide)) (by decide)
    (by
      intro c _ _ h
      simp [strContains, startsWith] at h)

/-! ### Bytes after the `COMMIT` of the filtered table -/

theorem restorePrefix_congr (fam : Classifier) (rt a1 a2 : Str) (flush : FlushFlag)
    (lines : List Str) (f : fakeIPTables) (tn : Str)
    (hlines : ∀ l ∈ lines, ∃ b, l = b ++ [newline] ∧ newline ∉ b)
    (h : ∀ c, ' ' ∉ c → newline ∉ c →
      strContains a1 ("-X ".toList ++ c) = strContains a2 ("-X ".toList ++ c)) :
    restorePrefix fam rt a1 flush lines f tn = restorePrefix fam rt a2 flush lines f tn := by
  induction lines generalizing f tn with
  | nil => rfl
  | cons line rest ih =>
    have ih2 := fun f tn => ih f tn (fun l hl => hlines l (by simp [hl]))
    unfold restorePrefix
    rw [restoreLine_congr fam rt a1 a2 flush f tn line (hlines line (by simp)) h]
    cases restoreLine fam rt a2 flush f tn line with
    | next f2 tn2 => exact ih2 f2 tn2
    | done f2 r => rfl

/-- The lines read from a stream are still read, first, when bytes are added
at its end. -/
theorem readLines_append_right (d s : Str) :
    ∃ more, readLines (d ++ s) = readLines d ++ more := by
  induction d with
  | nil => exact ⟨readLines s, rfl⟩
  | cons c d ih =>
    obtain ⟨more, hm⟩ := ih
    by_cases hc : c = newline
    · exact ⟨more, by simp [readLines, hc, hm]⟩
    · cases hr : readLines d with
      | nil => exact ⟨readLines (c :: d ++ s), by simp [readLines, hc, hr]⟩
      | cons l ls =>
        rw [hr] at hm
        exact ⟨more, by simp [readLines, hc, hr, hm]⟩

/-- C17 fails on the code: with the chain `filter`/`FOO` holding a rule, the
stream `*filter`, `:FOO - [0:0]`, `COMMIT` restored into table `filter` without
flush empties `FOO`, but with the bytes `-X FOO` added after the `COMMIT` line
the rule stays; both calls return success.  The loop returns at the `COMMIT`
and never reads the added bytes as a line, yet the search of the whole input
for `-X FOO` finds them and withholds the flush of a chain that nothing
deletes. -/
theorem restore_suffix_changes_store :
    Restore sampleClassifier
        (EnsureRule sampleClassifier sampleQuote newFakeIPTables .Append "filter".toList
          "FOO".toList ["-j".toList, "ACCEPT".toList]).1
        "filter".toList (text ["*filter", ":FOO - [0:0]", "COMMIT"]) .NoFlushTables
      = ((EnsureChain newFakeIPTables "filter".toList "FOO".toList).1, .ok ()) ∧
    Restore sampleClassifier
        (EnsureRule sampleClassifier sampleQuote newFakeIPTables .Append "filter".toList
          "FOO".toList ["-j".toList, "ACCEPT".toList]).1
        "filter".toList (text ["*filter", ":FOO - [0:0]", "COMMIT"] ++ "-X FOO".toList)
        .NoFlushTables
      = ((EnsureRule sampleClassifier sampleQuote newFakeIPTables .Append "filter".toList
          "FOO".toList ["-j".toList, "ACCEPT".toList]).1, .ok ()) ∧
    chainAt (EnsureChain newFakeIPTables "filter".toList "FOO".toList).1 "filter".toList
        "FOO".toList = some { name := "FOO".toList, rules := [] } ∧
    chainAt (EnsureRule sampleClassifier sampleQuote newFakeIPTables .Append "filter".toList
        "FOO".toList ["-j".toList, "ACCEPT".toList]).1 "filter".toList "FOO".toList
      = some { name := "FOO".toList, rules := ["-j ACCEPT".toList] } := by
  decide

/-- How far the code leaves the bytes after the filtered `COMMIT` alone: let
the lines of the stream `d` before a `COMMIT` line be processed by
`Restore(t, d)`, `t` non-empty, without a return and leave the parser inside
table `t` with the store `f'`.  Then `Restore(t, d)` returns success with the
store `f'`, and so does `Restore(t, d ++ s)` for a suffix `s` of further bytes
when for every `c` free of spaces and newlines the text `-X c` occurs in
`d ++ s` iff it occurs in `d`, so that the search of the whole input answers
as before. -/
theorem restore_stops_at_commit (fam : Classifier) (f f' : fakeIPTables) (t d s : Str)
    (flush : FlushFlag) (pre post : List Str) (ht : t ≠ [])
    (hlines : readLines d = pre ++ ("COMMIT".toList ++ [newline]) :: post)
    (hpre : restorePrefix fam t d flush pre f [] = some (f', t))
    (hx : ∀ c, ' ' ∉ c → newline ∉ c →
      strContains (d ++ s) ("-X ".toList ++ c) = strContains d ("-X ".toList ++ c)) :
    Restore fam f t d flush = (f', .ok ()) ∧ Restore fam f t (d ++ s) flush = (f', .ok ()) := by
  have hshape : ∀ l ∈ pre, ∃ b, l = b ++ [newline] ∧ newline ∉ b := by
    intro l hl
    exact readLines_shape d l (by rw [hlines]; simp [hl])
  have hpre2 : restorePrefix fam t (d ++ s) flush pre f [] = some (f', t) := by
    rw [restorePrefix_congr fam t (d ++ s) d flush pre f [] hshape hx]
    exact hpre
  obtain ⟨more, hmore⟩ := readLines_append_right d s
  have hstop : ∀ (a : Str) (rest : List Str),
      restoreLines fam t a flush (("COMMIT".toList ++ [newline]) :: rest) f' t = (f', .ok ()) := by
    intro a rest
    unfold restoreLines
    rw [restoreLine_commit fam t a t flush f' ht (Or.inr rfl)]
    simp
  unfold Restore restore
  constructor
  · rw [hlines, restoreLines_after fam t d flush pre _ f f' [] t hpre]
    exact hstop d post
  · rw [hmore, hlines, List.append_assoc,
      restoreLines_after fam t (d ++ s) flush pre _ f f' [] t hpre2]
    exact hstop (d ++ s) (post ++ more)

/-- The stream `*filter`, `:FOO - [0:0]`, `COMMIT` followed by the bytes
`garbage`, restored into table `filter` of a fresh engine, gives what the
stream alone gives. -/
theorem restore_stops_at_commit_witness :
    Restore sampleClassifier newFakeIPTables "filter".toList
        (text ["*filter", ":FOO - [0:0]", "COMMIT"]) .NoFlushTables
      = ((EnsureChain newFakeIPTables "filter".toList "FOO".toList).1, .ok ()) ∧
    Restore sampleClassifier newFakeIPTables "filter".toList
        (text ["*filter", ":FOO - [0:0]", "COMMIT"] ++ "garbage".toList) .NoFlushTables
      = ((EnsureChain newFakeIPTables "filter".toList "FOO".toList).1, .ok ()) :=
  restore_stops_at_commit sampleClassifier newFakeIPTables
    (EnsureChain newFakeIPTables "filter".toList "FOO".toList).1 "filter".toList
    (text ["*filter", ":FOO - [0:0]", "COMMIT"]) "garbage".toList .NoFlushTables
    [("*filter".toList ++ [newline]), (":FOO - [0:0]".toList ++ [newline])] []
    (by decide) (by decide) (by decide)
    (by
      intro c _ _
      simp [text, strContains, startsWith, newline])

/-! ### The normalizer against its reference definition -/

theorem refAddr_eq (fam : Classifier) (tok : Str) : refAddr fam tok = addrSuffix fam tok := rfl

theorem addrSuffix_ne_nil (fam : Classifier) (tok : Str) (h : tok ≠ []) :
    addrSuffix fam tok ≠ [] := by
  rcases addrSuffix_cases fam tok with ⟨_, h1⟩ | ⟨_, h1 | h1⟩ <;> rw [h1] <;> simp [h]

/-- Trimming leaves what is pushed for a token alone when the token starts and
ends with characters that are not white space, or is empty. -/
theorem trimSpace_addrSuffix (fam : Classifier) (tok : Str)
    (hh : ∀ a, tok.head? = some a → isSpace a = false)
    (hl : ∀ b, tok.getLast? = some b → isSpace b = false) :
    trimSpace (addrSuffix fam tok) = addrSuffix fam tok := by
  have key : ∀ sfx : Str, sfx = "/32".toList ∨ sfx = "/128".toList →
      trimSpace (tok ++ sfx) = tok ++ sfx := by
    intro sfx hs
    apply trimSpace_of_ends
    · intro a ha
      cases tok with
      | nil =>
        rcases hs with rfl | rfl <;> simp at ha <;> rw [← ha] <;> decide
      | cons c tok => exact hh a (by simpa using ha)
    · intro b hb
      rcases hs with rfl | rfl
      · have : (tok ++ "/32".toList).getLast? = some '2' := by
          simp [List.getLast?_append]
        rw [this] at hb
        cases hb
        decide
      · have : (tok ++ "/128".toList).getLast? = some '8' := by
          simp [List.getLast?_append]
        rw [this] at hb
        cases hb
        decide
  rcases addrSuffix_cases fam tok with ⟨_, h1⟩ | ⟨_, h1 | h1⟩
  · rw [h1]
    exact trimSpace_of_ends tok hh hl
  · rw [h1]
    exact key _ (Or.inl rfl)
  · rw [h1]
    exact key _ (Or.inr rfl)

theorem pushToken_plain (fam : Classifier) (N tok : Str) (h : ∀ c ∈ tok, isSpace c = false) :
    pushToken fam N tok = glue N (addrSuffix fam tok) := by
  rw [pushToken_eq_glue, trimSpace_addrSuffix fam tok
    (fun a ha => h a (List.mem_of_mem_head? ha))
    (fun b hb => h b (List.mem_of_getLast?_eq_some hb))]

theorem pushToken_quoted (fam : Classifier) (N body : Str) :
    pushToken fam N (dquote :: (body ++ [dquote]))
      = glue N (addrSuffix fam (dquote :: (body ++ [dquote]))) := by
  rw [pushToken_eq_glue, trimSpace_addrSuffix]
  · intro a ha
    simp only [List.head?_cons, Option.some.injEq] at ha
    rw [← ha]
    decide
  · intro b hb
    have : (dquote :: (body ++ [dquote])).getLast? = some dquote := by
      rw [← List.cons_append, List.getLast?_append]
      simp
    rw [this] at hb
    cases hb
    decide

/-- A text that does not start with `--to-destination=` and has no space does
not start with it when a space and more text follow. -/
theorem startsWith_toDestination_space (y S : Str) (h1 : ' ' ∉ y)
    (h3 : startsWith y toDestination = false) :
    startsWith (y ++ ' ' :: S) toDestination = false := by
  have gen : ∀ (p y : Str), ' ' ∉ p → ' ' ∉ y → startsWith y p = false →
      startsWith (y ++ ' ' :: S) p = false := by
    intro p
    induction p with
    | nil =>
      intro y _ _ h
      rw [startsWith_nil] at h
      cases h
    | cons b p ih =>
      intro y hp hy h
      have hb : ' ' ≠ b := fun e => hp (List.mem_cons.mpr (Or.inl e))
      cases y with
      | nil => simp [startsWith, hb]
      | cons a y =>
        simp only [List.cons_append, startsWith_cons_cons] at h ⊢
        by_cases hab : a = b
        · subst hab
          simp only [decide_True, Bool.true_and] at h ⊢
          exact ih y (fun e => hp (by simp [e])) (fun e => hy (by simp [e])) h
        · simp [hab]
  exact gen toDestination y (by decide) h1 h3

theorem splitDest_ne_nil (tok : Str) : splitDest tok ≠ [] := by
  unfold splitDest
  split_ifs <;> simp

theorem refTokens_eq_nil_iff (fam : Classifier) (rest : List Str) :
    (rest.flatMap splitDest).map (refAddr fam) = [] ↔ rest = [] := by
  cases rest with
  | nil => simp
  | cons a rest =>
    have := splitDest_ne_nil a
    simp [this]

theorem normalizeRef_cons (fam : Classifier) (tok : Str) (rest : List Str)
    (h : startsWith tok toDestination = false) :
    normalizeRef fam (tok :: rest)
      = addrSuffix fam tok ++ (if rest = [] then [] else ' ' :: normalizeRef fam rest) := by
  unfold normalizeRef
  rw [List.flatMap_cons]
  have hs : splitDest tok = [tok] := by simp [splitDest, h]
  rw [hs, List.singleton_append, List.map_cons, joinSp_cons, refAddr_eq]
  by_cases hr : rest = []
  · simp [hr]
  · rw [if_neg hr, if_neg (fun e => hr ((refTokens_eq_nil_iff fam rest).mp e))]

theorem normalizeRef_cons_dest (fam : Classifier) (X : Str) (rest : List Str) :
    normalizeRef fam ((toDestination ++ X) :: rest)
      = addrSuffix fam "--to-destination".toList ++ ' ' ::
          (addrSuffix fam X ++ (if rest = [] then [] else ' ' :: normalizeRef fam rest)) := by
  unfold normalizeRef
  rw [List.flatMap_cons]
  have hs : splitDest (toDestination ++ X) = ["--to-destination".toList, X] := by
    simp [splitDest, startsWith_append]
  rw [hs]
  simp only [List.cons_append, List.nil_append, List.map_cons]
  rw [joinSp_cons, if_neg (by simp), joinSp_cons, refAddr_eq, refAddr_eq]
  by_cases hr : rest = []
  · simp [hr]
  · rw [if_neg hr, if_neg (fun e => hr ((refTokens_eq_nil_iff fam rest).mp e))]

/-- Scanning an unquoted token without white space that is followed by a space. -/
theorem normFrom_bare_more (fam : Classifier) (N y S : Str) (hy : ∀ c ∈ y, isSpace c = false)
    (h2 : y.head? ≠ some dquote) (h3 : startsWith y toDestination = false) :
    normFrom fam N (y ++ ' ' :: S) = normFrom fam (glue N (addrSuffix fam y)) S := by
  have hsp : ' ' ∉ y := fun h => by
    have := hy ' ' h
    revert this
    decide
  rw [normFrom_token_more fam N y S hsp h2 (startsWith_toDestination_space y S hsp h3),
    pushToken_plain fam N y hy]

/-- Scanning an unquoted token without white space that ends the rule. -/
theorem normFrom_bare_last (fam : Classifier) (N y : Str) (h0 : y ≠ [])
    (hy : ∀ c ∈ y, isSpace c = false)
    (h2 : y.head? ≠ some dquote) (h3 : startsWith y toDestination = false) :
    normFrom fam N y = .ok (glue N (addrSuffix fam y)) := by
  have hsp : ' ' ∉ y := fun h => by
    have := hy ' ' h
    revert this
    decide
  rw [normFrom_token_last fam N y h0 hsp h2 h3, pushToken_plain fam N y hy]

theorem normFrom_toDestination_glue (fam : Classifier) (N Z : Str) :
    normFrom fam N (toDestination ++ Z)
      = normFrom fam (glue N (addrSuffix fam "--to-destination".toList)) Z := by
  rw [normFrom_toDestination, pushToken_plain fam N _ (by decide)]

/-- The loop of `normalizeRule` on tokens joined by single spaces gives the
reference text, glued to what was normalized before. -/
theorem normFrom_tokens (fam : Classifier) (toks : List Str) :
    ∀ N : Str, toks ≠ [] → (∀ t ∈ toks, QuotedToken t ∨ BareToken t) →
      (N ≠ [] ∨ toks.head? ≠ some []) → toks.getLast? ≠ some [] →
      toks.getLast? ≠ some toDestination →
      normFrom fam N (joinSp toks) = .ok (glue N (normalizeRef fam toks)) := by
  induction toks with
  | nil =>
    intro N h
    exact absurd rfl h
  | cons tok rest ih =>
    intro N _ hall hfirst hl1 hl2
    have htok := hall tok (by simp)
    have hN : N ≠ [] ∨ tok ≠ [] := by
      rcases hfirst with h | h
      · exact Or.inl h
      · right
        intro e
        apply h
        simp [e]
    by_cases hr : rest = []
    · subst hr
      have ht0 : tok ≠ [] := fun e => hl1 (by simp [e])
      have ht1 : tok ≠ toDestination := fun e => hl2 (by simp [e])
      rcases htok with ⟨body, rfl, hb⟩ | ⟨hy, h2, h4⟩
      · have hnd : startsWith (dquote :: (body ++ [dquote])) toDestination = false :=
          startsWith_toDestination_of_head dquote _ (by decide)
        rw [normalizeRef_cons fam _ [] hnd]
        simp only [joinSp, if_true, List.append_nil]
        rw [normFrom_quoted fam N body [] hb, if_pos rfl, pushToken_quoted]
      · by_cases h3 : startsWith tok toDestination = true
        · have hform := startsWith_eq_true tok toDestination h3
          obtain ⟨hx1, hx2⟩ := h4 h3
          have hX0 : tok.drop toDestination.length ≠ [] := by
            intro e
            apply ht1
            rw [hform, e, List.append_nil]
          have hXy : ∀ c ∈ tok.drop toDestination.length, isSpace c = false :=
            fun c hc => hy c (List.mem_of_mem_drop hc)
          rw [hform, normalizeRef_cons_dest]
          simp only [joinSp, if_true, List.append_nil]
          rw [normFrom_toDestination_glue, normFrom_bare_last fam _ _ hX0 hXy hx1 hx2,
            glue_glue N _ _ (Or.inr (addrSuffix_ne_nil fam _ (by decide)))]
        · have h3f : startsWith tok toDestination = false := by simpa using h3
          rw [normalizeRef_cons fam _ [] h3f]
          simp only [joinSp, if_true, List.append_nil]
          rw [normFrom_bare_last fam N tok ht0 hy h2 h3f]
    · obtain ⟨r0, rs, hrs⟩ : ∃ r0 rs, rest = r0 :: rs := by
        cases rest with
        | nil => exact absurd rfl hr
        | cons r0 rs => exact ⟨r0, rs, rfl⟩
      have hlast : (tok :: rest).getLast? = rest.getLast? := by
        rw [hrs, List.getLast?_cons_cons]
      rw [hlast] at hl1 hl2
      have ih2 : ∀ N', N' ≠ [] →
          normFrom fam N' (joinSp rest) = .ok (glue N' (normalizeRef fam rest)) :=
        fun N' hN' => ih N' hr (fun t ht => hall t (by simp [ht])) (Or.inl hN') hl1 hl2
      have hjoin : ∀ a : Str, joinSp (a :: rest) = a ++ ' ' :: joinSp rest := by
        intro a
        rw [joinSp_cons, if_neg hr]
      rcases htok with ⟨body, rfl, hb⟩ | ⟨hy, h2, h4⟩
      · have hnd : startsWith (dquote :: (body ++ [dquote])) toDestination = false :=
          startsWith_toDestination_of_head dquote _ (by decide)
        have hform : dquote :: (body ++ [dquote]) ++ ' ' :: joinSp rest
            = dquote :: (body ++ dquote :: (' ' :: joinSp rest)) := by simp
        have hq : addrSuffix fam (dquote :: (body ++ [dquote])) ≠ [] :=
          addrSuffix_ne_nil fam _ (by simp)
        rw [normalizeRef_cons fam _ rest hnd, if_neg hr, hjoin, hform,
          normFrom_quoted fam N body _ hb, if_neg (by simp), pushToken_quoted]
        simp only [List.drop_succ_cons, List.drop_zero]
        rw [ih2 _ (glue_ne_nil N _ (Or.inr hq)), glue_glue N _ _ (Or.inr hq)]
      · by_cases h3 : startsWith tok toDestination = true
        · have hform := startsWith_eq_true tok toDestination h3
          obtain ⟨hx1, hx2⟩ := h4 h3
          have hXy : ∀ c ∈ tok.drop toDestination.length, isSpace c = false :=
            fun c hc => hy c (List.mem_of_mem_drop hc)
          have ha1 : addrSuffix fam "--to-destination".toList ≠ [] :=
            addrSuffix_ne_nil fam _ (by decide)
          have hN1 : glue N (addrSuffix fam "--to-destination".toList) ≠ [] :=
            glue_ne_nil N _ (Or.inr ha1)
          rw [hjoin, hform, normalizeRef_cons_dest, if_neg hr, List.append_assoc,
            normFrom_toDestination_glue, normFrom_bare_more fam _ _ _ hXy hx1 hx2,
            ih2 _ (glue_ne_nil _ _ (Or.inl hN1)), glue_glue _ _ _ (Or.inl hN1),
            glue_glue N _ _ (Or.inr ha1)]
        · have h3f : startsWith tok toDestination = false := by simpa using h3
          have ha : N ≠ [] ∨ addrSuffix fam tok ≠ [] := by
            rcases hN with h | h
            · exact Or.inl h
            · exact Or.inr (addrSuffix_ne_nil fam tok h)
          rw [hjoin, normalizeRef_cons fam _ rest h3f, if_neg hr,
            normFrom_bare_more fam N tok _ hy h2 h3f, ih2 _ (glue_ne_nil N _ ha),
            glue_glue N _ _ ha]

theorem joinSp_head (tok : Str) (rest : List Str) (h : tok ≠ []) :
    (joinSp (tok :: rest)).head? = tok.head? := by
  rw [joinSp_cons]
  cases tok with
  | nil => exact absurd rfl h
  | cons a tok => rfl

theorem joinSp_getLast (pre : List Str) (b : Str) (h : b ≠ []) :
    (joinSp (pre ++ [b])).getLast? = b.getLast? := by
  rw [joinSp_split, if_pos rfl, List.append_nil, List.getLast?_append]
  cases hb : b.getLast? with
  | none =>
    rw [List.getLast?_eq_none_iff] at hb
    exact absurd hb h
  | some z => rfl

theorem token_ends_not_space (t : Str) (h : QuotedToken t ∨ BareToken t) :
    (∀ a, t.head? = some a → isSpace a = false) ∧
    (∀ b, t.getLast? = some b → isSpace b = false) := by
  rcases h with ⟨body, rfl, _⟩ | ⟨hy, _, _⟩
  · constructor
    · intro a ha
      simp only [List.head?_cons, Option.some.injEq] at ha
      rw [← ha]
      decide
    · intro b hb
      have : (dquote :: (body ++ [dquote])).getLast? = some dquote := by
        rw [← List.cons_append, List.getLast?_append]
        simp
      rw [this] at hb
      cases hb
      decide
  · exact ⟨fun a ha => hy a (List.mem_of_mem_head? ha),
      fun b hb => hy b (List.mem_of_getLast?_eq_some hb)⟩

/-- C20, as stated, fails: the tokens `a` and tab-`b` are space-free and start
with no double quote, but `normalizeRule` trims the tab while the reference
keeps it; the single empty token makes `normalizeRule` panic; and the token
`--to-destination=` followed by a double quote and `a` makes it return the
mismatched-quotes error. -/
theorem normalizeRule_differs_from_reference :
    (SpaceFreeToken "a".toList ∧ SpaceFreeToken [Char.ofNat 9, 'b'] ∧
      normalizeRule sampleClassifier (joinSp ["a".toList, [Char.ofNat 9, 'b']])
        = .ok "a b".toList ∧
      normalizeRef sampleClassifier ["a".toList, [Char.ofNat 9, 'b']]
        = ['a', ' ', Char.ofNat 9, 'b']) ∧
    (SpaceFreeToken [] ∧ normalizeRule sampleClassifier (joinSp [[]]) = .crash) ∧
    (SpaceFreeToken (toDestination ++ [dquote, 'a']) ∧
      normalizeRule sampleClassifier (joinSp [toDestination ++ [dquote, 'a']])
        = .err .mismatchedQuotes ∧
      normalizeRef sampleClassifier [toDestination ++ [dquote, 'a']]
        = "--to-destination".toList ++ [' ', dquote, 'a']) := by
  simp only [SpaceFreeToken]
  decide

/-- C20, amended: the normalizer's output equals the reference definition.
For every non-empty list of tokens, each either a double-quoted string with no
inner double quote or a token without any white-space character that does not
start with a double quote (and, when it is `--to-destination=X`, with `X`
starting neither with a double quote nor with `--to-destination=`), the first
and the last token non-empty and the last token not `--to-destination=` alone,
`normalizeRule` on the tokens joined by single spaces returns the reference
text: the tokens with each `--to-destination=X` split in two and `/32` or
`/128` appended to each token the classifier reports as IPv4 or IPv6, joined by
single spaces. -/
theorem normalizeRule_refines_reference (fam : Classifier) (toks : List Str)
    (hne : toks ≠ []) (hall : ∀ t ∈ toks, QuotedToken t ∨ BareToken t)
    (hfirst : toks.head? ≠ some []) (hl1 : toks.getLast? ≠ some [])
    (hl2 : toks.getLast? ≠ some toDestination) :
    normalizeRule fam (joinSp toks) = .ok (normalizeRef fam toks) := by
  have htrim : trimSpace (joinSp toks) = joinSp toks := by
    apply trimSpace_of_ends
    · intro a ha
      cases toks with
      | nil => exact absurd rfl hne
      | cons tok rest =>
        have ht : tok ≠ [] := fun e => hfirst (by simp [e])
        rw [joinSp_head tok rest ht] at ha
        exact (token_ends_not_space tok (hall tok (by simp))).1 a ha
    · intro b hb
      cases hlast : toks.getLast? with
      | none =>
        rw [List.getLast?_eq_none_iff] at hlast
        exact absurd hlast hne
      | some z =>
        obtain ⟨pre, hpre⟩ := List.getLast?_eq_some_iff.mp hlast
        have hz : z ≠ [] := fun e => hl1 (by rw [hlast, e])
        rw [hpre, joinSp_getLast pre z hz] at hb
        exact (token_ends_not_space z (hall z (by rw [hpre]; simp))).2 b hb
  rw [normalizeRule_eq_normFrom, htrim,
    normFrom_tokens fam toks [] hne hall (Or.inr hfirst) hl1 hl2]
  rfl

/-- C20 amended, on the tokens `-d`, `10.0.0.1`, `--to-destination=10.0.0.2` and
the quoted `a b`. -/
theorem normalizeRule_refines_reference_witness :
    normalizeRule sampleClassifier
        (joinSp ["-d".toList, "10.0.0.1".toList, toDestination ++ "10.0.0.2".toList,
          dquote :: ("a b".toList ++ [dquote])])
      = .ok (normalizeRef sampleClassifier
          ["-d".toList, "10.0.0.1".toList, toDestination ++ "10.0.0.2".toList,
            dquote :: ("a b".toList ++ [dquote])]) :=
  normalizeRule_refines_reference sampleClassifier
    ["-d".toList, "10.0.0.1".toList, toDestination ++ "10.0.0.2".toList,
      dquote :: ("a b".toList ++ [dquote])]
    (by simp)
    (by
      intro t ht
      simp only [List.mem_cons, List.mem_singleton, List.not_mem_nil, or_false] at ht
      rcases ht with rfl | rfl | rfl | rfl
      · right
        unfold BareToken
        decide
      · right
        unfold BareToken
        decide
      · right
        unfold BareToken
        decide
      · left
        exact ⟨"a b".toList, rfl, by decide⟩)
    (by decide) (by decide) (by decide)

/-- C22: no chain ever holds a duplicate rule.  In every store reachable from a
fresh engine by any sequence of `EnsureChain`, `FlushChain`, `DeleteChain`,
`EnsureRule`, `DeleteRule`, `Restore` and `RestoreAll` calls, whatever they
return, the rule list of every chain holds pairwise distinct strings. -/
theorem reachable_rules_distinct (fam : Classifier) (quote : Str → Str) (f : fakeIPTables)
    (hf : Reachable fam quote f) (t c : Str) (chain : fakeChain)
    (hc : chainAt f t c = some chain) :
    chain.rules.Pairwise (fun r1 r2 => r1 ≠ r2) :=
  NoDupRules_of_Reachable fam quote hf t c chain hc

/-- C22 on the store left by calling `EnsureRule` twice with the same rule and
once with another, then restoring a stream that appends the first rule again. -/
theorem reachable_rules_distinct_witness :
    (["-j ACCEPT".toList, "-j DROP".toList] : List Str).Pairwise (fun r1 r2 => r1 ≠ r2) :=
  reachable_rules_distinct sampleClassifier sampleQuote
    (RestoreAll sampleClassifier
      (EnsureRule sampleClassifier sampleQuote
        (EnsureRule sampleClassifier sampleQuote
          (EnsureRule sampleClassifier sampleQuote newFakeIPTables .Append "filter".toList
            "INPUT".toList ["-j".toList, "ACCEPT".toList]).1
          .Append "filter".toList "INPUT".toList ["-j".toList, "ACCEPT".toList]).1
        .Append "filter".toList "INPUT".toList ["-j".toList, "DROP".toList]).1
      (text ["*filter", "-A INPUT -j ACCEPT", "COMMIT"]) .NoFlushTables).1
    (Reachable.RestoreAll _ _
      (Reachable.EnsureRule _ _ _ _
        (Reachable.EnsureRule _ _ _ _ (Reachable.EnsureRule _ _ _ _ Reachable.fresh))))
    "filter".toList "INPUT".toList
    { name := "INPUT".toList, rules := ["-j ACCEPT".toList, "-j DROP".toList] }
    (by decide)

/-! ### Stored rules are fixed points of the normalizer -/

theorem FixedRules_new (fam : Classifier) : FixedRules fam newFakeIPTables := by
  intro t c chain h
  have : chainAt newFakeIPTables t c = none := by
    unfold chainAt newFakeIPTables
    simp only [mget]
    split_ifs <;> rfl
  rw [this] at h
  cases h

theorem FixedRules_ensureChain {fam : Classifier} {f : fakeIPTables} (t c : Str)
    (h : FixedRules fam f) : FixedRules fam (ensureChain f t c).1 := by
  intro t' c' chain hc
  by_cases hne : t' ≠ t ∨ c' ≠ c
  · rw [ensureChain_chainAt_ne f t c t' c' hne] at hc
    exact h t' c' chain hc
  · have ht : t' = t := by
      by_contra hx
      exact hne (Or.inl hx)
    have hc' : c' = c := by
      by_contra hx
      exact hne (Or.inr hx)
    subst ht
    subst hc'
    rw [ensureChain_chainAt_same, ensureChain_chain] at hc
    cases hx : chainAt f t' c' with
    | none =>
      rw [hx] at hc
      cases hc
      intro r hr
      cases hr
    | some chain0 =>
      rw [hx] at hc
      cases hc
      exact h t' c' chain0 hx

theorem FixedRules_setRules {fam : Classifier} {f : fakeIPTables} (t c : Str) (chain : fakeChain)
    (rules : List Str) (h : FixedRules fam f)
    (hr : ∀ r ∈ rules, normalizeRule fam r = .ok r) :
    FixedRules fam (setRules f t c chain rules) := by
  intro t' c' chain' hc
  by_cases hne : t' ≠ t ∨ c' ≠ c
  · rw [chainAt_setRules_ne f t c t' c' chain rules hne] at hc
    exact h t' c' chain' hc
  · have ht : t' = t := by
      by_contra hx
      exact hne (Or.inl hx)
    have hc' : c' = c := by
      by_contra hx
      exact hne (Or.inr hx)
    subst ht
    subst hc'
    cases hm : mget t' f.tables with
    | none =>
      have : setRules f t' c' chain rules = f := by simp [setRules, hm]
      rw [this] at hc
      exact h t' c' chain' hc
    | some table =>
      rw [chainAt_setRules_same f t' c' chain rules (by simp [hm])] at hc
      cases hc
      exact hr

theorem FixedRules_FlushChain {fam : Classifier} {f : fakeIPTables} (t c : Str)
    (h : FixedRules fam f) : FixedRules fam (FlushChain f t c).1 := by
  unfold FlushChain
  cases getChain f t c with
  | noTable e => exact h
  | noChain table e => exact h
  | found table chain =>
    exact FixedRules_setRules t c chain [] h (fun r hr => by cases hr)

theorem FixedRules_DeleteChain {fam : Classifier} {f : fakeIPTables} (t c : Str)
    (h : FixedRules fam f) : FixedRules fam (DeleteChain f t c).1 := by
  unfold DeleteChain
  cases h1 : mget t f.tables with
  | none =>
    rw [getChain_noTable c h1]
    exact h
  | some table =>
    cases h2 : mget c table.chains with
    | none =>
      rw [getChain_noChain h1 h2]
      exact h
    | some chain =>
      rw [getChain_found h1 h2]
      intro t' c' chain' hc
      by_cases hne : t' = t
      · subst hne
        rw [chainAt_putChains_same] at hc
        by_cases hcc : c' = c
        · subst hcc
          rw [mget_mdel_self] at hc
          cases hc
        · rw [mget_mdel_ne _ hcc] at hc
          exact h t' c' chain' (by rw [chainAt_of_table c' h1]; exact hc)
      · rw [chainAt_putChains_ne _ _ _ _ hne] at hc
        exact h t' c' chain' hc

theorem FixedRules_DeleteRule {fam : Classifier} {f : fakeIPTables} (t c : Str)
    (args : List Str) (h : FixedRules fam f) : FixedRules fam (DeleteRule f t c args).1 := by
  unfold DeleteRule
  cases h1 : mget t f.tables with
  | none =>
    rw [getChain_noTable c h1]
    exact h
  | some table =>
    cases h2 : mget c table.chains with
    | none =>
      rw [getChain_noChain h1 h2]
      exact h
    | some chain =>
      rw [getChain_found h1 h2]
      have hfix := h t c chain (by rw [chainAt_of_table c h1]; exact h2)
      simp only
      split_ifs with hlt
      · exact h
      · refine FixedRules_setRules t c _ _ h ?_
        intro r hr
        rcases List.mem_append.mp hr with hr | hr
        · exact hfix r (List.mem_of_mem_take hr)
        · exact hfix r (List.mem_of_mem_drop hr)

/-- A call of `ensureRule` keeps the stored rules fixed points when the
canonical form of its rule is one. -/
theorem FixedRules_ensureRule {fam : Classifier} {f : fakeIPTables} (position : RulePosition)
    (t c rule : Str) (h : FixedRules fam f)
    (hrule : ∀ n, normalizeRule fam rule = .ok n → normalizeRule fam n = .ok n) :
    FixedRules fam (ensureRule fam f position t c rule).1 := by
  have h1 : FixedRules fam (ensureChain f t c).1 := FixedRules_ensureChain t c h
  have h2 : ∀ r ∈ (ensureChain f t c).2.2.rules, normalizeRule fam r = .ok r :=
    h1 t c _ (ensureChain_chainAt_same f t c)
  rw [ensureRule_eq]
  cases hn : normalizeRule fam rule with
  | err e => exact h1
  | crash => exact h1
  | outOfFuel => exact h1
  | ok r =>
    have hfix := hrule r hn
    by_cases hr : r ∈ (ensureChain f t c).2.2.rules
    · simpa [hr] using h1
    · simp only [hr, if_false]
      cases position with
      | Prepend =>
        refine FixedRules_setRules t c _ _ h1 ?_
        intro r' hr'
        rcases List.mem_append.mp hr' with hr' | hr'
        · rw [List.mem_singleton.mp hr']
          exact hfix
        · exact h2 r' hr'
      | Append =>
        refine FixedRules_setRules t c _ _ h1 ?_
        intro r' hr'
        rcases List.mem_append.mp hr' with hr' | hr'
        · exact h2 r' hr'
        · rw [List.mem_singleton.mp hr']
          exact hfix
      | unrecognized p => exact h1

/-- What the store-changing calls of `restore` preserve, `restore` preserves,
where the `-A` and `-I` branches need only do so on lines of a given kind and
every line read, less its newline, is of that kind. -/
theorem restoreLines_preserves_lines (fam : Classifier) (P : fakeIPTables → Prop)
    (L : Str → Prop)
    (hEC : ∀ f t c, P f → P (ensureChain f t c).1)
    (hFC : ∀ f t c, P f → P (FlushChain f t c).1)
    (hDC : ∀ f t c, P f → P (DeleteChain f t c).1)
    (hRule : ∀ (f : fakeIPTables) (tableName line flag : Str) (position : RulePosition),
      L line → P f → P (restoreRule fam f tableName line flag position).store)
    (rt allLines : Str) (flush : FlushFlag) (lines : List Str)
    (hlines : ∀ l ∈ lines, L (cutSuffixChar l newline)) (f : fakeIPTables)
    (tableName : Str) (h : P f) :
    P (restoreLines fam rt allLines flush lines f tableName).1 := by
  have hChain : ∀ (f : fakeIPTables) (tableName chainName : Str),
      P f → P (restoreChain f tableName chainName allLines flush).store := by
    intro f tableName chainName h
    unfold restoreChain
    have hdel : ∀ f', (if flush = .FlushTables then
        match getChain f tableName chainName with
        | .noTable e => Except.error e
        | .noChain _ e => Except.error e
        | .found table _ => Except.ok (putChains f tableName table (mdel chainName table.chains))
      else Except.ok f) = Except.ok f' → P f' := by
      intro f' hf'
      split_ifs at hf' with hfl
      · cases h1 : mget tableName f.tables with
        | none => simp [getChain_noTable chainName h1] at hf'
        | some table =>
          cases h2 : mget chainName table.chains with
          | none => simp [getChain_noChain h1 h2] at hf'
          | some chain =>
            simp only [getChain_found h1 h2, Except.ok.injEq] at hf'
            rw [← hf']
            have hd := hDC f tableName chainName h
            unfold DeleteChain at hd
            rw [getChain_found h1 h2] at hd
            exact hd
      · cases hf'
        exact h
    simp only
    split
    · exact h
    · rename_i f' heq
      have h1 : P (ensureChain f' tableName chainName).1 := hEC _ _ _ (hdel f' heq)
      split_ifs
      · rw [Step.store_ofCall]
        exact hFC _ tableName chainName h1
      · exact h1
  have hHeader : ∀ (f : fakeIPTables) (tableName line : Str),
      P f → P (restoreHeader f tableName line allLines flush).store := by
    intro f tableName line h
    unfold restoreHeader
    split
    · exact h
    · exact hChain _ _ _ h
  have hDelete : ∀ (f : fakeIPTables) (tableName line : Str),
      P f → P (restoreDelete f tableName line).store := by
    intro f tableName line h
    unfold restoreDelete
    simp only
    split_ifs with hlen
    · exact h
    · split
      · rw [Step.store_ofCall]
        exact hDC _ tableName _ h
      · exact h
  have hBlock : ∀ (f : fakeIPTables) (tableName line : Str), L line →
      P f → P (restoreBlock fam rt allLines flush f tableName line).store := by
    intro f tableName line hL h
    unfold restoreBlock
    split_ifs
    · exact h
    · exact hHeader _ _ _ h
    · exact hRule _ _ _ _ _ hL h
    · exact hRule _ _ _ _ _ hL h
    · exact hDelete _ _ _ h
    · exact h
    · exact h
    · exact h
    · exact h
  have hLine : ∀ (f : fakeIPTables) (tableName line : Str), L (cutSuffixChar line newline) →
      P f → P (restoreLine fam rt allLines flush f tableName line).store := by
    intro f tableName line hL h
    unfold restoreLine
    split
    · exact h
    · simp only
      split
      · exact h
      · exact hBlock _ _ _ hL h
  induction lines generalizing f tableName with
  | nil => exact h
  | cons line rest ih =>
    unfold restoreLines
    have hx := hLine f tableName line (hlines line (by simp)) h
    split <;> rename_i heq <;> rw [heq] at hx
    · exact ih (fun l hl => hlines l (by simp [hl])) _ _ hx
    · exact hx

theorem readLines_mem (d : Str) : ∀ l ∈ readLines d, ∀ c ∈ l, c ∈ d := by
  induction d with
  | nil => simp [readLines]
  | cons a d ih =>
    by_cases ha : a = newline
    · intro l hl c hc
      simp only [readLines, ha, if_true, List.mem_cons] at hl
      rcases hl with rfl | hl
      · simp only [List.mem_singleton] at hc
        simp [hc, ha]
      · exact List.mem_cons_of_mem _ (ih l hl c hc)
    · cases hr : readLines d with
      | nil => simp [readLines, ha, hr]
      | cons l0 ls =>
        rw [hr] at ih
        intro l hl c hc
        simp only [readLines, ha, if_false, hr, List.mem_cons] at hl
        rcases hl with rfl | hl
        · rcases List.mem_cons.mp hc with rfl | hc
          · simp
          · exact List.mem_cons_of_mem _ (ih l0 (by simp) c hc)
        · exact List.mem_cons_of_mem _ (ih l (by simp [hl]) c hc)

/-- The lines of a stream of plain spaces and newlines, less their newlines,
have no white space other than plain spaces. -/
theorem plainSpaces_of_plainLines (d : Str) (hd : PlainLines d) :
    ∀ l ∈ readLines d, PlainSpaces (cutSuffixChar l newline) := by
  intro l hl
  obtain ⟨b, hb1, hb2⟩ := readLines_shape d l hl
  rw [hb1, cutSuffixChar_append]
  intro c hc hsp
  have hmem : c ∈ d := readLines_mem d l hl c (by rw [hb1]; simp [hc])
  rcases hd c hmem hsp with h | h
  · exact h
  · exact absurd (h ▸ hc) hb2

theorem FixedRules_restoreRule {fam : Classifier} (hfam : AddrOnly fam) (f : fakeIPTables)
    (tableName line flag : Str) (position : RulePosition) (hL : PlainSpaces line)
    (h : FixedRules fam f) :
    FixedRules fam (restoreRule fam f tableName line flag position).store := by
  unfold restoreRule
  simp only
  split_ifs with hlen
  · exact h
  · split
    · rename_i chainName _ _
      rw [Step.store_ofCall]
      refine FixedRules_ensureRule position tableName _ _ h ?_
      intro n hn
      have hps : PlainSpaces (cutPrefix line (flag ++ [' '] ++ chainName ++ [' '])) := by
        intro c hc
        apply hL c
        unfold cutPrefix at hc
        split_ifs at hc
        · exact List.mem_of_mem_drop hc
        · exact hc
      exact (normalizeRule_canon hfam _ n hps hn).1.1
    · exact h

theorem FixedRules_restoreLines {fam : Classifier} (hfam : AddrOnly fam) (rt data : Str)
    (flush : FlushFlag) (hd : PlainLines data) {f : fakeIPTables} (h : FixedRules fam f) :
    FixedRules fam (restoreLines fam rt data flush (readLines data) f []).1 :=
  restoreLines_preserves_lines fam (FixedRules fam) PlainSpaces
    (fun _ t c h => FixedRules_ensureChain t c h)
    (fun _ t c h => FixedRules_FlushChain t c h)
    (fun _ t c h => FixedRules_DeleteChain t c h)
    (fun f tn line flag position hL h => FixedRules_restoreRule hfam f tn line flag position hL h)
    rt data flush (readLines data) (plainSpaces_of_plainLines data hd) f [] h

/-- With a classifier that accepts address characters only, every rule stored
after calls with plain-space texts is a fixed point of `normalizeRule`. -/
theorem FixedRules_of_PlainReachable {fam : Classifier} (hfam : AddrOnly fam)
    (quote : Str → Str) {f : fakeIPTables} (h : PlainReachable fam quote f) :
    FixedRules fam f := by
  induction h with
  | fresh => exact FixedRules_new fam
  | EnsureChain t c _ ih => exact FixedRules_ensureChain t c ih
  | FlushChain t c _ ih => exact FixedRules_FlushChain t c ih
  | DeleteChain t c _ ih => exact FixedRules_DeleteChain t c ih
  | EnsureRule position t c args hps _ ih =>
    exact FixedRules_ensureRule position t c _ ih
      (fun n hn => (normalizeRule_canon hfam _ n hps hn).1.1)
  | DeleteRule t c args _ ih => exact FixedRules_DeleteRule t c args ih
  | Restore t data flush hd _ ih => exact FixedRules_restoreLines hfam t data flush hd ih
  | RestoreAll data flush hd _ ih => exact FixedRules_restoreLines hfam [] data flush hd ih

theorem addrOnly_prefixed_unknown {fam : Classifier} (hfam : AddrOnly fam) (x : Str) :
    fam (x ++ "/32".toList) = .IPFamilyUnknown ∧ fam (x ++ "/128".toList) = .IPFamilyUnknown :=
  ⟨fam_unknown_of_mem hfam _ '/' (by simp) (by decide),
    fam_unknown_of_mem hfam _ '/' (by simp) (by decide)⟩

/-- C21, as stated, fails: the sample classifier reports every `x/32` and
`x/128` as not an address, `normalizeRule` succeeds on `a`, space, tab, double
quote, `b` with the result `a`, space, double quote, `b` (the tab is trimmed
from the token), and on that result it returns the mismatched-quotes error;
`EnsureRule` stores that result, which is no fixed point. -/
theorem normalizeRule_not_idempotent :
    (∀ x, sampleClassifier (x ++ "/32".toList) = .IPFamilyUnknown ∧
      sampleClassifier (x ++ "/128".toList) = .IPFamilyUnknown) ∧
    normalizeRule sampleClassifier ['a', ' ', Char.ofNat 9, dquote, 'b']
      = .ok ['a', ' ', dquote, 'b'] ∧
    normalizeRule sampleClassifier ['a', ' ', dquote, 'b'] = .err .mismatchedQuotes ∧
    rulesAt (EnsureRule sampleClassifier sampleQuote newFakeIPTables .Append "filter".toList
        "LOG".toList ["a".toList, [Char.ofNat 9, dquote, 'b']]).1 "filter".toList "LOG".toList
      = some [['a', ' ', dquote, 'b']] :=
  ⟨addrOnly_prefixed_unknown sampleClassifier_addrOnly, by decide, by decide, by decide⟩

/-- C21, amended: with a classifier that accepts only non-empty strings of
address characters (it then reports every `x/32` and `x/128` as not an
address), for every input `r` whose only white-space characters are plain
spaces and on which `normalizeRule` succeeds with result `n`, `normalizeRule(n)`
succeeds and returns `n`; and every rule stored in a chain is a fixed point of
`normalizeRule` in every store reached from a fresh engine by calls of the
exposed operations in which the rule texts `EnsureRule` builds have no white
space other than plain spaces and the restored streams none other than plain
spaces and newlines. -/
theorem normalizeRule_idempotent {fam : Classifier} (hfam : AddrOnly fam) (quote : Str → Str) :
    (∀ x, fam (x ++ "/32".toList) = .IPFamilyUnknown ∧
      fam (x ++ "/128".toList) = .IPFamilyUnknown) ∧
    (∀ r n, PlainSpaces r → normalizeRule fam r = .ok n → normalizeRule fam n = .ok n) ∧
    (∀ f, PlainReachable fam quote f → ∀ t c chain, chainAt f t c = some chain →
      ∀ r ∈ chain.rules, normalizeRule fam r = .ok r) :=
  ⟨addrOnly_prefixed_unknown hfam,
    fun r n hr hn => (normalizeRule_canon hfam r n hr hn).1.1,
    fun _ hf => FixedRules_of_PlainReachable hfam quote hf⟩

/-- C21 amended, on the rule `-d 10.0.0.1`, whose canonical form
`-d 10.0.0.1/32` is a fixed point. -/
theorem normalizeRule_idempotent_witness :
    normalizeRule sampleClassifier "-d 10.0.0.1/32".toList = .ok "-d 10.0.0.1/32".toList :=
  (normalizeRule_idempotent sampleClassifier_addrOnly sampleQuote).2.1
    "-d 10.0.0.1".toList "-d 10.0.0.1/32".toList
    (by
      unfold PlainSpaces
      decide)
    (by decide)

end FakeIPTables

namespace Cgmgr

/-- C19: `VerifyMemoryIsEnough(memoryLimit, minMemory)` returns an error iff
`memoryLimit` is non-zero and `memoryLimit < minMemory`, for all integers and
so for all 64-bit signed values; the error carries the two numbers; a limit of
0 and a limit equal to the minimum are both accepted. -/
theorem VerifyMemoryIsEnough_spec (memoryLimit minMemory : Int) :
    ((VerifyMemoryIsEnough memoryLimit minMemory).isSome ↔
      (memoryLimit ≠ 0 ∧ memoryLimit < minMemory)) ∧
    (VerifyMemoryIsEnough memoryLimit minMemory
        = some { memoryLimit := memoryLimit, minMemory := minMemory } ∨
      VerifyMemoryIsEnough memoryLimit minMemory = none) ∧
    VerifyMemoryIsEnough 0 minMemory = none ∧
    VerifyMemoryIsEnough minMemory minMemory = none := by
  unfold VerifyMemoryIsEnough
  refine ⟨?_, ?_, ?_, ?_⟩
  · split <;> simp_all
  · split <;> simp
  · simp
  · simp

end Cgmgr
